import Mathlib

/-!
# Layered top-K path engine (`dp_best_path.c`)

A shallow embedding of the bounded top-K heap (`heapify_down`, `heapify_up`,
`insert_path_topk`), of the seven hash layers of `dp_best_path` and of its final
global merge, followed by theorems about them.

Conventions of the embedding.

* `int32` / `int64` values are `Int`; the only arithmetic of the program, the
  64-bit accumulation `sumW += W`, is wrapped explicitly by `wrapInt64`.
* A C array is a `List`, read with `rd` (a default for an index out of range)
  and written with `List.set`; `palloc` yields a list of `k` slots.
* A `HTAB` is the list of its entries in order of first insertion.  The order in
  which `hash_seq_search` delivers the entries belongs to the host's hash table,
  not to this program: it is the parameter `scan`, about which the theorems only
  assume that it delivers every entry exactly once (`IsScan`).
* A relation is the list of rows handed over by `SPI_execute`, every column of
  a row possibly null.
-/

namespace DpBestPath

/-! ## Data model -/

/-- The record `PathState`: five positions and the accumulated weight. -/
structure PathState where
  A : Int
  B : Int
  C : Int
  D : Int
  E : Int
  sumW : Int
deriving DecidableEq, Repr

/-- The record `NodeEntry`; `paths = none` is the `NULL` pointer. -/
structure NodeEntry where
  key : Int
  n_paths : Nat
  k_limit : Nat
  paths : Option (List PathState)
deriving DecidableEq, Repr

/-- A hash layer: its entries, in order of first insertion. -/
abbrev HTAB := List NodeEntry

/-- One row of a relation as delivered by the reader: three columns, each of
which may be null. -/
structure Row where
  c1 : Option Int
  c2 : Option Int
  c3 : Option Int
deriving DecidableEq, Repr

/-- The all-zero record produced by `memset(&path, 0, sizeof(PathState))`. -/
def zeroPath : PathState := ⟨0, 0, 0, 0, 0, 0⟩

/-- Two's-complement wrap of a mathematical integer into the `int64` range. -/
def wrapInt64 (x : Int) : Int := (x + 2 ^ 63) % 2 ^ 64 - 2 ^ 63

/-- Array read `heap[i]`. -/
def rd (heap : List PathState) (i : Nat) : PathState := heap.getD i zeroPath

/-- Fresh array of `k` slots, as returned by `palloc(sizeof(PathState) * k)`. -/
def palloc (k : Nat) : List PathState := List.replicate k zeroPath

/-! ## The bounded top-K heap -/

/-- `swap_paths(&heap[i], &heap[j])`. -/
def swap_paths (heap : List PathState) (i j : Nat) : List PathState :=
  (heap.set i (rd heap j)).set j (rd heap i)

/-- The value of the local `smallest` of `heapify_down` after its two
comparisons. -/
def smallest_of (heap : List PathState) (n i : Nat) : Nat :=
  let l := 2 * i + 1
  let r := 2 * i + 2
  let smallest := if l < n ∧ (rd heap l).sumW < (rd heap i).sumW then l else i
  if r < n ∧ (rd heap r).sumW < (rd heap smallest).sumW then r else smallest

/-- The recursion of `heapify_down`, with an explicit bound on its depth. -/
def heapify_down_aux : Nat → List PathState → Nat → Nat → List PathState
  | 0, heap, _, _ => heap
  | fuel + 1, heap, n, i =>
    let smallest := smallest_of heap n i
    if smallest ≠ i then heapify_down_aux fuel (swap_paths heap i smallest) n smallest
    else heap

/-- `heapify_down(heap, n, i)`: every recursive call moves to a larger index
below `n`, so `n` levels of recursion are never exhausted
(see `heapify_down_aux_fuel`). -/
def heapify_down (heap : List PathState) (n i : Nat) : List PathState :=
  heapify_down_aux n heap n i

/-- The loop of `heapify_up`, with an explicit bound on its iterations. -/
def heapify_up_aux : Nat → List PathState → Nat → List PathState
  | 0, heap, _ => heap
  | fuel + 1, heap, i =>
    let parent := (i - 1) / 2
    if 0 < i ∧ (rd heap i).sumW < (rd heap parent).sumW then
      heapify_up_aux fuel (swap_paths heap i parent) parent
    else heap

/-- `heapify_up(heap, i)`: every iteration moves to a smaller index, so `i`
iterations are never exhausted (see `heapify_up_aux_fuel`). -/
def heapify_up (heap : List PathState) (i : Nat) : List PathState :=
  heapify_up_aux i heap i

/-- `insert_path_topk(entry, new_path, k)`. -/
def insert_path_topk (entry : NodeEntry) (new_path : PathState) (k : Nat) : NodeEntry :=
  let entry : NodeEntry :=
    match entry.paths with
    | none => { entry with paths := some (palloc k), n_paths := 0, k_limit := k }
    | some _ => entry
  let paths := entry.paths.getD []
  if entry.n_paths < k then
    { entry with
      paths := some (heapify_up (paths.set entry.n_paths new_path) entry.n_paths)
      n_paths := entry.n_paths + 1 }
  else if new_path.sumW > (rd paths 0).sumW then
    { entry with paths := some (heapify_down (paths.set 0 new_path) k 0) }
  else entry

/-- The entry that `hash_search(layer, &key, HASH_ENTER, &found)` hands back
when the key was not found, after `n_paths = 0; paths = NULL`. -/
def fresh_entry (key : Int) : NodeEntry :=
  { key := key, n_paths := 0, k_limit := 0, paths := none }

/-- A sequence of calls of `insert_path_topk` on one entry. -/
def insert_all (k : Nat) (e : NodeEntry) (xs : List PathState) : NodeEntry :=
  xs.foldl (fun e p => insert_path_topk e p k) e

/-- The slots `paths[0 .. n_paths-1]` of an entry, in array order: what every
loop `for (i = 0; i < entry->n_paths; i++)` visits. -/
def entry_paths (e : NodeEntry) : List PathState :=
  (e.paths.getD []).take e.n_paths

/-! ## Hash layers -/

/-- `hash_search(layer, &key, HASH_FIND, &found)`. -/
def hash_find (layer : HTAB) (key : Int) : Option NodeEntry :=
  layer.find? (fun e => decide (e.key = key))

/-- `hash_search(layer, &key, HASH_ENTER, &found)`, initialisation of a new
entry, and `insert_path_topk(entry, &path, k)` on the entry found or made. -/
def layer_insert (layer : HTAB) (key : Int) (path : PathState) (k : Nat) : HTAB :=
  match layer with
  | [] => [insert_path_topk (fresh_entry key) path k]
  | e :: rest =>
    if e.key = key then insert_path_topk e path k :: rest
    else e :: layer_insert rest key path k

/-- Full scan of a layer: every path of every entry, entries in the order of
`scan`, paths in array order. -/
def scan_paths (scan : HTAB → HTAB) (layer : HTAB) : List PathState :=
  (scan layer).flatMap entry_paths

/-- Layer 0 (`layer_R`): one path per row of R without a null, keyed by A. -/
def seed_layer (k : Nat) (R : List Row) : HTAB :=
  R.foldl (fun layer row =>
    match row.c1, row.c2, row.c3 with
    | some a, some b, some w1 =>
      layer_insert layer a { zeroPath with A := a, B := b, sumW := w1 } k
    | _, _, _ => layer) []

/-- The three regrouping loops (`layer_RS`, `layer_ST`, `layer_TU`): every
path of the content layer is inserted under its own join field. -/
def rekey (scan : HTAB → HTAB) (k : Nat) (field : PathState → Int) (content : HTAB) : HTAB :=
  (scan_paths scan content).foldl (fun join path => layer_insert join (field path) path k) []

/-- The three extension loops (`layer_S`, `layer_T`, `layer_U`): every row
without a null looks up its key in the join layer; every path found there is
copied, gets the new field and the added weight, and is inserted under the
looked-up key. -/
def extend (k : Nat) (setField : PathState → Int → PathState) (join : HTAB)
    (rows : List Row) : HTAB :=
  rows.foldl (fun layer row =>
    match row.c1, row.c2, row.c3 with
    | some key, some v, some w =>
      match hash_find join key with
      | none => layer
      | some found =>
        (entry_paths found).foldl (fun layer p =>
          layer_insert layer key
            { setField p v with sumW := wrapInt64 ((setField p v).sumW + w) } k) layer
    | _, _, _ => layer) []

/-- `new_path.C = C`. -/
def setC (p : PathState) (v : Int) : PathState := { p with C := v }

/-- `new_path.D = D`. -/
def setD (p : PathState) (v : Int) : PathState := { p with D := v }

/-- `new_path.E = E`. -/
def setE (p : PathState) (v : Int) : PathState := { p with E := v }

/-! ## Global merge -/

/-- The loop `for (j = global_count - 1; j > 0; j--)` that moves the appended
path towards the front while it is strictly heavier than its predecessor. -/
def bubble_up : List PathState → Nat → List PathState
  | g, 0 => g
  | g, j + 1 =>
    if (rd g (j + 1)).sumW > (rd g j).sumW then bubble_up (swap_paths g (j + 1) j) j
    else g

/-- The loop `for (j = k - 2; j >= 0; j--)` computing `pos`; the argument `n`
is `j + 1`. -/
def find_pos (g : List PathState) (p : PathState) : Nat → Nat → Nat
  | 0, pos => pos
  | j + 1, pos => if p.sumW > (rd g j).sumW then find_pos g p j j else pos

/-- The loop `for (j = k - 1; j > pos; j--) global_topk[j] = global_topk[j-1]`. -/
def shift_right (pos : Nat) : List PathState → Nat → List PathState
  | g, 0 => g
  | g, j + 1 => if j + 1 > pos then shift_right pos (g.set (j + 1) (rd g j)) j else g

/-- The state of the merge: the array `global_topk` and `global_count`. -/
structure GlobalTopK where
  global_topk : List PathState
  global_count : Nat
deriving DecidableEq, Repr

/-- The body of the merge loop for one scanned path `p`. -/
def global_step (k : Nat) (st : GlobalTopK) (p : PathState) : GlobalTopK :=
  if st.global_count < k then
    { global_topk := bubble_up (st.global_topk.set st.global_count p) st.global_count
      global_count := st.global_count + 1 }
  else if p.sumW > (rd st.global_topk (k - 1)).sumW then
    let pos := find_pos st.global_topk p (k - 1) (k - 1)
    { st with global_topk := (shift_right pos st.global_topk (k - 1)).set pos p }
  else st

/-- The merge loop over the scanned paths, from the fresh array. -/
def global_run (k : Nat) (scanned : List PathState) : GlobalTopK :=
  scanned.foldl (global_step k) { global_topk := palloc k, global_count := 0 }

/-- The global merge together with the output loop, which emits the slots
`global_topk[0 .. global_count-1]`. -/
def global_merge (k : Nat) (scanned : List PathState) : List PathState :=
  let st := global_run k scanned
  st.global_topk.take st.global_count

/-! ## The pipeline -/

/-- The computation of `dp_best_path` once `k > 0` has been checked. -/
def dp_core (scan : HTAB → HTAB) (k : Nat) (R S T U : List Row) : List PathState :=
  let layer_R := seed_layer k R
  let layer_RS := rekey scan k (fun p => p.B) layer_R
  let layer_S := extend k setC layer_RS S
  let layer_ST := rekey scan k (fun p => p.C) layer_S
  let layer_T := extend k setD layer_ST T
  let layer_TU := rekey scan k (fun p => p.D) layer_T
  let layer_U := extend k setE layer_TU U
  global_merge k (scan_paths scan layer_U)

/-- `dp_best_path`: the argument check, then the pipeline. -/
def dp_best_path (scan : HTAB → HTAB) (R S T U : List Row) (k : Int) :
    Except String (List PathState) :=
  if k ≤ 0 then Except.error "K positive"
  else Except.ok (dp_core scan k.toNat R S T U)

/-- What is assumed of `hash_seq_search`: a full scan delivers every entry of
the table exactly once. -/
def IsScan (scan : HTAB → HTAB) : Prop := ∀ layer, (scan layer).Perm layer

/-! ## Specification vocabulary -/

/-- Weight stored in slot `i`. -/
def wt (heap : List PathState) (i : Nat) : Int := (rd heap i).sumW

/-- Binary min-heap on `sumW` over the slots `0 .. n-1`: no slot is lighter
than its parent `(j - 1) / 2`. -/
def IsHeap (heap : List PathState) (n : Nat) : Prop :=
  ∀ j, 0 < j → j < n → wt heap ((j - 1) / 2) ≤ wt heap j

/-- An entry as `hash_search(HASH_ENTER)` leaves it when the key is new. -/
def EntryFresh (e : NodeEntry) : Prop := e.paths = none ∧ e.n_paths = 0

/-- An entry after at least one insertion with capacity `k`: an array of `k`
slots whose first `n_paths` slots form a min-heap. -/
def EntryHeap (k : Nat) (e : NodeEntry) : Prop :=
  ∃ arr, e.paths = some arr ∧ arr.length = k ∧ 0 < e.n_paths ∧ e.n_paths ≤ k ∧
    e.k_limit = k ∧ IsHeap arr e.n_paths

/-- Every entry the program ever holds. -/
def EntryInv (k : Nat) (e : NodeEntry) : Prop := EntryFresh e ∨ EntryHeap k e

/-- Number of integers of `l` that are at least `v`. -/
def cgeI (v : Int) (l : List Int) : Nat := l.countP (fun x => decide (v ≤ x))

/-- Number of paths of `l` whose weight is at least `v`. -/
def cge (v : Int) (l : List PathState) : Nat := l.countP (fun p => decide (v ≤ p.sumW))

/-- The weights of a list of paths. -/
def weights (l : List PathState) : List Int := l.map (fun p => p.sumW)

/-- Descending sort of a list of weights. -/
def sortDesc (l : List Int) : List Int := l.insertionSort (fun a b => b ≤ a)

/-- `kept` holds `k` greatest-weight members of `src` (all of them if `src` has
fewer than `k`): same length as that selection and, for every threshold, the
same number of members reaching it. -/
def TopKOf (k : Nat) (kept src : List PathState) : Prop :=
  kept.length = min k src.length ∧ ∀ v, cge v kept = min k (cge v src)

/-- Descending sort of paths by weight that keeps paths of equal weight in
their original order (insertion sort is stable: `List.sublist_insertionSort`). -/
def stableSortDesc (xs : List PathState) : List PathState :=
  xs.insertionSort (fun a b => b.sumW ≤ a.sumW)

/-- Insertion of `p` into a weight-descending list behind every path that is
at least as heavy. -/
def insertAfter (p : PathState) : List PathState → List PathState
  | [] => [p]
  | a :: t => if p.sumW ≤ a.sumW then a :: insertAfter p t else p :: a :: t

/-- Weight-descending order of an array, by index. -/
def DescUpTo (g : List PathState) (n : Nat) : Prop :=
  ∀ i j, i ≤ j → j < n → wt g j ≤ wt g i

/-- Invariant of the merge loop after the scanned paths `xs`: the array has
`k` slots, and its first `global_count` slots are the first `k` paths of the
stable descending sort of `xs`. -/
def GlobalInv (k : Nat) (xs : List PathState) (st : GlobalTopK) : Prop :=
  st.global_topk.length = k ∧ st.global_count = min k xs.length ∧
    st.global_topk.take st.global_count = (stableSortDesc xs).take k

/-- The entry found under `x`, or the fresh entry that `HASH_ENTER` would
make. -/
def entryAt (layer : HTAB) (x : Int) : NodeEntry := (hash_find layer x).getD (fresh_entry x)

/-- The paths stored under the key `x` (none if the key is absent). -/
def pathsAt (layer : HTAB) (x : Int) : List PathState := entry_paths (entryAt layer x)

/-- Every path of a layer, entries in table order. -/
def contents (layer : HTAB) : List PathState := layer.flatMap entry_paths

/-- The keys of a layer, in table order. -/
def keys (layer : HTAB) : List Int := layer.map (fun e => e.key)

/-- A layer the program can hold with capacity `k`: every entry is a heap
entry and no key occurs twice. -/
def LayerWF (k : Nat) (layer : HTAB) : Prop :=
  (∀ e ∈ layer, EntryHeap k e) ∧ (keys layer).Nodup

/-- A layer filled from the empty table by a sequence of keyed insertions. -/
def build (k : Nat) (layer : HTAB) (st : List (Int × PathState)) : HTAB :=
  st.foldl (fun L kp => layer_insert L kp.1 kp.2 k) layer

/-- The paths of a keyed sequence that carry the key `x`. -/
def sel (st : List (Int × PathState)) (x : Int) : List PathState :=
  (st.filter (fun kp => decide (kp.1 = x))).map Prod.snd

/-- The rows of a relation without a null, as triples. -/
def validRows (rows : List Row) : List (Int × Int × Int) :=
  rows.filterMap (fun r =>
    match r.c1, r.c2, r.c3 with
    | some a, some b, some c => some (a, b, c)
    | _, _, _ => none)

/-- The path seeded by a row `(A, B, W1)` of R. -/
def seed_path (r : Int × Int × Int) : PathState :=
  { zeroPath with A := r.1, B := r.2.1, sumW := r.2.2 }

/-- The extended copy of `p` made by an extension loop for a row with output
value `v` and weight `w`, with the 64-bit addition of the program. -/
def ext_path (setField : PathState → Int → PathState) (p : PathState) (v w : Int) : PathState :=
  { setField p v with sumW := wrapInt64 ((setField p v).sumW + w) }

/-- The keyed insertions performed by the seeding loop. -/
def seed_stream (R : List Row) : List (Int × PathState) :=
  (validRows R).map (fun r => (r.1, seed_path r))

/-- The keyed insertions performed by a regrouping loop. -/
def rekey_stream (scan : HTAB → HTAB) (field : PathState → Int) (content : HTAB) :
    List (Int × PathState) :=
  (scan_paths scan content).map (fun p => (field p, p))

/-- The keyed insertions performed by an extension loop. -/
def extend_stream (setField : PathState → Int → PathState) (join : HTAB) (rows : List Row) :
    List (Int × PathState) :=
  (validRows rows).flatMap (fun e =>
    (pathsAt join e.1).map (fun p => (e.1, ext_path setField p e.2.1 e.2.2)))

/-- The predicates "weight at least `v`" (`some v`) and "any path" (`none`). -/
def up : Option Int → PathState → Bool
  | none, _ => true
  | some v, p => decide (v ≤ p.sumW)

/-- The threshold `o` lowered by `w`. -/
def shiftDown (o : Option Int) (w : Int) : Option Int := o.map (fun v => v - w)

/-- Soundness of a layer against the list `P` of all partial paths of its
stage: the layer is well formed, every path sits under its own key `kf`, and
the contents are a sub-multiset of `P`. -/
def Sound (k : Nat) (kf : PathState → Int) (P : List PathState) (L : HTAB) : Prop :=
  LayerWF k L ∧ (∀ x, ∀ p ∈ pathsAt L x, kf p = x) ∧ (contents L).Subperm P

/-- Completeness of a layer against `P`: under every key the layer holds a
top-`k` selection of the paths of `P` with that key. -/
def Complete (k : Nat) (kf : PathState → Int) (P : List PathState) (L : HTAB) : Prop :=
  ∀ x, TopKOf k (pathsAt L x) (P.filter (fun p => decide (kf p = x)))

/-- The field `jf` is determined by the field `kf` on the paths of `P`. -/
def Determines (kf jf : PathState → Int) (P : List PathState) : Prop :=
  ∀ p ∈ P, ∀ q ∈ P, kf p = kf q → jf p = jf q

/-- The extended copy of `p` with the weight added as a mathematical integer. -/
def ext_exact (setField : PathState → Int → PathState) (p : PathState) (v w : Int) : PathState :=
  { setField p v with sumW := (setField p v).sumW + w }

/-- Every extension of every path of `P` by a matching row without a null:
the next stage without any pruning. -/
def extend_all (setField : PathState → Int → PathState) (jf : PathState → Int)
    (P : List PathState) (rows : List Row) : List PathState :=
  P.flatMap (fun p =>
    ((validRows rows).filter (fun e => decide (e.1 = jf p))).map
      (fun e => ext_exact setField p e.2.1 e.2.2))

/-- The setter of an extension loop leaves the join field `jf` and the weight
alone, and `jf` does not read the weight. -/
def GoodSetter (setField : PathState → Int → PathState) (jf : PathState → Int) : Prop :=
  (∀ p v s, jf { setField p v with sumW := s } = jf p) ∧ (∀ p v, (setField p v).sumW = p.sumW)

/-- All weights of `P` lie within `[-b, b]`. -/
def Bounded (b : Int) (P : List PathState) : Prop :=
  ∀ p ∈ P, -b ≤ p.sumW ∧ p.sumW ≤ b

/-- The weight column of a relation holds `int32` values. -/
def WeightsInt32 (rows : List Row) : Prop :=
  ∀ e ∈ validRows rows, -2 ^ 31 ≤ e.2.2 ∧ e.2.2 < 2 ^ 31

/-- All partial paths of stage R: one per row of R without a null. -/
def all_R (R : List Row) : List PathState := (validRows R).map seed_path

/-- All partial paths of stage S (no pruning). -/
def all_S (R S : List Row) : List PathState :=
  extend_all setC (fun p => p.B) (all_R R) S

/-- All partial paths of stage T (no pruning). -/
def all_T (R S T : List Row) : List PathState :=
  extend_all setD (fun p => p.C) (all_S R S) T

/-- All full paths, stage by stage (no pruning). -/
def all_U (R S T U : List Row) : List PathState :=
  extend_all setE (fun p => p.D) (all_T R S T) U

/-- Brute force, in the words of the specification: every full path
`(r, s, t, u)` with `r.B = s.B`, `s.C = t.C`, `t.D = u.D` over the rows without
a null, with weight `W1 + W2 + W3 + W4`. -/
def bruteForce (R S T U : List Row) : List PathState :=
  (validRows R).flatMap (fun r =>
    ((validRows S).filter (fun s => decide (s.1 = r.2.1))).flatMap (fun s =>
      ((validRows T).filter (fun t => decide (t.1 = s.2.1))).flatMap (fun t =>
        ((validRows U).filter (fun u => decide (u.1 = t.2.1))).map (fun u =>
          (⟨r.1, r.2.1, s.2.1, t.2.1, u.2.1, r.2.2 + s.2.2 + t.2.2 + u.2.2⟩ : PathState)))))

/-- Among the rows without a null, the first column determines the second. -/
def KeyDetermines (rows : List Row) : Prop :=
  ∀ e1 ∈ validRows rows, ∀ e2 ∈ validRows rows, e1.1 = e2.1 → e1.2.1 = e2.2.1

/-- A row has a null in its key, its next field or its weight. -/
def has_null (r : Row) : Bool := r.c1.isNone || r.c2.isNone || r.c3.isNone

/-- The relation without its rows that have a null. -/
def drop_nulls (rows : List Row) : List Row := rows.filter (fun r => !has_null r)

/-! ## Runs with their effects -/

/-- The seven hash tables of `dp_best_path`, by the name given to
`create_layer`. -/
inductive Layer where
  | LayerR | LayerRS | LayerS | LayerST | LayerT | LayerTU | LayerU
deriving DecidableEq, Repr

/-- The four relations read through `SPI_execute`. -/
inductive Rel where
  | R | S | T | U
deriving DecidableEq, Repr

/-- The effects of a run that the claims speak about, in program order:
creation and destruction of a layer, the query that reads a relation, the
start of a full scan of a layer, and the emission of a result row. -/
inductive Event where
  | create_layer (l : Layer)
  | hash_destroy (l : Layer)
  | SPI_execute (r : Rel)
  | hash_seq_init (l : Layer)
  | tuplestore_putvalues (p : PathState)
deriving DecidableEq, Repr

/-- The whole of `dp_best_path` with its effects: the argument check, then the
stages in the order of the source, each relation read when its stage begins
(`none` is a relation that `SPI_execute` fails to deliver), the layers created
and destroyed where the source does it, the result rows emitted at the end.
The checks of the calling context and of `SPI_connect` sit between the
argument check and the first stage and are taken to pass. -/
def dp_best_path_run (scan : HTAB → HTAB) (R S T U : Option (List Row)) (k : Int) :
    List Event × Except String (List PathState) :=
  if k ≤ 0 then ([], Except.error "K positive")
  else
    let ev := [Event.create_layer Layer.LayerR, Event.SPI_execute Rel.R]
    match R with
    | none => (ev, Except.error "SPI_execute failed for R table")
    | some R =>
      let layer_R := seed_layer k.toNat R
      let ev := ev ++ [Event.create_layer Layer.LayerRS, Event.hash_seq_init Layer.LayerR]
      let layer_RS := rekey scan k.toNat (fun p => p.B) layer_R
      let ev := ev ++ [Event.create_layer Layer.LayerS, Event.SPI_execute Rel.S]
      match S with
      | none => (ev, Except.error "SPI_execute failed for S table")
      | some S =>
        let layer_S := extend k.toNat setC layer_RS S
        let ev := ev ++ [Event.hash_destroy Layer.LayerRS, Event.create_layer Layer.LayerST,
          Event.hash_seq_init Layer.LayerS]
        let layer_ST := rekey scan k.toNat (fun p => p.C) layer_S
        let ev := ev ++ [Event.hash_destroy Layer.LayerS, Event.create_layer Layer.LayerT,
          Event.SPI_execute Rel.T]
        match T with
        | none => (ev, Except.error "SPI_execute failed for T table")
        | some T =>
          let layer_T := extend k.toNat setD layer_ST T
          let ev := ev ++ [Event.hash_destroy Layer.LayerST, Event.create_layer Layer.LayerTU,
            Event.hash_seq_init Layer.LayerT]
          let layer_TU := rekey scan k.toNat (fun p => p.D) layer_T
          let ev := ev ++ [Event.hash_destroy Layer.LayerT, Event.create_layer Layer.LayerU,
            Event.SPI_execute Rel.U]
          match U with
          | none => (ev, Except.error "SPI_execute failed for U table")
          | some U =>
            let layer_U := extend k.toNat setE layer_TU U
            let ev := ev ++ [Event.hash_destroy Layer.LayerTU, Event.hash_seq_init Layer.LayerU]
            let res := global_merge k.toNat (scan_paths scan layer_U)
            let ev := ev ++ res.map Event.tuplestore_putvalues
            (ev ++ [Event.hash_destroy Layer.LayerR, Event.hash_destroy Layer.LayerU],
              Except.ok res)

/-- The layers alive after a sequence of events, oldest first. -/
def live_layers (evs : List Event) : List Layer :=
  evs.foldl (fun live e =>
    match e with
    | Event.create_layer l => live ++ [l]
    | Event.hash_destroy l => live.erase l
    | _ => live) []

/-- The greatest number of layers alive at any point of a sequence of
events. -/
def max_live (evs : List Event) : Nat :=
  ((List.inits evs).map (fun pre => (live_layers pre).length)).foldl max 0

/-! ## The variant with flat content layers

The design note of the specification: a content layer is a flat growable
collection that holds every inserted path; the regrouping steps (bounded top-K
per join key) and the global merge are those of the program. -/

/-- Flat variant of the seeding loop: every seeded path is appended. -/
def seed_flat (R : List Row) : List PathState :=
  R.foldl (fun acc row =>
    match row.c1, row.c2, row.c3 with
    | some a, some b, some w1 => acc ++ [{ zeroPath with A := a, B := b, sumW := w1 }]
    | _, _, _ => acc) []

/-- Flat variant of a regrouping loop: a full scan of the flat collection,
every path inserted into the join layer under its own join field. -/
def rekey_flat (k : Nat) (field : PathState → Int) (content : List PathState) : HTAB :=
  content.foldl (fun join path => layer_insert join (field path) path k) []

/-- Flat variant of an extension loop: the lookups and the extended copies of
the program, every copy appended to the flat collection. -/
def extend_flat (setField : PathState → Int → PathState) (join : HTAB) (rows : List Row) :
    List PathState :=
  rows.foldl (fun acc row =>
    match row.c1, row.c2, row.c3 with
    | some key, some v, some w =>
      match hash_find join key with
      | none => acc
      | some found =>
        (entry_paths found).foldl (fun acc p =>
          acc ++ [{ setField p v with sumW := wrapInt64 ((setField p v).sumW + w) }]) acc
    | _, _, _ => acc) []

/-- The pipeline with flat content layers. -/
def dp_flat_variant (k : Nat) (R S T U : List Row) : List PathState :=
  let flat_R := seed_flat R
  let layer_RS := rekey_flat k (fun p => p.B) flat_R
  let flat_S := extend_flat setC layer_RS S
  let layer_ST := rekey_flat k (fun p => p.C) flat_S
  let flat_T := extend_flat setD layer_ST T
  let layer_TU := rekey_flat k (fun p => p.D) flat_T
  let flat_U := extend_flat setE layer_TU U
  global_merge k flat_U

/-- The flat collection `F` stands for the list `P` of all partial paths of
its stage as far as the next regrouping by `nf` can tell: it is a sub-multiset
of `P`, and under every key and for every threshold the counts capped at `k`
agree, as do the capped counts over all keys. -/
def FlatOK (k : Nat) (nf : PathState → Int) (F P : List PathState) : Prop :=
  F.Subperm P ∧
  (∀ x o, min k ((F.filter (fun p => decide (nf p = x))).countP (up o)) =
    min k ((P.filter (fun p => decide (nf p = x))).countP (up o))) ∧
  (∀ o, min k (F.countP (up o)) = min k (P.countP (up o)))

/-! ## Arrays: reading, writing, swapping -/

theorem rd_eq_getElem (heap : List PathState) (i : Nat) (h : i < heap.length) :
    rd heap i = heap[i] := by
  simp [rd, List.getD_eq_getElem?_getD, List.getElem?_eq_getElem h]

theorem rd_set (heap : List PathState) (i m : Nat) (v : PathState) (h : i < heap.length) :
    rd (heap.set i v) m = if m = i then v else rd heap m := by
  unfold rd
  simp only [List.getD_eq_getElem?_getD, List.getElem?_set]
  by_cases hm : m = i
  · subst hm; simp [h]
  · have : ¬ i = m := fun e => hm e.symm
    simp [hm, this]

theorem length_swap_paths (heap : List PathState) (i j : Nat) :
    (swap_paths heap i j).length = heap.length := by
  simp [swap_paths]

theorem rd_swap_paths (heap : List PathState) (i j m : Nat)
    (hi : i < heap.length) (hj : j < heap.length) :
    rd (swap_paths heap i j) m =
      if m = j then rd heap i else if m = i then rd heap j else rd heap m := by
  unfold swap_paths
  rw [rd_set _ _ _ _ (by simpa using hj), rd_set _ _ _ _ hi]

theorem wt_swap_paths (heap : List PathState) (i j m : Nat)
    (hi : i < heap.length) (hj : j < heap.length) :
    wt (swap_paths heap i j) m =
      if m = j then wt heap i else if m = i then wt heap j else wt heap m := by
  unfold wt
  rw [rd_swap_paths _ _ _ _ hi hj]
  split_ifs <;> rfl

theorem count_set_add (heap : List PathState) (i : Nat) (v a : PathState)
    (h : i < heap.length) :
    (heap.set i v).count a + (if rd heap i = a then 1 else 0) =
      heap.count a + (if v = a then 1 else 0) := by
  induction heap generalizing i with
  | nil => simp at h
  | cons x xs ih =>
    cases i with
    | zero =>
      simp only [List.set_cons_zero, List.count_cons, rd, List.getD_cons_zero]
      simp only [beq_iff_eq]
      omega
    | succ i =>
      have h' : i < xs.length := by simpa using h
      have := ih i h'
      simp only [List.set_cons_succ, List.count_cons, rd, List.getD_cons_succ] at this ⊢
      omega

theorem swap_paths_perm (heap : List PathState) (i j : Nat)
    (hi : i < heap.length) (hj : j < heap.length) :
    (swap_paths heap i j).Perm heap := by
  rw [List.perm_iff_count]
  intro a
  have h1 := count_set_add heap i (rd heap j) a hi
  have h2 := count_set_add (heap.set i (rd heap j)) j (rd heap i) a (by simpa using hj)
  rw [rd_set _ _ _ _ hi] at h2
  unfold swap_paths
  by_cases hji : j = i
  · subst hji
    simp only [if_true] at h2
    omega
  · simp only [hji, if_false] at h2
    omega

theorem set_take_succ (heap : List PathState) (n : Nat) (v : PathState) (h : n < heap.length) :
    (heap.set n v).take (n + 1) = heap.take n ++ [v] := by
  induction heap generalizing n with
  | nil => simp at h
  | cons x xs ih =>
    cases n with
    | zero => simp
    | succ n =>
      have h' : n < xs.length := by simpa using h
      simp [ih n h']

theorem swap_paths_take (heap : List PathState) (i j n : Nat)
    (hi : i < n) (hj : j < n) :
    (swap_paths heap i j).take n = swap_paths (heap.take n) i j := by
  have e : ∀ m, m < n → rd (heap.take n) m = rd heap m := by
    intro m hm
    simp [rd, List.getD_eq_getElem?_getD, List.getElem?_take, hm]
  unfold swap_paths
  rw [e i hi, e j hj, List.set_take, List.set_take]

theorem swap_paths_take_perm (heap : List PathState) (i j n : Nat)
    (hi : i < n) (hj : j < n) (hn : n ≤ heap.length) :
    ((swap_paths heap i j).take n).Perm (heap.take n) := by
  rw [swap_paths_take heap i j n hi hj]
  apply swap_paths_perm <;> simp <;> omega


/-! ## The min-heap invariant -/

theorem wt_swap_left (heap : List PathState) (i j : Nat)
    (hi : i < heap.length) (hj : j < heap.length) :
    wt (swap_paths heap i j) i = wt heap j := by
  rw [wt_swap_paths _ _ _ _ hi hj]
  by_cases h : i = j
  · subst h; simp
  · simp [h]

theorem wt_swap_right (heap : List PathState) (i j : Nat)
    (hi : i < heap.length) (hj : j < heap.length) :
    wt (swap_paths heap i j) j = wt heap i := by
  rw [wt_swap_paths _ _ _ _ hi hj]; simp

theorem wt_swap_other (heap : List PathState) (i j m : Nat)
    (hi : i < heap.length) (hj : j < heap.length) (hmi : m ≠ i) (hmj : m ≠ j) :
    wt (swap_paths heap i j) m = wt heap m := by
  rw [wt_swap_paths _ _ _ _ hi hj]; simp [hmi, hmj]

theorem swap_paths_drop (heap : List PathState) (i j n : Nat) (hi : i < n) (hj : j < n) :
    (swap_paths heap i j).drop n = heap.drop n := by
  unfold swap_paths
  rw [List.drop_set, List.drop_set]
  simp [hi, hj]

theorem heapify_up_aux_spec (fuel : Nat) : ∀ (heap : List PathState) (i n : Nat),
    i ≤ fuel → i < n → n ≤ heap.length →
    (∀ j, 0 < j → j < n → j ≠ i → wt heap ((j - 1) / 2) ≤ wt heap j) →
    (∀ j, 0 < j → j < n → (j - 1) / 2 = i → 0 < i → wt heap ((i - 1) / 2) ≤ wt heap j) →
    IsHeap (heapify_up_aux fuel heap i) n ∧
      ((heapify_up_aux fuel heap i).take n).Perm (heap.take n) ∧
      (heapify_up_aux fuel heap i).length = heap.length ∧
      (heapify_up_aux fuel heap i).drop n = heap.drop n := by
  induction fuel with
  | zero =>
    intro heap i n hi _ _ h1 _
    refine ⟨?_, List.Perm.refl _, rfl, rfl⟩
    intro j hj0 hjn
    exact h1 j hj0 hjn (by omega)
  | succ fuel ih =>
    intro heap i n hi hin hn h1 h2
    unfold heapify_up_aux
    by_cases hc : 0 < i ∧ (rd heap i).sumW < (rd heap ((i - 1) / 2)).sumW
    · rw [if_pos hc]
      obtain ⟨hi0, hlt⟩ := hc
      have hlt' : wt heap i < wt heap ((i - 1) / 2) := hlt
      have hp : (i - 1) / 2 < i := by omega
      have hil : i < heap.length := by omega
      have hpl : (i - 1) / 2 < heap.length := by omega
      have hlen := length_swap_paths heap i ((i - 1) / 2)
      have key := ih (swap_paths heap i ((i - 1) / 2)) ((i - 1) / 2) n (by omega) (by omega)
        (by omega) ?_ ?_
      · obtain ⟨k1, k2, k3, k4⟩ := key
        refine ⟨k1, k2.trans (swap_paths_take_perm heap i _ n hin (by omega) hn), by omega, ?_⟩
        rw [k4, swap_paths_drop heap i _ n hin (by omega)]
      · intro j hj0 hjn hjne
        by_cases hji : j = i
        · rw [hji, wt_swap_left _ _ _ hil hpl, wt_swap_right _ _ _ hil hpl]
          omega
        · rw [wt_swap_other _ _ _ j hil hpl hji hjne]
          by_cases hpj : (j - 1) / 2 = (i - 1) / 2
          · rw [hpj, wt_swap_right _ _ _ hil hpl]
            have := h1 j hj0 hjn hji
            rw [hpj] at this
            omega
          · by_cases hpi : (j - 1) / 2 = i
            · rw [hpi, wt_swap_left _ _ _ hil hpl]
              exact h2 j hj0 hjn hpi hi0
            · rw [wt_swap_other _ _ _ _ hil hpl hpi hpj]
              exact h1 j hj0 hjn hji
      · intro j hj0 hjn hpj hp0
        rw [wt_swap_other _ _ _ (((i - 1) / 2 - 1) / 2) hil hpl (by omega) (by omega)]
        have hpp := h1 ((i - 1) / 2) hp0 (by omega) (by omega)
        by_cases hji : j = i
        · rw [hji, wt_swap_left _ _ _ hil hpl]
          exact hpp
        · rw [wt_swap_other _ _ _ j hil hpl hji (by omega)]
          have := h1 j hj0 hjn hji
          rw [hpj] at this
          omega
    · rw [if_neg hc]
      refine ⟨?_, List.Perm.refl _, rfl, rfl⟩
      intro j hj0 hjn
      by_cases hji : j = i
      · subst hji
        have : ¬ (rd heap j).sumW < (rd heap ((j - 1) / 2)).sumW := fun h => hc ⟨hj0, h⟩
        show (rd heap ((j - 1) / 2)).sumW ≤ (rd heap j).sumW
        omega
      · exact h1 j hj0 hjn hji

theorem smallest_of_spec (heap : List PathState) (n i : Nat) :
    (smallest_of heap n i = i ∨
      (smallest_of heap n i = 2 * i + 1 ∧ 2 * i + 1 < n) ∨
      (smallest_of heap n i = 2 * i + 2 ∧ 2 * i + 2 < n)) ∧
    wt heap (smallest_of heap n i) ≤ wt heap i ∧
    (2 * i + 1 < n → wt heap (smallest_of heap n i) ≤ wt heap (2 * i + 1)) ∧
    (2 * i + 2 < n → wt heap (smallest_of heap n i) ≤ wt heap (2 * i + 2)) := by
  unfold smallest_of wt
  simp only []
  by_cases hl : 2 * i + 1 < n ∧ (rd heap (2 * i + 1)).sumW < (rd heap i).sumW
  · rw [if_pos hl]
    by_cases hr : 2 * i + 2 < n ∧ (rd heap (2 * i + 2)).sumW < (rd heap (2 * i + 1)).sumW
    · rw [if_pos hr]
      refine ⟨Or.inr (Or.inr ⟨rfl, hr.1⟩), ?_, ?_, ?_⟩ <;> intros <;> omega
    · rw [if_neg hr]
      refine ⟨Or.inr (Or.inl ⟨rfl, hl.1⟩), ?_, ?_, ?_⟩
      · omega
      · intro _; omega
      · intro h
        have : ¬ (rd heap (2 * i + 2)).sumW < (rd heap (2 * i + 1)).sumW := fun h' => hr ⟨h, h'⟩
        omega
  · rw [if_neg hl]
    by_cases hr : 2 * i + 2 < n ∧ (rd heap (2 * i + 2)).sumW < (rd heap i).sumW
    · rw [if_pos hr]
      refine ⟨Or.inr (Or.inr ⟨rfl, hr.1⟩), ?_, ?_, ?_⟩
      · omega
      · intro h
        have : ¬ (rd heap (2 * i + 1)).sumW < (rd heap i).sumW := fun h' => hl ⟨h, h'⟩
        omega
      · intro _; omega
    · rw [if_neg hr]
      refine ⟨Or.inl rfl, ?_, ?_, ?_⟩
      · omega
      · intro h
        have : ¬ (rd heap (2 * i + 1)).sumW < (rd heap i).sumW := fun h' => hl ⟨h, h'⟩
        omega
      · intro h
        have : ¬ (rd heap (2 * i + 2)).sumW < (rd heap i).sumW := fun h' => hr ⟨h, h'⟩
        omega

theorem smallest_of_lt (heap : List PathState) (n i : Nat)
    (h : smallest_of heap n i ≠ i) : wt heap (smallest_of heap n i) < wt heap i := by
  unfold smallest_of wt at *
  simp only [] at *
  by_cases hl : 2 * i + 1 < n ∧ (rd heap (2 * i + 1)).sumW < (rd heap i).sumW
  · rw [if_pos hl] at h ⊢
    by_cases hr : 2 * i + 2 < n ∧ (rd heap (2 * i + 2)).sumW < (rd heap (2 * i + 1)).sumW
    · rw [if_pos hr]; omega
    · rw [if_neg hr]; omega
  · rw [if_neg hl] at h ⊢
    by_cases hr : 2 * i + 2 < n ∧ (rd heap (2 * i + 2)).sumW < (rd heap i).sumW
    · rw [if_pos hr]; omega
    · rw [if_neg hr] at h; exact absurd rfl h

theorem heapify_down_aux_spec (fuel : Nat) : ∀ (heap : List PathState) (n i : Nat),
    n ≤ fuel + i → n ≤ heap.length →
    (∀ j, 0 < j → j < n → (j - 1) / 2 ≠ i → wt heap ((j - 1) / 2) ≤ wt heap j) →
    (∀ j, 0 < j → j < n → (j - 1) / 2 = i → 0 < i → wt heap ((i - 1) / 2) ≤ wt heap j) →
    IsHeap (heapify_down_aux fuel heap n i) n ∧
      ((heapify_down_aux fuel heap n i).take n).Perm (heap.take n) ∧
      (heapify_down_aux fuel heap n i).length = heap.length ∧
      (heapify_down_aux fuel heap n i).drop n = heap.drop n := by
  induction fuel with
  | zero =>
    intro heap n i hf _ h1 _
    refine ⟨?_, List.Perm.refl _, rfl, rfl⟩
    intro j hj0 hjn
    exact h1 j hj0 hjn (by omega)
  | succ fuel ih =>
    intro heap n i hf hn h1 h2
    unfold heapify_down_aux
    simp only []
    obtain ⟨hs, hsi, hsl, hsr⟩ := smallest_of_spec heap n i
    by_cases hne : smallest_of heap n i ≠ i
    · rw [if_pos hne]
      have hlt := smallest_of_lt heap n i hne
      generalize smallest_of heap n i = s at *
      have hsn : s < n := by omega
      have hsgt : i < s := by omega
      have hps : (s - 1) / 2 = i := by omega
      have hil : i < heap.length := by omega
      have hsl' : s < heap.length := by omega
      have key := ih (swap_paths heap i s) n s (by omega)
        (by rw [length_swap_paths]; exact hn) ?_ ?_
      · obtain ⟨k1, k2, k3, k4⟩ := key
        refine ⟨k1, k2.trans (swap_paths_take_perm heap i _ n (by omega) hsn hn), ?_, ?_⟩
        · rw [k3, length_swap_paths]
        · rw [k4, swap_paths_drop heap i s n (by omega) hsn]
      · intro j hj0 hjn hpj
        by_cases hjs : j = s
        · rw [hjs, hps, wt_swap_left _ _ _ hil hsl', wt_swap_right _ _ _ hil hsl']
          omega
        · by_cases hji : j = i
          · have hi0 : 0 < i := by omega
            rw [hji, wt_swap_left _ _ _ hil hsl',
              wt_swap_other _ _ _ ((i - 1) / 2) hil hsl' (by omega) (by omega)]
            exact h2 s (by omega) hsn hps hi0
          · rw [wt_swap_other _ _ _ j hil hsl' hji hjs]
            by_cases hpi : (j - 1) / 2 = i
            · rw [hpi, wt_swap_left _ _ _ hil hsl']
              rcases (by omega : j = 2 * i + 1 ∨ j = 2 * i + 2) with e | e
              · rw [e]; exact hsl (by omega)
              · rw [e]; exact hsr (by omega)
            · rw [wt_swap_other _ _ _ _ hil hsl' hpi hpj]
              exact h1 j hj0 hjn hpi
      · intro j hj0 hjn hpj _
        rw [hps, wt_swap_left _ _ _ hil hsl',
          wt_swap_other _ _ _ j hil hsl' (by omega) (by omega)]
        have := h1 j hj0 hjn (by omega)
        rw [hpj] at this
        exact this
    · rw [if_neg hne]
      have hsi' : smallest_of heap n i = i := by
        by_contra h; exact hne h
      rw [hsi'] at hsl hsr
      refine ⟨?_, List.Perm.refl _, rfl, rfl⟩
      intro j hj0 hjn
      by_cases hpi : (j - 1) / 2 = i
      · rw [hpi]
        rcases (by omega : j = 2 * i + 1 ∨ j = 2 * i + 2) with e | e
        · rw [e]; exact hsl (by omega)
        · rw [e]; exact hsr (by omega)
      · exact h1 j hj0 hjn hpi


theorem smallest_of_eq_self (heap : List PathState) (n i : Nat) (h : n ≤ 2 * i + 1) :
    smallest_of heap n i = i := by
  rcases (smallest_of_spec heap n i).1 with e | e | e
  · exact e
  · omega
  · omega

/-- The recursion bound of `heapify_down` is never reached: any bound of at
least `n - i` levels gives the same array. -/
theorem heapify_down_aux_fuel (f1 : Nat) : ∀ (f2 : Nat) (heap : List PathState) (n i : Nat),
    n ≤ f1 + i → n ≤ f2 + i →
    heapify_down_aux f1 heap n i = heapify_down_aux f2 heap n i := by
  induction f1 with
  | zero =>
    intro f2 heap n i h1 _
    cases f2 with
    | zero => rfl
    | succ f2 =>
      simp only [heapify_down_aux]
      rw [smallest_of_eq_self heap n i (by omega)]
      simp
  | succ f1 ih =>
    intro f2 heap n i h1 h2
    cases f2 with
    | zero =>
      simp only [heapify_down_aux]
      rw [smallest_of_eq_self heap n i (by omega)]
      simp
    | succ f2 =>
      simp only [heapify_down_aux]
      by_cases hne : smallest_of heap n i ≠ i
      · rw [if_pos hne, if_pos hne]
        have : i < smallest_of heap n i := by
          rcases (smallest_of_spec heap n i).1 with e | e | e <;> omega
        exact ih f2 _ n _ (by omega) (by omega)
      · rw [if_neg hne, if_neg hne]

/-- The iteration bound of `heapify_up` is never reached: any bound of at
least `i` iterations gives the same array. -/
theorem heapify_up_aux_fuel (f1 : Nat) : ∀ (f2 : Nat) (heap : List PathState) (i : Nat),
    i ≤ f1 → i ≤ f2 → heapify_up_aux f1 heap i = heapify_up_aux f2 heap i := by
  induction f1 with
  | zero =>
    intro f2 heap i h1 _
    cases f2 with
    | zero => rfl
    | succ f2 =>
      have : ¬ (0 < i ∧ (rd heap i).sumW < (rd heap ((i - 1) / 2)).sumW) := by
        intro h; omega
      simp only [heapify_up_aux, if_neg this]
  | succ f1 ih =>
    intro f2 heap i h1 h2
    cases f2 with
    | zero =>
      have : ¬ (0 < i ∧ (rd heap i).sumW < (rd heap ((i - 1) / 2)).sumW) := by
        intro h; omega
      simp only [heapify_up_aux, if_neg this]
    | succ f2 =>
      simp only [heapify_up_aux]
      by_cases hc : 0 < i ∧ (rd heap i).sumW < (rd heap ((i - 1) / 2)).sumW
      · rw [if_pos hc, if_pos hc]
        exact ih f2 _ _ (by omega) (by omega)
      · rw [if_neg hc, if_neg hc]

theorem IsHeap.root_le {heap : List PathState} {n : Nat} (h : IsHeap heap n) :
    ∀ j, j < n → wt heap 0 ≤ wt heap j := by
  intro j
  induction j using Nat.strong_induction_on with
  | _ j ih =>
    intro hj
    rcases Nat.eq_zero_or_pos j with e | e
    · rw [e]
    · have h1 := h j e hj
      have h2 := ih ((j - 1) / 2) (by omega) (by omega)
      omega

theorem wt_set_ne (heap : List PathState) (i m : Nat) (v : PathState)
    (h : i < heap.length) (hm : m ≠ i) : wt (heap.set i v) m = wt heap m := by
  unfold wt; rw [rd_set _ _ _ _ h, if_neg hm]

theorem wt_set_self (heap : List PathState) (i : Nat) (v : PathState)
    (h : i < heap.length) : wt (heap.set i v) i = v.sumW := by
  unfold wt; rw [rd_set _ _ _ _ h, if_pos rfl]

/-- Appending at slot `n` and sifting up: the result is a heap on `n + 1`
slots holding the old slots and the new path. -/
theorem heapify_up_insert (arr : List PathState) (n : Nat) (p : PathState)
    (hn : n < arr.length) (hh : IsHeap arr n) :
    IsHeap (heapify_up (arr.set n p) n) (n + 1) ∧
      ((heapify_up (arr.set n p) n).take (n + 1)).Perm (arr.take n ++ [p]) ∧
      (heapify_up (arr.set n p) n).length = arr.length := by
  have key := heapify_up_aux_spec n (arr.set n p) n (n + 1) (le_refl _) (by omega)
    (by simp; omega) ?_ ?_
  · obtain ⟨k1, k2, k3, _⟩ := key
    refine ⟨k1, ?_, by simpa using k3⟩
    rw [set_take_succ arr n p hn] at k2
    exact k2
  · intro j hj0 hjn hjne
    rw [wt_set_ne _ _ _ _ hn (by omega), wt_set_ne _ _ _ _ hn hjne]
    exact hh j hj0 (by omega)
  · intro j _ hjn hpj _
    omega

/-- Overwriting the root and sifting down: the result is a heap holding the
new path in place of the old root. -/
theorem heapify_down_replace (arr : List PathState) (k : Nat) (p : PathState)
    (hk : 0 < k) (hlen : arr.length = k) (hh : IsHeap arr k) :
    IsHeap (heapify_down (arr.set 0 p) k 0) k ∧
      (heapify_down (arr.set 0 p) k 0).Perm (p :: arr.erase (rd arr 0)) ∧
      (heapify_down (arr.set 0 p) k 0).length = k := by
  have h0 : 0 < arr.length := by omega
  have key := heapify_down_aux_spec k (arr.set 0 p) k 0 (by omega) (by simp; omega) ?_ ?_
  · obtain ⟨k1, k2, k3, _⟩ := key
    have k3' : (heapify_down (arr.set 0 p) k 0).length = k := by
      unfold heapify_down; rw [k3]; simpa using hlen
    refine ⟨k1, ?_, k3'⟩
    have e1 : (heapify_down (arr.set 0 p) k 0).take k = heapify_down (arr.set 0 p) k 0 :=
      List.take_of_length_le (by omega)
    have e2 : (arr.set 0 p).take k = arr.set 0 p := List.take_of_length_le (by simp; omega)
    have k2' : (heapify_down (arr.set 0 p) k 0).Perm (arr.set 0 p) := by
      have := k2
      unfold heapify_down at e1
      rw [e1, e2] at this
      exact this
    refine k2'.trans ?_
    cases arr with
    | nil => simp at h0
    | cons x xs => simp [rd]
  · intro j hj0 hjn hpj
    rw [wt_set_ne _ _ _ _ h0 hpj, wt_set_ne _ _ _ _ h0 (by omega)]
    exact hh j hj0 hjn
  · intro j _ _ _ h; omega


/-! ## Entries -/

theorem entry_paths_of_fresh {e : NodeEntry} (h : EntryFresh e) : entry_paths e = [] := by
  simp [entry_paths, h.2]

theorem mem_take_rd (arr : List PathState) (n : Nat) (hn : n ≤ arr.length) (q : PathState)
    (hq : q ∈ arr.take n) : ∃ j, j < n ∧ q = rd arr j := by
  rw [List.mem_iff_getElem] at hq
  obtain ⟨j, hj, e⟩ := hq
  have hjn : j < n := by
    have := hj; simp at this; omega
  refine ⟨j, hjn, ?_⟩
  rw [rd_eq_getElem arr j (by omega), ← e]
  simp

theorem rd_zero_mem_take (arr : List PathState) (n : Nat) (hn : 0 < n) (h : 0 < arr.length) :
    rd arr 0 ∈ arr.take n := by
  cases arr with
  | nil => simp at h
  | cons x xs =>
    cases n with
    | zero => omega
    | succ n => simp [rd]


/-- One call of `insert_path_topk` on an entry the program can hold: the
result is a heap entry with the same key, and either the path was appended
(below capacity), or the entry is unchanged (the path is not heavier than the
lightest retained one), or the path took the place of the lightest one. -/
theorem insert_path_topk_step (k : Nat) (hk : 0 < k) (e : NodeEntry) (p : PathState)
    (he : EntryInv k e) :
    EntryHeap k (insert_path_topk e p k) ∧ (insert_path_topk e p k).key = e.key ∧
    ((e.n_paths < k ∧ (insert_path_topk e p k).n_paths = e.n_paths + 1 ∧
        (entry_paths (insert_path_topk e p k)).Perm (entry_paths e ++ [p])) ∨
     (e.n_paths = k ∧ ∃ m, m ∈ entry_paths e ∧ (∀ q ∈ entry_paths e, m.sumW ≤ q.sumW) ∧
        ((p.sumW ≤ m.sumW ∧ insert_path_topk e p k = e) ∨
         (m.sumW < p.sumW ∧ (insert_path_topk e p k).n_paths = k ∧
            (entry_paths (insert_path_topk e p k)).Perm (p :: (entry_paths e).erase m))))) := by
  rcases he with ⟨hnone, hzero⟩ | ⟨arr, harr, hlen, hpos, hle, hkl, hheap⟩
  · -- first insertion: the array is allocated, the path lands in slot 0
    have hstep : insert_path_topk e p k =
        { e with paths := some (heapify_up ((palloc k).set 0 p) 0), n_paths := 1, k_limit := k } := by
      simp [insert_path_topk, hnone, hk]
    have hpl : (palloc k).length = k := by simp [palloc]
    have hh0 : IsHeap (palloc k) 0 := fun j _ hj => absurd hj (by omega)
    obtain ⟨a1, a2, a3⟩ := heapify_up_insert (palloc k) 0 p (by omega) hh0
    rw [hstep]
    refine ⟨⟨_, rfl, by omega, by simp, by simpa using hk, rfl, a1⟩, rfl, Or.inl ⟨by omega, by simp [hzero], ?_⟩⟩
    rw [entry_paths_of_fresh ⟨hnone, hzero⟩]
    simpa [entry_paths] using a2
  · by_cases hlt : e.n_paths < k
    · have hstep : insert_path_topk e p k =
          { e with paths := some (heapify_up (arr.set e.n_paths p) e.n_paths),
                   n_paths := e.n_paths + 1 } := by
        simp [insert_path_topk, harr, hlt]
      obtain ⟨a1, a2, a3⟩ := heapify_up_insert arr e.n_paths p (by omega) hheap
      rw [hstep]
      refine ⟨⟨_, rfl, by omega, by simp, by simpa using hlt, hkl, a1⟩, rfl, Or.inl ⟨hlt, rfl, ?_⟩⟩
      simpa [entry_paths, harr] using a2
    · have hn : e.n_paths = k := by omega
      have hroot := IsHeap.root_le hheap
      have hep : entry_paths e = arr := by
        simp [entry_paths, harr, hn, ← hlen]
      refine ⟨?_, ?_, Or.inr ⟨hn, rd arr 0, ?_, ?_, ?_⟩⟩
      · by_cases hgt : p.sumW > (rd arr 0).sumW
        · have hstep : insert_path_topk e p k =
              { e with paths := some (heapify_down (arr.set 0 p) k 0) } := by
            simp [insert_path_topk, harr, hlt, hgt]
          obtain ⟨a1, _, a3⟩ := heapify_down_replace arr k p hk hlen (hn ▸ hheap)
          rw [hstep]
          exact ⟨_, rfl, a3, hpos, hle, hkl, (by rw [hn]; exact a1)⟩
        · have hstep : insert_path_topk e p k = e := by
            simp [insert_path_topk, harr, hlt, hgt]
          rw [hstep]
          exact ⟨arr, harr, hlen, hpos, hle, hkl, hheap⟩
      · by_cases hgt : p.sumW > (rd arr 0).sumW
        · simp [insert_path_topk, harr, hlt, hgt]
        · simp [insert_path_topk, harr, hlt, hgt]
      · rw [hep]
        have := rd_zero_mem_take arr k hk (by omega)
        rwa [List.take_of_length_le (by omega)] at this
      · intro q hq
        rw [hep] at hq
        obtain ⟨j, hj, rfl⟩ := mem_take_rd arr k (by omega) q
          (by rwa [List.take_of_length_le (by omega)])
        exact hroot j (by omega)
      · by_cases hgt : p.sumW > (rd arr 0).sumW
        · right
          have hstep : insert_path_topk e p k =
              { e with paths := some (heapify_down (arr.set 0 p) k 0) } := by
            simp [insert_path_topk, harr, hlt, hgt]
          obtain ⟨_, a2, a3⟩ := heapify_down_replace arr k p hk hlen (hn ▸ hheap)
          rw [hstep]
          refine ⟨hgt, hn, ?_⟩
          rw [hep]
          simp only [entry_paths, Option.getD_some, hn]
          rw [List.take_of_length_le (by omega)]
          exact a2
        · left
          refine ⟨by omega, ?_⟩
          simp [insert_path_topk, harr, hlt, hgt]


/-! ## Counting by threshold

A multiset of weights is determined by the numbers of its members that reach
each threshold `v`; keeping the `k` greatest members caps every such number
at `k`. -/

theorem cge_eq_cgeI (v : Int) (l : List PathState) : cge v l = cgeI v (weights l) := by
  simp [cge, cgeI, weights, List.countP_map, Function.comp_def]

theorem cge_le_length (v : Int) (l : List PathState) : cge v l ≤ l.length :=
  List.countP_le_length _

theorem cge_perm {l1 l2 : List PathState} (h : l1.Perm l2) (v : Int) : cge v l1 = cge v l2 :=
  h.countP_eq _

theorem cgeI_perm {l1 l2 : List Int} (h : l1.Perm l2) (v : Int) : cgeI v l1 = cgeI v l2 :=
  h.countP_eq _

theorem cge_append (v : Int) (l1 l2 : List PathState) :
    cge v (l1 ++ l2) = cge v l1 + cge v l2 := by
  simp [cge]

theorem cge_cons (v : Int) (p : PathState) (l : List PathState) :
    cge v (p :: l) = cge v l + (if v ≤ p.sumW then 1 else 0) := by
  simp [cge, List.countP_cons]

theorem cge_nil (v : Int) : cge v [] = 0 := rfl

theorem cge_eq_length {v : Int} {l : List PathState} (h : ∀ q ∈ l, v ≤ q.sumW) :
    cge v l = l.length := by
  unfold cge
  rw [List.countP_eq_length]
  intro q hq
  simpa using h q hq

theorem cge_erase {v : Int} {l : List PathState} {m : PathState} (hm : m ∈ l) :
    cge v l = cge v (l.erase m) + (if v ≤ m.sumW then 1 else 0) := by
  rw [cge_perm (List.perm_cons_erase hm) v, cge_cons]

theorem cgeI_eq_count_add (x : Int) (l : List Int) :
    cgeI x l = l.count x + cgeI (x + 1) l := by
  induction l with
  | nil => rfl
  | cons a l ih =>
    unfold cgeI at ih ⊢
    simp only [List.countP_cons, List.count_cons, decide_eq_true_eq, beq_iff_eq]
    rw [ih]
    split_ifs <;> omega

/-- Two lists of integers with the same threshold counts are permutations of
each other. -/
theorem perm_of_cgeI_eq {l1 l2 : List Int} (h : ∀ v, cgeI v l1 = cgeI v l2) : l1.Perm l2 := by
  rw [List.perm_iff_count]
  intro x
  have a1 := cgeI_eq_count_add x l1
  have a2 := cgeI_eq_count_add x l2
  have := h x
  have := h (x + 1)
  omega

theorem sortDesc_perm (l : List Int) : (sortDesc l).Perm l :=
  List.perm_insertionSort _ l

theorem sortDesc_sorted (l : List Int) : (sortDesc l).Sorted (fun a b => b ≤ a) :=
  List.sorted_insertionSort _ l

theorem cgeI_take_of_sorted (v : Int) : ∀ (s : List Int) (k : Nat),
    s.Sorted (fun a b => b ≤ a) → cgeI v (s.take k) = min k (cgeI v s) := by
  intro s
  induction s with
  | nil => intro k _; simp [cgeI]
  | cons a t ih =>
    intro k hs
    cases k with
    | zero => simp [cgeI]
    | succ k =>
      have hs' := List.sorted_cons.mp hs
      have := ih k hs'.2
      unfold cgeI at this ⊢
      simp only [List.take_succ_cons, List.countP_cons, decide_eq_true_eq]
      by_cases hva : v ≤ a
      · simp only [hva, if_true]; omega
      · have hz : List.countP (fun x => decide (v ≤ x)) t = 0 := by
          rw [List.countP_eq_zero]
          intro b hb
          have := hs'.1 b hb
          simp; omega
        simp only [hva, if_false, hz] at this ⊢
        omega

/-- Threshold counts of the `k` greatest weights. -/
theorem cgeI_take_sortDesc (v : Int) (l : List Int) (k : Nat) :
    cgeI v ((sortDesc l).take k) = min k (cgeI v l) := by
  rw [cgeI_take_of_sorted v _ k (sortDesc_sorted l), cgeI_perm (sortDesc_perm l)]

theorem TopKOf.weights_perm {k : Nat} {kept src : List PathState} (h : TopKOf k kept src) :
    (weights kept).Perm ((sortDesc (weights src)).take k) := by
  apply perm_of_cgeI_eq
  intro v
  rw [cgeI_take_sortDesc, ← cge_eq_cgeI, ← cge_eq_cgeI]
  exact h.2 v

theorem TopKOf.nil (k : Nat) : TopKOf k [] [] := by
  constructor
  · simp
  · intro v; simp [cge]

theorem TopKOf.append {k : Nat} {kept kept1 src : List PathState} {p : PathState}
    (h : TopKOf k kept src) (hlt : kept.length < k) (hp : kept1.Perm (kept ++ [p])) :
    TopKOf k kept1 (src ++ [p]) := by
  obtain ⟨hl, hc⟩ := h
  have hsrc : src.length < k := by omega
  have hkl : kept.length = src.length := by omega
  constructor
  · rw [hp.length_eq]; simp; omega
  · intro v
    rw [cge_perm hp v, cge_append, cge_append, hc v]
    have h1 := cge_le_length v src
    have h2 := cge_le_length v [p]
    simp at h2
    omega

theorem TopKOf.reject {k : Nat} {kept src : List PathState} {p m : PathState}
    (h : TopKOf k kept src) (hfull : kept.length = k)
    (hmin : ∀ q ∈ kept, m.sumW ≤ q.sumW) (hp : p.sumW ≤ m.sumW) :
    TopKOf k kept (src ++ [p]) := by
  obtain ⟨hl, hc⟩ := h
  constructor
  · simp; omega
  · intro v
    rw [cge_append, hc v]
    by_cases hv : v ≤ p.sumW
    · have : cge v kept = kept.length := cge_eq_length (fun q hq => by
        have := hmin q hq; omega)
      have h3 := hc v
      omega
    · have : cge v [p] = 0 := by simp [cge, hv]
      omega

theorem TopKOf.replace {k : Nat} {kept kept1 src : List PathState} {p m : PathState}
    (h : TopKOf k kept src) (hfull : kept.length = k) (hm : m ∈ kept)
    (hmin : ∀ q ∈ kept, m.sumW ≤ q.sumW) (hp : m.sumW < p.sumW)
    (hperm : kept1.Perm (p :: kept.erase m)) :
    TopKOf k kept1 (src ++ [p]) := by
  obtain ⟨hl, hc⟩ := h
  have hlen1 : kept1.length = k := by
    rw [hperm.length_eq, List.length_cons, List.length_erase_of_mem hm]
    have : 0 < kept.length := List.length_pos_of_mem hm
    omega
  constructor
  · rw [hlen1]; simp; omega
  · intro v
    rw [cge_perm hperm v, cge_cons, cge_append, cge_cons, cge_nil]
    have he := cge_erase (v := v) hm
    have h3 := hc v
    have h4 := cge_le_length v (kept.erase m)
    have h5 : (kept.erase m).length + 1 = k := by
      rw [List.length_erase_of_mem hm]
      have : 0 < kept.length := List.length_pos_of_mem hm
      omega
    by_cases hv : v ≤ m.sumW
    · have hvp : v ≤ p.sumW := by omega
      have : cge v kept = kept.length := cge_eq_length (fun q hq => by
        have := hmin q hq; omega)
      simp only [hv, hvp, if_true] at he ⊢
      omega
    · simp only [hv, if_false] at he
      split_ifs <;> omega


/-! ## Sequences of insertions into one entry -/

theorem entry_paths_length {k : Nat} {e : NodeEntry} (h : EntryInv k e) :
    (entry_paths e).length = e.n_paths := by
  rcases h with h | ⟨arr, harr, hlen, _, hle, _, _⟩
  · rw [entry_paths_of_fresh h, h.2]; rfl
  · simp [entry_paths, harr]; omega

theorem fresh_entry_inv (k : Nat) (key : Int) : EntryInv k (fresh_entry key) :=
  Or.inl ⟨rfl, rfl⟩

theorem entry_paths_fresh (key : Int) : entry_paths (fresh_entry key) = [] := rfl

/-- One insertion keeps the entry a top-`k` selection of what was inserted,
and the retained paths are among the old ones and the new one. -/
theorem insert_path_topk_topk (k : Nat) (hk : 0 < k) (e : NodeEntry) (p : PathState)
    (src : List PathState) (he : EntryInv k e) (ht : TopKOf k (entry_paths e) src) :
    EntryHeap k (insert_path_topk e p k) ∧ (insert_path_topk e p k).key = e.key ∧
      TopKOf k (entry_paths (insert_path_topk e p k)) (src ++ [p]) ∧
      (entry_paths (insert_path_topk e p k)).Subperm (entry_paths e ++ [p]) := by
  obtain ⟨h1, h2, h3⟩ := insert_path_topk_step k hk e p he
  have hlen := entry_paths_length he
  refine ⟨h1, h2, ?_⟩
  rcases h3 with ⟨hlt, _, hperm⟩ | ⟨hfull, m, hm, hmin, hrej | ⟨hgt, _, hperm⟩⟩
  · exact ⟨ht.append (by omega) hperm, hperm.subperm⟩
  · rw [hrej.2]
    exact ⟨ht.reject (by omega) hmin hrej.1, (List.sublist_append_left _ _).subperm⟩
  · refine ⟨ht.replace (by omega) hm hmin hgt hperm, hperm.subperm.trans ?_⟩
    have : (p :: (entry_paths e).erase m).Subperm (p :: entry_paths e) :=
      ((List.erase_sublist m _).cons₂ p).subperm
    exact this.trans (List.perm_append_singleton p _).symm.subperm

/-- A sequence of insertions keeps the entry a top-`k` selection of everything
inserted so far. -/
theorem insert_all_topk (k : Nat) (hk : 0 < k) (xs : List PathState) :
    ∀ (e : NodeEntry) (src : List PathState), EntryInv k e → TopKOf k (entry_paths e) src →
      EntryInv k (insert_all k e xs) ∧ (xs ≠ [] → EntryHeap k (insert_all k e xs)) ∧
      (insert_all k e xs).key = e.key ∧
      TopKOf k (entry_paths (insert_all k e xs)) (src ++ xs) ∧
      (entry_paths (insert_all k e xs)).Subperm (entry_paths e ++ xs) := by
  induction xs with
  | nil =>
    intro e src he ht
    have hfold : insert_all k e [] = e := rfl
    rw [hfold, List.append_nil, List.append_nil]
    exact ⟨he, fun h => absurd rfl h, rfl, ht, List.Subperm.refl _⟩
  | cons p xs ih =>
    intro e src he ht
    obtain ⟨a1, a2, a3, a4⟩ := insert_path_topk_topk k hk e p src he ht
    obtain ⟨b1, b2, b3, b4, b5⟩ := ih (insert_path_topk e p k) (src ++ [p]) (Or.inr a1) a3
    have hfold : insert_all k e (p :: xs) = insert_all k (insert_path_topk e p k) xs := rfl
    rw [hfold]
    refine ⟨b1, fun _ => ?_, by rw [b3, a2], by simpa using b4, ?_⟩
    · rcases b1 with hf | hh
      · cases xs with
        | nil => exact a1
        | cons y ys => exact b2 (by simp)
      · exact hh
    · refine b5.trans ?_
      have : (entry_paths (insert_path_topk e p k) ++ xs).Subperm ((entry_paths e ++ [p]) ++ xs) :=
        (List.subperm_append_right xs).mpr a4
      simpa using this

theorem insert_all_append (k : Nat) (e : NodeEntry) (xs ys : List PathState) :
    insert_all k e (xs ++ ys) = insert_all k (insert_all k e xs) ys := by
  simp [insert_all, List.foldl_append]

/-- What a fresh entry holds after a sequence of insertions. -/
theorem insert_all_fresh (k : Nat) (hk : 0 < k) (key : Int) (xs : List PathState) :
    EntryInv k (insert_all k (fresh_entry key) xs) ∧
      (xs ≠ [] → EntryHeap k (insert_all k (fresh_entry key) xs)) ∧
      (insert_all k (fresh_entry key) xs).key = key ∧
      TopKOf k (entry_paths (insert_all k (fresh_entry key) xs)) xs ∧
      (entry_paths (insert_all k (fresh_entry key) xs)).Subperm xs := by
  have h := insert_all_topk k hk xs (fresh_entry key) [] (fresh_entry_inv k key)
    (by rw [entry_paths_fresh]; exact TopKOf.nil k)
  rw [entry_paths_fresh, List.nil_append] at h
  exact h

/-- With capacity 1, an entry holding `m` keeps it against paths that are not
heavier. -/
theorem insert_all_one_keeps (m : PathState) (post : List PathState) :
    ∀ e : NodeEntry, EntryInv 1 e → entry_paths e = [m] → (∀ q ∈ post, q.sumW ≤ m.sumW) →
      entry_paths (insert_all 1 e post) = [m] := by
  induction post with
  | nil => intro e _ h _; exact h
  | cons p post ih =>
    intro e he hm hpost
    have hfold : insert_all 1 e (p :: post) = insert_all 1 (insert_path_topk e p 1) post := rfl
    obtain ⟨h1, _, h3⟩ := insert_path_topk_step 1 (by decide) e p he
    have hlen := entry_paths_length he
    rw [hm] at hlen
    have hp : p.sumW ≤ m.sumW := hpost p (by simp)
    rcases h3 with ⟨hlt, _, _⟩ | ⟨_, m0, hm0, _, hrej | ⟨hgt, _, _⟩⟩
    · simp at hlen; omega
    · rw [hfold, hrej.2]
      exact ih e he hm (fun q hq => hpost q (by simp [hq]))
    · rw [hm] at hm0
      simp at hm0
      subst hm0
      omega

/-- With capacity 1, the entry ends up holding the earliest path of greatest
weight. -/
theorem insert_all_one (key : Int) (pre post : List PathState) (m : PathState)
    (hpre : ∀ q ∈ pre, q.sumW < m.sumW) (hpost : ∀ q ∈ post, q.sumW ≤ m.sumW) :
    entry_paths (insert_all 1 (fresh_entry key) (pre ++ m :: post)) = [m] := by
  rw [insert_all_append]
  obtain ⟨a1, _, _, a4, a5⟩ := insert_all_fresh 1 (by decide) key pre
  have hfold : ∀ e, insert_all 1 e (m :: post) = insert_all 1 (insert_path_topk e m 1) post :=
    fun _ => rfl
  rw [hfold]
  obtain ⟨h1, _, h3⟩ := insert_path_topk_step 1 (by decide) _ m a1
  refine insert_all_one_keeps m post _ (Or.inr h1) ?_ hpost
  have hlen := entry_paths_length a1
  rcases h3 with ⟨hlt, _, hperm⟩ | ⟨hfull, m0, hm0, _, hrej | ⟨_, _, hperm⟩⟩
  · have : entry_paths (insert_all 1 (fresh_entry key) pre) = [] :=
      List.length_eq_zero.mp (by omega)
    rw [this] at hperm
    exact List.perm_singleton.mp (by simpa using hperm)
  · have := hpre m0 (a5.subset hm0)
    omega
  · obtain ⟨x, hx⟩ := List.length_eq_one.mp (by omega :
      (entry_paths (insert_all 1 (fresh_entry key) pre)).length = 1)
    rw [hx] at hm0 hperm
    simp at hm0
    subst hm0
    exact List.perm_singleton.mp (by simpa using hperm)

/-! ## The global merge -/

theorem list_ext_rd (l1 l2 : List PathState) (hlen : l1.length = l2.length)
    (h : ∀ m, m < l1.length → rd l1 m = rd l2 m) : l1 = l2 := by
  apply List.ext_getElem hlen
  intro m h1 h2
  have := h m h1
  rwa [rd_eq_getElem l1 m h1, rd_eq_getElem l2 m h2] at this

theorem rd_take (l : List PathState) (n m : Nat) (h : m < n) : rd (l.take n) m = rd l m := by
  simp [rd, List.getD_eq_getElem?_getD, List.getElem?_take, h]

theorem rd_cons_succ (a : PathState) (l : List PathState) (m : Nat) :
    rd (a :: l) (m + 1) = rd l m := by
  simp [rd]

theorem rd_cons_zero (a : PathState) (l : List PathState) : rd (a :: l) 0 = a := by
  simp [rd]

theorem length_insertAfter (p : PathState) (l : List PathState) :
    (insertAfter p l).length = l.length + 1 := by
  induction l with
  | nil => rfl
  | cons a t ih =>
    unfold insertAfter
    split_ifs <;> simp [ih]

/-- Where `insertAfter` puts the new path, by index. -/
theorem rd_insertAfter (p : PathState) : ∀ (l : List PathState) (a : Nat), a ≤ l.length →
    (∀ i, i < a → p.sumW ≤ wt l i) → (a < l.length → wt l a < p.sumW) →
    ∀ m, m ≤ l.length →
      rd (insertAfter p l) m = if m < a then rd l m else if m = a then p else rd l (m - 1) := by
  intro l
  induction l with
  | nil =>
    intro a ha _ _ m hm
    simp at ha hm
    subst ha; subst hm
    simp [insertAfter, rd]
  | cons x t ih =>
    intro a ha h1 h2 m hm
    cases a with
    | zero =>
      have hx : ¬ p.sumW ≤ x.sumW := by
        have := h2 (by simp)
        simp only [wt, rd_cons_zero] at this
        omega
      simp only [insertAfter, if_neg hx]
      cases m with
      | zero => simp [rd]
      | succ m => simp [rd]
    | succ a =>
      have hx : p.sumW ≤ x.sumW := by
        have := h1 0 (by omega)
        simpa only [wt, rd_cons_zero] using this
      simp only [insertAfter, if_pos hx]
      cases m with
      | zero => simp [rd]
      | succ m =>
        rw [rd_cons_succ]
        have := ih a (by simpa using ha)
          (fun i hi => by
            have := h1 (i + 1) (by omega)
            simpa only [wt, rd_cons_succ] using this)
          (fun hlt => by
            have := h2 (by simpa using hlt)
            simpa only [wt, rd_cons_succ] using this)
          m (by simpa using hm)
        rw [this]
        by_cases c1 : m < a
        · simp [c1, rd_cons_succ]
        · by_cases c2 : m = a
          · simp [c2]
          · have c3 : ¬ m + 1 < a + 1 := by omega
            have c4 : ¬ m + 1 = a + 1 := by omega
            simp only [c1, c2, c3, c4, if_false]
            cases m with
            | zero => omega
            | succ m => simp [rd_cons_succ]

/-- The sift loop of the merge, by index: the path at slot `j` ends at some
slot `a ≤ j`, behind a path that is at least as heavy and before the strictly
lighter ones, which move one slot up. -/
theorem bubble_up_spec (p : PathState) : ∀ (j : Nat) (g : List PathState), j < g.length →
    rd g j = p →
    ∃ a, a ≤ j ∧ (0 < a → p.sumW ≤ wt g (a - 1)) ∧ (∀ i, a ≤ i → i < j → wt g i < p.sumW) ∧
      (bubble_up g j).length = g.length ∧
      ∀ m, rd (bubble_up g j) m =
        if m < a then rd g m else if m = a then p else if m ≤ j then rd g (m - 1) else rd g m := by
  intro j
  induction j with
  | zero =>
    intro g _ hp
    refine ⟨0, le_refl _, fun h => absurd h (by omega), fun i _ hi => absurd hi (by omega), rfl, ?_⟩
    intro m
    cases m with
    | zero => simp [bubble_up, hp]
    | succ m => simp [bubble_up]
  | succ j ih =>
    intro g hj hp
    unfold bubble_up
    have hpw : wt g (j + 1) = p.sumW := by unfold wt; rw [hp]
    by_cases hc : (rd g (j + 1)).sumW > (rd g j).sumW
    · rw [if_pos hc]
      have hjl : j < g.length := by omega
      have hc' : wt g j < p.sumW := by
        have : wt g j < wt g (j + 1) := hc
        omega
      obtain ⟨a, ha, h1, h2, h3, h4⟩ := ih (swap_paths g (j + 1) j)
        (by rw [length_swap_paths]; exact hjl)
        (by rw [rd_swap_paths _ _ _ _ hj hjl]; simp [hp])
      refine ⟨a, by omega, ?_, ?_, by rw [h3, length_swap_paths], ?_⟩
      · intro h0
        have := h1 h0
        rwa [wt_swap_other _ _ _ _ hj hjl (by omega) (by omega)] at this
      · intro i hi1 hi2
        by_cases hij : i = j
        · rw [hij]; exact hc'
        · have := h2 i hi1 (by omega)
          rwa [wt_swap_other _ _ _ _ hj hjl (by omega) (by omega)] at this
      · intro m
        rw [h4 m]
        by_cases c1 : m < a
        · simp only [c1, if_true]
          rw [rd_swap_paths _ _ _ _ hj hjl, if_neg (by omega), if_neg (by omega)]
        · by_cases c2 : m = a
          · simp only [c2, if_true, lt_irrefl, if_false]
          · simp only [c1, c2, if_false]
            by_cases c3 : m ≤ j
            · rw [if_pos c3, if_pos (by omega)]
              rw [rd_swap_paths _ _ _ _ hj hjl, if_neg (by omega), if_neg (by omega)]
            · rw [if_neg c3]
              by_cases c4 : m = j + 1
              · rw [if_pos (by omega), c4, rd_swap_paths _ _ _ _ hj hjl, if_neg (by omega),
                  if_pos rfl]
                simp
              · rw [if_neg (by omega), rd_swap_paths _ _ _ _ hj hjl, if_neg (by omega),
                  if_neg c4]
    · rw [if_neg hc]
      refine ⟨j + 1, le_refl _, ?_, fun i h1 h2 => absurd h2 (by omega), rfl, ?_⟩
      · intro _
        have : ¬ wt g (j + 1) > wt g j := hc
        simp only [Nat.add_sub_cancel]
        omega
      · intro m
        by_cases c1 : m < j + 1
        · simp [c1]
        · by_cases c2 : m = j + 1
          · simp [c2, hp]
          · have c3 : ¬ m ≤ j + 1 := by omega
            simp [c1, c2, c3]

/-- The search loop of the merge at capacity: it returns the first slot from
which on every path is strictly lighter than `p`. -/
theorem find_pos_spec (g : List PathState) (p : PathState) (a : Nat) : ∀ n, a ≤ n →
    (∀ i, a ≤ i → i < n → p.sumW > wt g i) → (0 < a → ¬ p.sumW > wt g (a - 1)) →
    find_pos g p n n = a := by
  intro n
  induction n with
  | zero => intro ha _ _; simp [find_pos]; omega
  | succ n ih =>
    intro ha h1 h2
    unfold find_pos
    by_cases han : a = n + 1
    · have : ¬ p.sumW > (rd g n).sumW := by
        have := h2 (by omega)
        rw [han] at this
        simpa [wt] using this
      rw [if_neg this, han]
    · have : p.sumW > (rd g n).sumW := h1 n (by omega) (by omega)
      rw [if_pos this]
      exact ih (by omega) (fun i hi1 hi2 => h1 i hi1 (by omega)) h2

/-- The shifting loop of the merge at capacity, by index. -/
theorem shift_right_spec (pos : Nat) : ∀ (j : Nat) (g : List PathState), j < g.length →
    (shift_right pos g j).length = g.length ∧
    ∀ m, rd (shift_right pos g j) m = if pos < m ∧ m ≤ j then rd g (m - 1) else rd g m := by
  intro j
  induction j with
  | zero =>
    intro g _
    refine ⟨rfl, fun m => ?_⟩
    have : ¬ (pos < m ∧ m ≤ 0) := by omega
    rw [if_neg this]
    rfl
  | succ j ih =>
    intro g hj
    unfold shift_right
    by_cases hc : j + 1 > pos
    · rw [if_pos hc]
      obtain ⟨h1, h2⟩ := ih (g.set (j + 1) (rd g j)) (by simp; omega)
      refine ⟨by simpa using h1, fun m => ?_⟩
      rw [h2 m]
      by_cases c1 : pos < m ∧ m ≤ j
      · rw [if_pos c1, if_pos (by omega), rd_set _ _ _ _ hj, if_neg (by omega)]
      · rw [if_neg c1, rd_set _ _ _ _ hj]
        by_cases c2 : m = j + 1
        · rw [if_pos c2, if_pos (by omega), c2]
          simp
        · rw [if_neg c2, if_neg (by omega)]
    · rw [if_neg hc]
      refine ⟨rfl, fun m => ?_⟩
      rw [if_neg (by omega)]

theorem rd_insertAfter_take (p : PathState) (l : List PathState) (a : Nat) (ha : a ≤ l.length)
    (h1 : ∀ i, i < a → p.sumW ≤ wt l i) (h2 : a < l.length → wt l a < p.sumW) :
    insertAfter p l = l.take a ++ p :: l.drop a := by
  apply list_ext_rd
  · rw [length_insertAfter]; simp; omega
  · intro m hm
    rw [length_insertAfter] at hm
    rw [rd_insertAfter p l a ha h1 h2 m (by omega)]
    unfold rd
    simp only [List.getD_eq_getElem?_getD]
    by_cases c1 : m < a
    · rw [if_pos c1, List.getElem?_append_left (by simp; omega), List.getElem?_take, if_pos c1]
    · rw [if_neg c1, List.getElem?_append_right (by simp; omega)]
      have hl : (List.take a l).length = a := by simp; omega
      rw [hl]
      by_cases c2 : m = a
      · rw [if_pos c2, c2]; simp
      · rw [if_neg c2]
        obtain ⟨d, hd⟩ : ∃ d, m - a = d + 1 := ⟨m - a - 1, by omega⟩
        rw [hd, List.getElem?_cons_succ, List.getElem?_drop]
        congr 2
        omega

theorem take_insertAfter (p : PathState) : ∀ (l : List PathState) (k : Nat),
    (insertAfter p l).take k = (insertAfter p (l.take k)).take k := by
  intro l
  induction l with
  | nil => intro k; simp
  | cons a t ih =>
    intro k
    cases k with
    | zero => simp
    | succ k =>
      simp only [List.take_succ_cons, insertAfter]
      by_cases h : p.sumW ≤ a.sumW
      · rw [if_pos h, if_pos h, List.take_succ_cons, List.take_succ_cons, ih k]
      · rw [if_neg h, if_neg h, List.take_succ_cons, List.take_succ_cons]
        congr 1
        cases k with
        | zero => simp
        | succ k => simp [List.take_take]

theorem orderedInsert_insertAfter (x p : PathState) : ∀ l : List PathState,
    List.orderedInsert (fun a b : PathState => b.sumW ≤ a.sumW) x (insertAfter p l) =
      insertAfter p (List.orderedInsert (fun a b : PathState => b.sumW ≤ a.sumW) x l) := by
  intro l
  induction l with
  | nil =>
    simp only [insertAfter, List.orderedInsert]
  | cons a t ih =>
    simp only [insertAfter, List.orderedInsert]
    by_cases h1 : p.sumW ≤ a.sumW <;> by_cases h2 : a.sumW ≤ x.sumW
    · have h3 : p.sumW ≤ x.sumW := by omega
      simp [h1, h2, h3, insertAfter, List.orderedInsert]
    · simp [h1, h2, insertAfter, List.orderedInsert, ih]
    · by_cases h3 : p.sumW ≤ x.sumW
      · simp [h1, h2, h3, insertAfter, List.orderedInsert]
      · simp [h1, h2, h3, insertAfter, List.orderedInsert]
    · have h3 : ¬ p.sumW ≤ x.sumW := by omega
      simp [h1, h2, h3, insertAfter, List.orderedInsert]

/-- Appending a path to the input of the stable sort inserts it behind every
path that is at least as heavy. -/
theorem stableSortDesc_append_singleton (xs : List PathState) (p : PathState) :
    stableSortDesc (xs ++ [p]) = insertAfter p (stableSortDesc xs) := by
  induction xs with
  | nil => rfl
  | cons x xs ih =>
    unfold stableSortDesc at ih ⊢
    rw [List.cons_append, List.insertionSort, List.insertionSort, ih, orderedInsert_insertAfter]

theorem stableSortDesc_sorted (xs : List PathState) :
    (stableSortDesc xs).Sorted (fun a b : PathState => b.sumW ≤ a.sumW) := by
  have : IsTotal PathState (fun a b : PathState => b.sumW ≤ a.sumW) :=
    ⟨fun a b => le_total b.sumW a.sumW⟩
  have : IsTrans PathState (fun a b : PathState => b.sumW ≤ a.sumW) :=
    ⟨fun a b c h1 h2 => le_trans h2 h1⟩
  exact List.sorted_insertionSort _ xs

theorem stableSortDesc_perm (xs : List PathState) : (stableSortDesc xs).Perm xs :=
  List.perm_insertionSort _ xs

theorem descUpTo_of_sorted (l : List PathState)
    (h : l.Sorted (fun a b : PathState => b.sumW ≤ a.sumW)) : DescUpTo l l.length := by
  intro i j hij hj
  rcases Nat.lt_or_ge i j with hlt | hge
  · have := List.pairwise_iff_getElem.mp h i j (by omega) hj hlt
    simpa [wt, rd_eq_getElem l i (by omega), rd_eq_getElem l j hj] using this
  · have : i = j := by omega
    rw [this]

theorem DescUpTo.split {g : List PathState} {n : Nat} (h : DescUpTo g n) (p : PathState) :
    ∃ a, a ≤ n ∧ (∀ i, i < a → p.sumW ≤ wt g i) ∧ (∀ i, a ≤ i → i < n → wt g i < p.sumW) := by
  induction n with
  | zero => exact ⟨0, le_refl _, fun i hi => absurd hi (by omega), fun i _ hi => absurd hi (by omega)⟩
  | succ n ih =>
    obtain ⟨a, ha, h1, h2⟩ := ih (fun i j hij hj => h i j hij (by omega))
    by_cases han : a = n
    · by_cases hp : p.sumW ≤ wt g n
      · refine ⟨n + 1, le_refl _, fun i hi => ?_, fun i hi1 hi2 => absurd hi2 (by omega)⟩
        by_cases hin : i = n
        · rw [hin]; exact hp
        · exact h1 i (by omega)
      · refine ⟨n, by omega, fun i hi => h1 i (by omega), fun i hi1 hi2 => ?_⟩
        have : i = n := by omega
        rw [this]; omega
    · refine ⟨a, by omega, h1, fun i hi1 hi2 => ?_⟩
      by_cases hin : i = n
      · have h3 := h2 a (le_refl _) (by omega)
        have h4 := h a n (by omega) (by omega)
        rw [hin]; omega
      · exact h2 i hi1 (by omega)

theorem wt_take (l : List PathState) (n m : Nat) (h : m < n) : wt (l.take n) m = wt l m := by
  unfold wt; rw [rd_take l n m h]

theorem descUpTo_take {g : List PathState} {c : Nat} (hc : c ≤ g.length)
    (h : (g.take c).Sorted (fun a b : PathState => b.sumW ≤ a.sumW)) : DescUpTo g c := by
  have hd := descUpTo_of_sorted _ h
  have hl : (g.take c).length = c := by simp; omega
  rw [hl] at hd
  intro i j hij hj
  have := hd i j hij hj
  rwa [wt_take _ _ _ hj, wt_take _ _ _ (by omega)] at this

/-- Below capacity: storing `p` in slot `c` and sifting it towards the front
inserts it into the first `c` slots behind every path at least as heavy. -/
theorem bubble_up_insertAfter (g : List PathState) (c : Nat) (p : PathState)
    (hc : c < g.length) (hd : DescUpTo g c) :
    (bubble_up (g.set c p) c).length = g.length ∧
      (bubble_up (g.set c p) c).take (c + 1) = insertAfter p (g.take c) := by
  have hset : rd (g.set c p) c = p := by
    rw [rd_set _ _ _ _ hc]; simp
  obtain ⟨a, ha, h1, h2, h3, h4⟩ := bubble_up_spec p c (g.set c p) (by simp; omega) hset
  have hlen : (bubble_up (g.set c p) c).length = g.length := by
    rw [h3]; simp
  refine ⟨hlen, ?_⟩
  have hpl : (g.take c).length = c := by simp; omega
  apply list_ext_rd
  · rw [length_insertAfter, hpl, List.length_take, hlen]; omega
  · intro m hm
    have hm1 : m < c + 1 := by
      rw [List.length_take] at hm; omega
    rw [rd_take _ _ _ hm1, h4 m]
    rw [rd_insertAfter p (g.take c) a (by omega) ?_ ?_ m (by omega)]
    · by_cases c1 : m < a
      · rw [if_pos c1, if_pos c1, rd_take _ _ _ (by omega), rd_set _ _ _ _ hc,
          if_neg (by omega)]
      · rw [if_neg c1, if_neg c1]
        by_cases c2 : m = a
        · rw [if_pos c2, if_pos c2]
        · rw [if_neg c2, if_neg c2, if_pos (by omega), rd_take _ _ _ (by omega),
            rd_set _ _ _ _ hc, if_neg (by omega)]
    · intro i hi
      have e1 := h1 (by omega)
      rw [wt_set_ne _ _ _ _ hc (by omega)] at e1
      have e2 := hd i (a - 1) (by omega) (by omega)
      rw [wt_take _ _ _ (by omega)]
      omega
    · intro hlt
      rw [hpl] at hlt
      have := h2 a (le_refl _) hlt
      rw [wt_set_ne _ _ _ _ hc (by omega)] at this
      rw [wt_take _ _ _ hlt]
      exact this

/-- At capacity, a path strictly heavier than the last one: search, shift and
store insert it behind every path at least as heavy and drop the last path. -/
theorem shift_insertAfter (g : List PathState) (k : Nat) (p : PathState) (hk : 0 < k)
    (hlen : g.length = k) (hd : DescUpTo g k) (hgt : p.sumW > wt g (k - 1)) :
    (shift_right (find_pos g p (k - 1) (k - 1)) g (k - 1)).set (find_pos g p (k - 1) (k - 1)) p =
      (insertAfter p g).take k := by
  obtain ⟨a, ha, h1, h2⟩ := hd.split p
  have hak : a ≤ k - 1 := by
    by_contra hcon
    have := h1 (k - 1) (by omega)
    omega
  have hpos : find_pos g p (k - 1) (k - 1) = a :=
    find_pos_spec _ p a (k - 1) hak (fun i hi1 hi2 => h2 i hi1 (by omega))
      (fun h0 => by have := h1 (a - 1) (by omega); omega)
  obtain ⟨s1, s2⟩ := shift_right_spec a (k - 1) g (by omega)
  rw [hpos]
  have hlen2 : ((shift_right a g (k - 1)).set a p).length = k := by
    rw [List.length_set, s1, hlen]
  apply list_ext_rd
  · rw [hlen2, List.length_take, length_insertAfter]; omega
  · intro m hm
    rw [hlen2] at hm
    rw [rd_take _ _ _ hm, rd_set _ _ _ _ (by omega), s2 m,
      rd_insertAfter p _ a (by omega) h1 (fun hlt => h2 a (le_refl _) (by omega)) m (by omega)]
    by_cases c1 : m < a
    · rw [if_neg (by omega), if_neg (by omega), if_pos c1]
    · by_cases c2 : m = a
      · rw [if_pos c2, if_neg c1, if_pos c2]
      · rw [if_neg c2, if_pos (by omega), if_neg c1, if_neg c2]

/-- At capacity, a path not heavier than the last one falls off the end. -/
theorem take_insertAfter_of_le (g : List PathState) (k : Nat) (p : PathState) (hk : 0 < k)
    (hlen : g.length = k) (hd : DescUpTo g k) (hle : p.sumW ≤ wt g (k - 1)) :
    (insertAfter p g).take k = g := by
  rw [rd_insertAfter_take p g k (by omega)
    (fun i hi => by have := hd i (k - 1) (by omega) (by omega); omega)
    (fun hlt => absurd hlt (by omega))]
  rw [List.take_append_of_le_length (by simp; omega), List.take_take]
  simp [← hlen]

/-- One step of the merge loop keeps the invariant. -/
theorem global_step_inv (k : Nat) (hk : 0 < k) (xs : List PathState) (st : GlobalTopK)
    (p : PathState) (h : GlobalInv k xs st) : GlobalInv k (xs ++ [p]) (global_step k st p) := by
  obtain ⟨hlen, hcnt, htake⟩ := h
  have hsl : (stableSortDesc xs).length = xs.length := (stableSortDesc_perm xs).length_eq
  have hsorted : (st.global_topk.take st.global_count).Sorted
      (fun a b : PathState => b.sumW ≤ a.sumW) := by
    rw [htake]
    exact (stableSortDesc_sorted xs).sublist (List.take_sublist _ _)
  have hdesc : DescUpTo st.global_topk st.global_count := descUpTo_take (by omega) hsorted
  have htarget : (stableSortDesc (xs ++ [p])).take k =
      (insertAfter p (st.global_topk.take st.global_count)).take k := by
    rw [stableSortDesc_append_singleton, take_insertAfter, ← htake]
  unfold global_step
  by_cases hc : st.global_count < k
  · rw [if_pos hc]
    obtain ⟨b1, b2⟩ := bubble_up_insertAfter st.global_topk st.global_count p (by omega) hdesc
    refine ⟨b1.trans hlen, ?_, ?_⟩
    · show st.global_count + 1 = min k (xs ++ [p]).length
      simp; omega
    · show (bubble_up (st.global_topk.set st.global_count p) st.global_count).take
        (st.global_count + 1) = (stableSortDesc (xs ++ [p])).take k
      rw [htarget, b2]
      refine (List.take_of_length_le ?_).symm
      rw [length_insertAfter]; simp; omega
  · rw [if_neg hc]
    have hck : st.global_count = k := by omega
    have hfull : st.global_topk.take st.global_count = st.global_topk := by
      rw [hck]; exact List.take_of_length_le (by omega)
    rw [hfull] at htarget
    rw [hck] at hdesc
    by_cases hgt : p.sumW > (rd st.global_topk (k - 1)).sumW
    · rw [if_pos hgt]
      have e := shift_insertAfter st.global_topk k p hk hlen hdesc hgt
      refine ⟨?_, ?_, ?_⟩
      · show ((shift_right _ st.global_topk (k - 1)).set _ p).length = k
        rw [e, List.length_take, length_insertAfter]; omega
      · show st.global_count = min k (xs ++ [p]).length
        simp; omega
      · show ((shift_right _ st.global_topk (k - 1)).set _ p).take st.global_count =
          (stableSortDesc (xs ++ [p])).take k
        rw [e, htarget, hck, List.take_take]; simp
    · rw [if_neg hgt]
      have hle : p.sumW ≤ wt st.global_topk (k - 1) := by
        have : ¬ p.sumW > wt st.global_topk (k - 1) := hgt
        omega
      refine ⟨hlen, by simp; omega, ?_⟩
      rw [htarget, take_insertAfter_of_le st.global_topk k p hk hlen hdesc hle, hfull]

/-- The merge loop establishes the invariant. -/
theorem global_run_inv (k : Nat) (hk : 0 < k) (xs : List PathState) :
    GlobalInv k xs (global_run k xs) := by
  induction xs using List.reverseRecOn with
  | nil =>
    exact ⟨by simp [global_run, palloc], by simp [global_run], by simp [global_run, stableSortDesc]⟩
  | append_singleton xs p ih =>
    have : global_run k (xs ++ [p]) = global_step k (global_run k xs) p := by
      simp [global_run, List.foldl_append]
    rw [this]
    exact global_step_inv k hk xs _ p ih

/-- The global merge is the first `k` paths of the stable descending sort. -/
theorem global_merge_eq (k : Nat) (hk : 0 < k) (xs : List PathState) :
    global_merge k xs = (stableSortDesc xs).take k :=
  (global_run_inv k hk xs).2.2

theorem filter_orderedInsert (w : Int) (x : PathState) : ∀ l : List PathState,
    (List.orderedInsert (fun a b : PathState => b.sumW ≤ a.sumW) x l).filter
        (fun q => decide (q.sumW = w)) =
      if x.sumW = w then x :: l.filter (fun q => decide (q.sumW = w))
      else l.filter (fun q => decide (q.sumW = w)) := by
  intro l
  induction l with
  | nil => by_cases h : x.sumW = w <;> simp [h]
  | cons a t ih =>
    simp only [List.orderedInsert]
    by_cases h1 : a.sumW ≤ x.sumW
    · rw [if_pos h1]
      by_cases h : x.sumW = w <;> simp [h, List.filter_cons]
    · rw [if_neg h1, List.filter_cons, ih]
      by_cases h : x.sumW = w
      · have : ¬ a.sumW = w := by omega
        simp [h, this, List.filter_cons]
      · simp [h, List.filter_cons]

/-- Stability of the sort: the paths of any one weight come out in their
original order. -/
theorem filter_stableSortDesc (w : Int) (xs : List PathState) :
    (stableSortDesc xs).filter (fun q => decide (q.sumW = w)) =
      xs.filter (fun q => decide (q.sumW = w)) := by
  induction xs with
  | nil => rfl
  | cons x xs ih =>
    unfold stableSortDesc at ih ⊢
    rw [List.insertionSort, filter_orderedInsert, ih, List.filter_cons]
    by_cases h : x.sumW = w <;> simp [h]

theorem dp_best_path_ok (scan : HTAB → HTAB) (R S T U : List Row) (k : Int) (hk : 0 < k) :
    dp_best_path scan R S T U k = Except.ok (dp_core scan k.toNat R S T U) := by
  unfold dp_best_path
  rw [if_neg (by omega)]

theorem dp_core_eq (scan : HTAB → HTAB) (k : Nat) (R S T U : List Row) :
    dp_core scan k R S T U =
      global_merge k (scan_paths scan (extend k setE (rekey scan k (fun p => p.D)
        (extend k setD (rekey scan k (fun p => p.C)
          (extend k setC (rekey scan k (fun p => p.B) (seed_layer k R)) S)) T)) U)) := rfl

theorem scan_nil (scan : HTAB → HTAB) (h : IsScan scan) : scan [] = [] :=
  List.perm_nil.mp (h [])

theorem scan_singleton (scan : HTAB → HTAB) (h : IsScan scan) (e : NodeEntry) :
    scan [e] = [e] :=
  List.perm_singleton.mp (h [e])

theorem scan_paths_nil (scan : HTAB → HTAB) (h : IsScan scan) : scan_paths scan [] = [] := by
  simp [scan_paths, scan_nil scan h]

theorem scan_paths_singleton (scan : HTAB → HTAB) (h : IsScan scan) (e : NodeEntry) :
    scan_paths scan [e] = entry_paths e := by
  simp [scan_paths, scan_singleton scan h]

/-! ## Hash layers -/

theorem insert_path_topk_key (e : NodeEntry) (p : PathState) (k : Nat) :
    (insert_path_topk e p k).key = e.key := by
  unfold insert_path_topk
  cases e.paths <;> simp only [] <;> split_ifs <;> rfl

theorem hash_find_cons (e : NodeEntry) (rest : HTAB) (y : Int) :
    hash_find (e :: rest) y = if e.key = y then some e else hash_find rest y := by
  unfold hash_find
  rw [List.find?_cons]
  by_cases h : e.key = y <;> simp [h]

theorem entryAt_nil (y : Int) : entryAt [] y = fresh_entry y := rfl

theorem entryAt_cons (e : NodeEntry) (rest : HTAB) (y : Int) :
    entryAt (e :: rest) y = if e.key = y then e else entryAt rest y := by
  unfold entryAt
  rw [hash_find_cons]
  by_cases h : e.key = y <;> simp [h]

theorem entryAt_key (L : HTAB) (y : Int) : (entryAt L y).key = y := by
  induction L with
  | nil => rfl
  | cons e rest ih =>
    rw [entryAt_cons]
    by_cases h : e.key = y
    · rw [if_pos h]; exact h
    · rw [if_neg h]; exact ih

/-- Lookup after an insertion. -/
theorem entryAt_layer_insert (L : HTAB) (x y : Int) (p : PathState) (k : Nat) :
    entryAt (layer_insert L x p k) y =
      if y = x then insert_path_topk (entryAt L x) p k else entryAt L y := by
  induction L with
  | nil =>
    simp only [layer_insert, entryAt_cons, entryAt_nil, insert_path_topk_key, fresh_entry]
    by_cases h : y = x
    · subst h; simp
    · have : ¬ x = y := fun e => h e.symm
      simp [h, this]
  | cons e rest ih =>
    unfold layer_insert
    by_cases hx : e.key = x
    · rw [if_pos hx, entryAt_cons, insert_path_topk_key, entryAt_cons, entryAt_cons, if_pos hx]
      by_cases h : y = x
      · subst h; simp [hx]
      · have : ¬ e.key = y := fun e' => h (e'.symm.trans hx)
        simp [h, this]
    · rw [if_neg hx, entryAt_cons, ih, entryAt_cons, entryAt_cons, if_neg hx]
      by_cases h : e.key = y
      · have : ¬ y = x := fun e' => hx (h.trans e')
        simp [h, this]
      · simp [h]

theorem keys_layer_insert (L : HTAB) (x : Int) (p : PathState) (k : Nat) :
    keys (layer_insert L x p k) = if x ∈ keys L then keys L else keys L ++ [x] := by
  induction L with
  | nil => simp [layer_insert, keys, insert_path_topk_key, fresh_entry]
  | cons e rest ih =>
    unfold layer_insert
    by_cases hx : e.key = x
    · rw [if_pos hx]
      simp [keys, insert_path_topk_key, hx]
    · rw [if_neg hx]
      have hx' : ¬ x = e.key := fun h => hx h.symm
      unfold keys at ih ⊢
      rw [List.map_cons, ih]
      by_cases hm : x ∈ List.map (fun e => e.key) rest
      · simp [hm]
      · simp [hm, hx']

theorem mem_layer_insert (L : HTAB) (x : Int) (p : PathState) (k : Nat) (e1 : NodeEntry)
    (h : e1 ∈ layer_insert L x p k) :
    e1 ∈ L ∨ e1 = insert_path_topk (entryAt L x) p k := by
  induction L with
  | nil =>
    simp only [layer_insert, List.mem_singleton] at h
    right; rw [h]; rfl
  | cons e rest ih =>
    unfold layer_insert at h
    by_cases hx : e.key = x
    · rw [if_pos hx] at h
      rcases List.mem_cons.mp h with h1 | h1
      · right; rw [h1, entryAt_cons, if_pos hx]
      · left; exact List.mem_cons_of_mem _ h1
    · rw [if_neg hx] at h
      rcases List.mem_cons.mp h with h1 | h1
      · left; rw [h1]; exact List.mem_cons_self _ _
      · rcases ih h1 with h2 | h2
        · left; exact List.mem_cons_of_mem _ h2
        · right; rw [h2, entryAt_cons, if_neg hx]

theorem entryAt_mem_or_fresh (L : HTAB) (x : Int) :
    entryAt L x ∈ L ∨ (entryAt L x = fresh_entry x ∧ x ∉ keys L) := by
  induction L with
  | nil => right; exact ⟨rfl, by simp [keys]⟩
  | cons e rest ih =>
    rw [entryAt_cons]
    by_cases h : e.key = x
    · left; rw [if_pos h]; exact List.mem_cons_self _ _
    · rw [if_neg h]
      rcases ih with h1 | ⟨h1, h2⟩
      · left; exact List.mem_cons_of_mem _ h1
      · right
        refine ⟨h1, ?_⟩
        simp only [keys, List.map_cons, List.mem_cons, not_or]
        exact ⟨fun e' => h e'.symm, h2⟩

theorem entryAt_inv {k : Nat} {L : HTAB} (h : LayerWF k L) (x : Int) :
    EntryInv k (entryAt L x) := by
  rcases entryAt_mem_or_fresh L x with h1 | ⟨h1, _⟩
  · exact Or.inr (h.1 _ h1)
  · rw [h1]; exact fresh_entry_inv k x

theorem entryAt_of_mem {L : HTAB} (hnd : (keys L).Nodup) {e : NodeEntry} (he : e ∈ L) :
    entryAt L e.key = e := by
  induction L with
  | nil => simp at he
  | cons a rest ih =>
    rw [entryAt_cons]
    simp only [keys, List.map_cons, List.nodup_cons] at hnd
    rcases List.mem_cons.mp he with h1 | h1
    · rw [h1, if_pos rfl]
    · have : ¬ a.key = e.key := by
        intro heq
        exact hnd.1 (heq ▸ List.mem_map_of_mem (fun e => e.key) h1)
      rw [if_neg this]
      exact ih hnd.2 h1

theorem layerWF_nil (k : Nat) : LayerWF k [] :=
  ⟨fun e he => by simp at he, by simp [keys]⟩

/-- An insertion keeps a layer well formed. -/
theorem layerWF_layer_insert {k : Nat} (hk : 0 < k) {L : HTAB} (h : LayerWF k L) (x : Int)
    (p : PathState) : LayerWF k (layer_insert L x p k) := by
  constructor
  · intro e he
    rcases mem_layer_insert L x p k e he with h1 | h1
    · exact h.1 e h1
    · rw [h1]
      exact (insert_path_topk_step k hk _ p (entryAt_inv h x)).1
  · rw [keys_layer_insert]
    by_cases hm : x ∈ keys L
    · rw [if_pos hm]; exact h.2
    · rw [if_neg hm]
      exact List.Nodup.append h.2 (List.nodup_singleton x) (by simpa using hm)

theorem pathsAt_nil (x : Int) : pathsAt [] x = [] := rfl

theorem pathsAt_of_mem {L : HTAB} (hnd : (keys L).Nodup) {e : NodeEntry} (he : e ∈ L) :
    pathsAt L e.key = entry_paths e := by
  rw [pathsAt, entryAt_of_mem hnd he]

theorem pathsAt_of_not_mem {L : HTAB} {x : Int} (h : x ∉ keys L) : pathsAt L x = [] := by
  rcases entryAt_mem_or_fresh L x with h1 | ⟨h1, _⟩
  · exact absurd (by
      have := List.mem_map_of_mem (fun e => e.key) h1
      simp only [entryAt_key] at this
      exact this) h
  · rw [pathsAt, h1]; rfl

theorem pathsAt_ne_nil_of_mem {k : Nat} {L : HTAB} (h : LayerWF k L) {x : Int}
    (hx : x ∈ keys L) : pathsAt L x ≠ [] := by
  obtain ⟨e, he, rfl⟩ := List.mem_map.mp hx
  rw [pathsAt_of_mem h.2 he]
  obtain ⟨arr, _, _, hpos, _, _, _⟩ := h.1 e he
  intro hnil
  have := entry_paths_length (Or.inr (h.1 e he) : EntryInv k e)
  rw [hnil] at this
  simp at this
  omega

/-- The contents of a well-formed layer, key by key. -/
theorem contents_eq_flatMap_keys {L : HTAB} (hnd : (keys L).Nodup) :
    contents L = (keys L).flatMap (pathsAt L) := by
  unfold contents keys
  rw [List.flatMap_map]
  apply List.flatMap_congr
  intro e he
  exact (pathsAt_of_mem hnd he).symm

theorem pathsAt_layer_insert (L : HTAB) (x y : Int) (p : PathState) (k : Nat) :
    pathsAt (layer_insert L x p k) y =
      if y = x then entry_paths (insert_path_topk (entryAt L x) p k) else pathsAt L y := by
  unfold pathsAt
  rw [entryAt_layer_insert]
  by_cases h : y = x <;> simp [h]

/-- An insertion adds at most the inserted path to the contents. -/
theorem contents_layer_insert {k : Nat} (hk : 0 < k) (x : Int) (p : PathState) :
    ∀ L : HTAB, (∀ e ∈ L, EntryHeap k e) →
      (contents (layer_insert L x p k)).Subperm (contents L ++ [p]) := by
  intro L
  induction L with
  | nil =>
    intro _
    have := (insert_path_topk_topk k hk (fresh_entry x) p [] (fresh_entry_inv k x)
      (by rw [entry_paths_fresh]; exact TopKOf.nil k)).2.2.2
    simpa [contents, layer_insert, entry_paths_fresh] using this
  | cons e rest ih =>
    intro hall
    have he : EntryInv k e := Or.inr (hall e (List.mem_cons_self _ _))
    unfold layer_insert
    by_cases hx : e.key = x
    · rw [if_pos hx]
      have h1 := (insert_path_topk_step k hk e p he)
      have hsub : (entry_paths (insert_path_topk e p k)).Subperm (entry_paths e ++ [p]) := by
        rcases h1.2.2 with ⟨_, _, hperm⟩ | ⟨_, m, _, _, hrej | ⟨_, _, hperm⟩⟩
        · exact hperm.subperm
        · rw [hrej.2]; exact (List.sublist_append_left _ _).subperm
        · refine hperm.subperm.trans ?_
          have : (p :: (entry_paths e).erase m).Subperm (p :: entry_paths e) :=
            ((List.erase_sublist m _).cons₂ p).subperm
          exact this.trans (List.perm_append_singleton p _).symm.subperm
      simp only [contents, List.flatMap_cons]
      have h2 := (List.subperm_append_right (rest.flatMap entry_paths)).mpr hsub
      refine h2.trans (List.Perm.subperm ?_)
      simp only [List.append_assoc]
      exact List.Perm.append_left _ List.perm_append_comm
    · rw [if_neg hx]
      have h2 := ih (fun e1 he1 => hall e1 (List.mem_cons_of_mem _ he1))
      simp only [contents, List.flatMap_cons] at h2 ⊢
      have h3 := (List.subperm_append_left (entry_paths e)).mpr h2
      simpa [List.append_assoc] using h3

theorem build_append (k : Nat) (L : HTAB) (st1 st2 : List (Int × PathState)) :
    build k L (st1 ++ st2) = build k (build k L st1) st2 := by
  simp [build, List.foldl_append]

theorem sel_append (st1 st2 : List (Int × PathState)) (x : Int) :
    sel (st1 ++ st2) x = sel st1 x ++ sel st2 x := by
  simp [sel]

theorem sel_singleton (y x : Int) (p : PathState) :
    sel [(y, p)] x = if y = x then [p] else [] := by
  by_cases h : y = x <;> simp [sel, h]

/-- A layer filled from the empty table holds, under every key, a top-`k`
selection of the paths inserted under that key, and nothing else. -/
theorem build_spec (k : Nat) (hk : 0 < k) (st : List (Int × PathState)) :
    LayerWF k (build k [] st) ∧
    (∀ x, TopKOf k (pathsAt (build k [] st) x) (sel st x)) ∧
    (∀ x, (pathsAt (build k [] st) x).Subperm (sel st x)) ∧
    (contents (build k [] st)).Subperm (st.map Prod.snd) := by
  induction st using List.reverseRecOn with
  | nil =>
    refine ⟨layerWF_nil k, fun x => ?_, fun x => ?_, ?_⟩
    · exact TopKOf.nil k
    · exact List.Subperm.refl _
    · exact List.Subperm.refl _
  | append_singleton st kp ih =>
    obtain ⟨b1, b2, b3, b4⟩ := ih
    have hstep : build k [] (st ++ [kp]) = layer_insert (build k [] st) kp.1 kp.2 k := by
      rw [build_append]; rfl
    rw [hstep]
    refine ⟨layerWF_layer_insert hk b1 _ _, fun x => ?_, fun x => ?_, ?_⟩
    · rw [pathsAt_layer_insert, sel_append, sel_singleton]
      by_cases h : x = kp.1
      · rw [if_pos h, if_pos h.symm]
        have := (insert_path_topk_topk k hk _ kp.2 (sel st kp.1)
          (entryAt_inv b1 kp.1) (b2 kp.1)).2.2.1
        rw [h]; exact this
      · rw [if_neg h, if_neg (fun e => h e.symm), List.append_nil]
        exact b2 x
    · rw [pathsAt_layer_insert, sel_append, sel_singleton]
      by_cases h : x = kp.1
      · rw [if_pos h, if_pos h.symm]
        have := (insert_path_topk_topk k hk _ kp.2 (sel st kp.1)
          (entryAt_inv b1 kp.1) (b2 kp.1)).2.2.2
        rw [h]
        exact this.trans ((List.subperm_append_right [kp.2]).mpr (b3 kp.1))
      · rw [if_neg h, if_neg (fun e => h e.symm), List.append_nil]
        exact b3 x
    · refine (contents_layer_insert hk kp.1 kp.2 _ b1.1).trans ?_
      rw [List.map_append]
      exact (List.subperm_append_right _).mpr b4

/-! ## Sums of capped counts -/

theorem countP_up_none (l : List PathState) : l.countP (up none) = l.length := by
  rw [List.countP_eq_length]
  intro p _
  rfl

theorem countP_up_some (v : Int) (l : List PathState) : l.countP (up (some v)) = cge v l := rfl

theorem topKOf_iff_up (k : Nat) (kept src : List PathState) :
    TopKOf k kept src ↔ ∀ o, kept.countP (up o) = min k (src.countP (up o)) := by
  constructor
  · rintro ⟨h1, h2⟩ o
    cases o with
    | none => rw [countP_up_none, countP_up_none]; exact h1
    | some v => rw [countP_up_some, countP_up_some]; exact h2 v
  · intro h
    refine ⟨?_, fun v => ?_⟩
    · have := h none
      rwa [countP_up_none, countP_up_none] at this
    · exact h (some v)

theorem min_sum_min (k : Nat) {α : Type} (f : α → Nat) (l : List α) :
    min k ((l.map (fun y => min k (f y))).sum) = min k ((l.map f).sum) := by
  induction l with
  | nil => rfl
  | cons a l ih =>
    simp only [List.map_cons, List.sum_cons]
    omega

theorem countP_flatMap {α β : Type} (φ : β → Bool) (f : α → List β) (l : List α) :
    (l.flatMap f).countP φ = (l.map (fun a => (f a).countP φ)).sum := by
  induction l with
  | nil => rfl
  | cons a l ih => simp [List.flatMap_cons, List.countP_append, ih]

theorem sum_map_indicator (ks : List Int) (hnd : ks.Nodup) (a : Int) (c : Nat) :
    (ks.map (fun y => if a = y then c else 0)).sum = if a ∈ ks then c else 0 := by
  induction ks with
  | nil => simp
  | cons y ys ih =>
    rw [List.nodup_cons] at hnd
    simp only [List.map_cons, List.sum_cons, ih hnd.2, List.mem_cons]
    by_cases h : a = y
    · have : a ∉ ys := h ▸ hnd.1
      simp [h, this]
      intro h'; exact absurd h' (h ▸ hnd.1)
    · simp [h]

/-- Counting key by key over a duplicate-free list of keys that covers the
counted paths gives the total count. -/
theorem sum_countP_keys (ks : List Int) (hnd : ks.Nodup) (kf : PathState → Int)
    (ψ : PathState → Bool) (P : List PathState)
    (hcov : ∀ p ∈ P, ψ p = true → kf p ∈ ks) :
    (ks.map (fun y => P.countP (fun p => decide (kf p = y) && ψ p))).sum = P.countP ψ := by
  induction P with
  | nil => simp
  | cons p P ih =>
    have ih' := ih (fun q hq => hcov q (List.mem_cons_of_mem _ hq))
    simp only [List.countP_cons]
    rw [← ih']
    have hsplit : (ks.map (fun y => P.countP (fun p => decide (kf p = y) && ψ p) +
        if (decide (kf p = y) && ψ p) = true then 1 else 0)).sum =
        (ks.map (fun y => P.countP (fun p => decide (kf p = y) && ψ p))).sum +
        (ks.map (fun y => if kf p = y then (if ψ p = true then 1 else 0) else 0)).sum := by
      rw [← List.sum_map_add]
      congr 1
      apply List.map_congr_left
      intro y _
      by_cases h1 : kf p = y <;> by_cases h2 : ψ p = true <;> simp [h1, h2]
    rw [hsplit, sum_map_indicator ks hnd]
    by_cases h2 : ψ p = true
    · have := hcov p (List.mem_cons_self _ _) h2
      simp [h2, this]
    · simp [h2]

theorem countP_filter_and (φ ψ : PathState → Bool) (l : List PathState) :
    (l.filter ψ).countP φ = l.countP (fun p => ψ p && φ p) := by
  rw [List.countP_filter]
  congr 1
  funext p
  exact Bool.and_comm _ _

/-! ## The loops of the pipeline as sequences of keyed insertions -/

theorem validRows_cons (r : Row) (rows : List Row) :
    validRows (r :: rows) =
      match r.c1, r.c2, r.c3 with
      | some a, some b, some c => (a, b, c) :: validRows rows
      | _, _, _ => validRows rows := by
  unfold validRows
  rw [List.filterMap_cons]
  rcases r with ⟨c1, c2, c3⟩
  cases c1 <;> cases c2 <;> cases c3 <;> rfl

theorem mem_validRows (rows : List Row) (a b c : Int) :
    (a, b, c) ∈ validRows rows ↔ (⟨some a, some b, some c⟩ : Row) ∈ rows := by
  unfold validRows
  rw [List.mem_filterMap]
  constructor
  · rintro ⟨r, hr, h⟩
    rcases r with ⟨c1, c2, c3⟩
    cases c1 <;> cases c2 <;> cases c3 <;> simp at h
    obtain ⟨rfl, rfl, rfl⟩ := h
    exact hr
  · intro h
    exact ⟨_, h, rfl⟩

theorem seed_layer_eq_build (k : Nat) (R : List Row) :
    seed_layer k R = build k [] (seed_stream R) := by
  unfold seed_layer
  generalize ([] : HTAB) = L
  induction R generalizing L with
  | nil => rfl
  | cons r R ih =>
    rw [List.foldl_cons, ih]
    unfold seed_stream
    rw [validRows_cons]
    rcases r with ⟨c1, c2, c3⟩
    cases c1 <;> cases c2 <;> cases c3 <;> rfl

theorem rekey_eq_build (scan : HTAB → HTAB) (k : Nat) (field : PathState → Int) (L : HTAB) :
    rekey scan k field L = build k [] (rekey_stream scan field L) := by
  unfold rekey build rekey_stream
  rw [List.foldl_map]

theorem extend_eq_build (k : Nat) (setField : PathState → Int → PathState) (J : HTAB)
    (rows : List Row) :
    extend k setField J rows = build k [] (extend_stream setField J rows) := by
  unfold extend
  generalize ([] : HTAB) = L
  induction rows generalizing L with
  | nil => rfl
  | cons r rows ih =>
    rw [List.foldl_cons, ih]
    unfold extend_stream
    rw [validRows_cons]
    rcases r with ⟨c1, c2, c3⟩
    cases c1 <;> cases c2 <;> cases c3 <;> try rfl
    rename_i key v w
    simp only [List.flatMap_cons, build_append]
    congr 1
    unfold build pathsAt entryAt
    rw [List.foldl_map]
    cases hash_find J key with
    | none => rfl
    | some found => rfl

/-! ## Soundness and completeness of the layers -/

theorem mem_sel {st : List (Int × PathState)} {x : Int} {p : PathState} (h : p ∈ sel st x) :
    (x, p) ∈ st := by
  unfold sel at h
  obtain ⟨kp, hkp, rfl⟩ := List.mem_map.mp h
  obtain ⟨h1, h2⟩ := List.mem_filter.mp hkp
  have : kp.1 = x := by simpa using h2
  rw [← this]
  exact h1

theorem sound_of_build (k : Nat) (hk : 0 < k) (st : List (Int × PathState))
    (kf : PathState → Int) (P : List PathState)
    (hkey : ∀ kp ∈ st, kf kp.2 = kp.1) (hsub : (st.map Prod.snd).Subperm P) :
    Sound k kf P (build k [] st) := by
  obtain ⟨b1, _, b3, b4⟩ := build_spec k hk st
  refine ⟨b1, fun x p hp => ?_, b4.trans hsub⟩
  exact hkey (x, p) (mem_sel ((b3 x).subset hp))

theorem complete_of_build (k : Nat) (hk : 0 < k) (st : List (Int × PathState))
    (kf : PathState → Int) (P : List PathState)
    (h : ∀ x o, min k ((sel st x).countP (up o)) =
      min k ((P.filter (fun p => decide (kf p = x))).countP (up o))) :
    Complete k kf P (build k [] st) := by
  obtain ⟨_, b2, _, _⟩ := build_spec k hk st
  intro x
  rw [topKOf_iff_up]
  intro o
  rw [← h x o]
  exact (topKOf_iff_up _ _ _).mp (b2 x) o

theorem pathsAt_subset_contents (L : HTAB) (x : Int) : pathsAt L x ⊆ contents L := by
  intro p hp
  rcases entryAt_mem_or_fresh L x with h1 | ⟨h1, _⟩
  · exact List.mem_flatMap.mpr ⟨_, h1, hp⟩
  · rw [pathsAt, h1] at hp
    simp [entry_paths_fresh] at hp

theorem Sound.mem {k : Nat} {kf : PathState → Int} {P : List PathState} {L : HTAB}
    (h : Sound k kf P L) {x : Int} {p : PathState} (hp : p ∈ pathsAt L x) :
    p ∈ P ∧ kf p = x :=
  ⟨h.2.2.subset (pathsAt_subset_contents L x hp), h.2.1 x p hp⟩

theorem Complete.key_mem {k : Nat} (hk : 0 < k) {kf : PathState → Int} {P : List PathState}
    {L : HTAB} (h : Complete k kf P L) {p : PathState} (hp : p ∈ P) : kf p ∈ keys L := by
  by_contra hcon
  have h1 := (h (kf p)).1
  rw [pathsAt_of_not_mem hcon] at h1
  have h2 : 0 < (P.filter (fun q => decide (kf q = kf p))).length :=
    List.length_pos_of_mem (List.mem_filter.mpr ⟨hp, by simp⟩)
  simp only [List.length_nil] at h1
  omega

theorem sel_rekey_stream (scan : HTAB → HTAB) (jf : PathState → Int) (L : HTAB) (x : Int) :
    sel (rekey_stream scan jf L) x =
      (scan_paths scan L).filter (fun p => decide (jf p = x)) := by
  unfold sel rekey_stream
  rw [List.filter_map, List.map_map]
  simp [Function.comp_def]

theorem scan_paths_perm (scan : HTAB → HTAB) (hs : IsScan scan) (L : HTAB) :
    (scan_paths scan L).Perm (contents L) :=
  List.Perm.flatMap_right _ (hs L)

/-- Regrouping keeps a layer sound. -/
theorem sound_rekey (scan : HTAB → HTAB) (hs : IsScan scan) (k : Nat) (hk : 0 < k)
    (kf jf : PathState → Int) (P : List PathState) (L : HTAB) (h : Sound k kf P L) :
    Sound k jf P (rekey scan k jf L) := by
  rw [rekey_eq_build]
  apply sound_of_build k hk
  · intro kp hkp
    unfold rekey_stream at hkp
    obtain ⟨p, _, rfl⟩ := List.mem_map.mp hkp
    rfl
  · have : (rekey_stream scan jf L).map Prod.snd = scan_paths scan L := by
      unfold rekey_stream
      rw [List.map_map]
      simp [Function.comp_def]
    rw [this]
    exact (scan_paths_perm scan hs L).subperm.trans h.2.2

/-- The counting heart of the regrouping step: capping the per-key counts
before regrouping does not change the capped count of any new key, as long as
the old key determines the new one. -/
theorem rekey_count (k : Nat) (hk : 0 < k) (kf jf : PathState → Int) (P : List PathState)
    (L : HTAB) (hs : Sound k kf P L) (hc : Complete k kf P L) (hfd : Determines kf jf P)
    (x : Int) (o : Option Int) :
    min k (((contents L).filter (fun p => decide (jf p = x))).countP (up o)) =
      min k ((P.filter (fun p => decide (jf p = x))).countP (up o)) := by
  rw [countP_filter_and, countP_filter_and, contents_eq_flatMap_keys hs.1.2, countP_flatMap]
  have hper : ∀ y ∈ keys L,
      (pathsAt L y).countP (fun p => decide (jf p = x) && up o p) =
      min k (P.countP (fun p => decide (kf p = y) &&
        (decide (jf p = x) && up o p))) := by
    intro y _
    have htop := (topKOf_iff_up _ _ _).mp (hc y) o
    rw [countP_filter_and] at htop
    by_cases hex : ∃ p0 ∈ P, kf p0 = y ∧ jf p0 = x
    · obtain ⟨p0, hp0, hk0, hj0⟩ := hex
      have hall : ∀ p ∈ P, kf p = y → jf p = x := fun p hp hkp =>
        (hfd p hp p0 hp0 (hkp.trans hk0.symm)).trans hj0
      have e1 : (pathsAt L y).countP (fun p => decide (jf p = x) && up o p) =
          (pathsAt L y).countP (up o) := by
        apply List.countP_congr
        intro p hp
        have := hs.mem hp
        simp [hall p this.1 this.2]
      have e2 : P.countP (fun p => decide (kf p = y) && (decide (jf p = x) && up o p)) =
          P.countP (fun p => decide (kf p = y) && up o p) := by
        apply List.countP_congr
        intro p hp
        by_cases hkp : kf p = y
        · simp [hkp, hall p hp hkp]
        · simp [hkp]
      rw [e1, e2]
      exact htop
    · have hnone : ∀ p ∈ P, kf p = y → ¬ jf p = x := fun p hp hkp hjp =>
        hex ⟨p, hp, hkp, hjp⟩
      have e1 : (pathsAt L y).countP (fun p => decide (jf p = x) && up o p) = 0 := by
        rw [List.countP_eq_zero]
        intro p hp
        have := hs.mem hp
        simp [hnone p this.1 this.2]
      have e2 : P.countP (fun p => decide (kf p = y) && (decide (jf p = x) && up o p)) = 0 := by
        rw [List.countP_eq_zero]
        intro p hp
        by_cases hkp : kf p = y
        · simp [hkp, hnone p hp hkp]
        · simp [hkp]
      rw [e1, e2]
      simp
  rw [List.map_congr_left hper, min_sum_min,
    sum_countP_keys (keys L) hs.1.2 kf _ P (fun p hp _ => hc.key_mem hk hp)]

/-- Regrouping keeps a layer complete when the old key determines the new
one. -/
theorem complete_rekey (scan : HTAB → HTAB) (hs : IsScan scan) (k : Nat) (hk : 0 < k)
    (kf jf : PathState → Int) (P : List PathState) (L : HTAB) (h : Sound k kf P L)
    (hc : Complete k kf P L) (hfd : Determines kf jf P) :
    Complete k jf P (rekey scan k jf L) := by
  rw [rekey_eq_build]
  apply complete_of_build k hk
  intro x o
  rw [sel_rekey_stream, ← rekey_count k hk kf jf P L h hc hfd x o]
  congr 1
  exact ((scan_paths_perm scan hs L).filter _).countP_eq _

theorem wrapInt64_eq (x : Int) (h1 : -2 ^ 63 ≤ x) (h2 : x < 2 ^ 63) : wrapInt64 x = x := by
  unfold wrapInt64
  omega

theorem ext_path_eq_exact (sf : PathState → Int → PathState) (jf : PathState → Int)
    (hg : GoodSetter sf jf) (b : Int) (hb : b ≤ 3 * 2 ^ 31) (p : PathState)
    (hp : -b ≤ p.sumW ∧ p.sumW ≤ b) (v w : Int) (hw : -2 ^ 31 ≤ w ∧ w < 2 ^ 31) :
    ext_path sf p v w = ext_exact sf p v w := by
  unfold ext_path ext_exact
  rw [wrapInt64_eq]
  · rw [hg.2]; omega
  · rw [hg.2]; omega

theorem jf_ext_path (sf : PathState → Int → PathState) (jf : PathState → Int)
    (hg : GoodSetter sf jf) (p : PathState) (v w : Int) : jf (ext_path sf p v w) = jf p :=
  hg.1 p v _

theorem jf_ext_exact (sf : PathState → Int → PathState) (jf : PathState → Int)
    (hg : GoodSetter sf jf) (p : PathState) (v w : Int) : jf (ext_exact sf p v w) = jf p :=
  hg.1 p v _

theorem up_ext_exact (sf : PathState → Int → PathState) (jf : PathState → Int)
    (hg : GoodSetter sf jf) (o : Option Int) (p : PathState) (v w : Int) :
    up o (ext_exact sf p v w) = up (shiftDown o w) p := by
  cases o with
  | none => rfl
  | some t =>
    simp only [up, shiftDown, Option.map_some', ext_exact, hg.2]
    by_cases h : t ≤ p.sumW + w
    · have : t - w ≤ p.sumW := by omega
      simp [h, this]
    · have : ¬ t - w ≤ p.sumW := by omega
      simp [h, this]

theorem subperm_map {α β : Type} (f : α → β) {l1 l2 : List α} (h : l1.Subperm l2) :
    (l1.map f).Subperm (l2.map f) := by
  obtain ⟨l, hp, hs⟩ := h
  exact ⟨l.map f, hp.map f, hs.map f⟩

theorem subperm_append {α : Type} {l1 l2 r1 r2 : List α} (h1 : l1.Subperm l2)
    (h2 : r1.Subperm r2) : (l1 ++ r1).Subperm (l2 ++ r2) :=
  ((List.subperm_append_right r1).mpr h1).trans ((List.subperm_append_left l2).mpr h2)

theorem subperm_flatMap {α β : Type} (l : List α) (f g : α → List β)
    (h : ∀ a ∈ l, (f a).Subperm (g a)) : (l.flatMap f).Subperm (l.flatMap g) := by
  induction l with
  | nil => exact List.Subperm.refl _
  | cons a l ih =>
    simp only [List.flatMap_cons]
    exact subperm_append (h a (List.mem_cons_self _ _))
      (ih (fun x hx => h x (List.mem_cons_of_mem _ hx)))

theorem flatMap_ite_singleton {α β : Type} (c : α → Bool) (g : α → β) (l : List α) :
    l.flatMap (fun a => if c a = true then [g a] else []) = (l.filter c).map g := by
  induction l with
  | nil => rfl
  | cons a l ih =>
    rw [List.flatMap_cons, ih, List.filter_cons]
    by_cases h : c a = true <;> simp [h]

/-- Enumerating the matching pairs row by row or path by path gives the same
multiset. -/
theorem join_swap_perm (jf : PathState → Int) (g : PathState → Int × Int × Int → PathState)
    (P : List PathState) (rowsv : List (Int × Int × Int)) :
    (rowsv.flatMap (fun e => (P.filter (fun p => decide (jf p = e.1))).map (fun p => g p e))).Perm
      (P.flatMap (fun p => (rowsv.filter (fun e => decide (e.1 = jf p))).map (fun e => g p e))) := by
  induction rowsv with
  | nil => simp
  | cons e rs ih =>
    rw [List.flatMap_cons]
    have h1 : (P.flatMap (fun p => ((e :: rs).filter (fun e => decide (e.1 = jf p))).map
        (fun e => g p e))) =
        P.flatMap (fun p => (if decide (jf p = e.1) = true then [g p e] else []) ++
          (rs.filter (fun e => decide (e.1 = jf p))).map (fun e => g p e)) := by
      apply List.flatMap_congr
      intro p _
      rw [List.filter_cons]
      by_cases h : e.1 = jf p
      · simp [h]
      · have : ¬ jf p = e.1 := fun h' => h h'.symm
        simp [h, this]
    rw [h1]
    refine List.Perm.trans ?_ (List.flatMap_append_perm P _ _)
    rw [flatMap_ite_singleton (fun p => decide (jf p = e.1)) (fun p => g p e) P]
    exact List.Perm.append_left _ ih

theorem pathsAt_subperm_filter {k : Nat} {jf : PathState → Int} {P : List PathState}
    {J : HTAB} (hs : Sound k jf P J) (x : Int) :
    (pathsAt J x).Subperm (P.filter (fun p => decide (jf p = x))) := by
  have h1 : (pathsAt J x).Subperm (contents J) := by
    rcases entryAt_mem_or_fresh J x with h | ⟨h, _⟩
    · unfold contents
      rw [List.flatMap]
      exact (List.sublist_flatten_of_mem (List.mem_map_of_mem entry_paths h)).subperm
    · rw [pathsAt, h, entry_paths_fresh]
      exact (List.nil_sublist _).subperm
  have h2 := (h1.trans hs.2.2).filter (fun p => decide (jf p = x))
  have h3 : (pathsAt J x).filter (fun p => decide (jf p = x)) = pathsAt J x := by
    rw [List.filter_eq_self]
    intro p hp
    simp [hs.2.1 x p hp]
  rwa [h3] at h2

theorem extend_all_perm (sf : PathState → Int → PathState) (jf : PathState → Int)
    (P : List PathState) (rows : List Row) :
    ((validRows rows).flatMap (fun e => (P.filter (fun p => decide (jf p = e.1))).map
      (fun p => ext_exact sf p e.2.1 e.2.2))).Perm (extend_all sf jf P rows) :=
  join_swap_perm jf (fun p e => ext_exact sf p e.2.1 e.2.2) P (validRows rows)

/-- Extension keeps a layer sound (for 32-bit weights the 64-bit sum is
exact). -/
theorem sound_extend (k : Nat) (hk : 0 < k) (sf : PathState → Int → PathState)
    (jf : PathState → Int) (hg : GoodSetter sf jf) (P : List PathState) (J : HTAB)
    (rows : List Row) (b : Int) (hb : b ≤ 3 * 2 ^ 31) (hP : Bounded b P)
    (hw : WeightsInt32 rows) (hs : Sound k jf P J) :
    Sound k jf (extend_all sf jf P rows) (extend k sf J rows) := by
  rw [extend_eq_build]
  apply sound_of_build k hk
  · intro kp hkp
    unfold extend_stream at hkp
    obtain ⟨e, _, hkp⟩ := List.mem_flatMap.mp hkp
    obtain ⟨p, hp, rfl⟩ := List.mem_map.mp hkp
    show jf (ext_path sf p e.2.1 e.2.2) = e.1
    rw [jf_ext_path sf jf hg]
    exact (hs.mem hp).2
  · have e1 : (extend_stream sf J rows).map Prod.snd =
        (validRows rows).flatMap (fun e => (pathsAt J e.1).map
          (fun p => ext_exact sf p e.2.1 e.2.2)) := by
      unfold extend_stream
      rw [List.map_flatMap]
      apply List.flatMap_congr
      intro e he
      rw [List.map_map]
      apply List.map_congr_left
      intro p hp
      exact ext_path_eq_exact sf jf hg b hb p (hP p (hs.mem hp).1) _ _ (hw e he)
    rw [e1]
    refine List.Subperm.trans ?_ (extend_all_perm sf jf P rows).subperm
    apply subperm_flatMap
    intro e _
    exact subperm_map _ (pathsAt_subperm_filter hs e.1)

theorem sel_map_const_key (y x : Int) (l : List PathState) (g : PathState → PathState) :
    sel (l.map (fun p => (y, g p))) x = if y = x then l.map g else [] := by
  unfold sel
  by_cases h : y = x
  · rw [if_pos h, List.filter_eq_self.mpr, List.map_map]
    · rfl
    · intro kp hkp
      obtain ⟨p, _, rfl⟩ := List.mem_map.mp hkp
      simp [h]
  · rw [if_neg h, List.filter_eq_nil_iff.mpr]
    · rfl
    · intro kp hkp
      obtain ⟨p, _, rfl⟩ := List.mem_map.mp hkp
      simp [h]

theorem sel_extend_stream (sf : PathState → Int → PathState) (J : HTAB) (rows : List Row)
    (x : Int) :
    sel (extend_stream sf J rows) x =
      ((validRows rows).filter (fun e => decide (e.1 = x))).flatMap
        (fun e => (pathsAt J x).map (fun p => ext_path sf p e.2.1 e.2.2)) := by
  unfold extend_stream
  induction validRows rows with
  | nil => rfl
  | cons e rs ih =>
    rw [List.flatMap_cons, sel_append, ih, sel_map_const_key, List.filter_cons]
    by_cases h : e.1 = x
    · simp [h]
    · simp [h]

theorem sum_map_ite_filter {α : Type} (c : α → Bool) (f : α → Nat) (l : List α) :
    (l.map (fun e => if c e = true then f e else 0)).sum = ((l.filter c).map f).sum := by
  induction l with
  | nil => rfl
  | cons a l ih =>
    rw [List.map_cons, List.sum_cons, ih, List.filter_cons]
    by_cases h : c a = true <;> simp [h]

/-- Threshold counts of the unpruned next stage under one key, row by row. -/
theorem countP_extend_all (sf : PathState → Int → PathState) (jf : PathState → Int)
    (hg : GoodSetter sf jf) (P : List PathState) (rows : List Row) (x : Int) (o : Option Int) :
    ((extend_all sf jf P rows).filter (fun p => decide (jf p = x))).countP (up o) =
      (((validRows rows).filter (fun e => decide (e.1 = x))).map
        (fun e => (P.filter (fun p => decide (jf p = x))).countP (up (shiftDown o e.2.2)))).sum := by
  rw [← ((extend_all_perm sf jf P rows).filter _).countP_eq, countP_filter_and, countP_flatMap,
    ← sum_map_ite_filter]
  congr 1
  apply List.map_congr_left
  intro e _
  rw [List.countP_map]
  by_cases h : e.1 = x
  · subst h
    simp only [decide_True, if_true]
    apply List.countP_congr
    intro p hp
    have hjp : jf p = e.1 := by simpa using (List.mem_filter.mp hp).2
    simp only [Function.comp_apply, jf_ext_exact sf jf hg, hjp, decide_True, Bool.true_and,
      up_ext_exact sf jf hg]
  · have hd : decide (e.1 = x) = false := by simpa using h
    simp only [hd, Bool.false_eq_true, if_false]
    rw [List.countP_eq_zero]
    intro p hp
    have hjp : jf p = e.1 := by simpa using (List.mem_filter.mp hp).2
    simp [jf_ext_exact sf jf hg, hjp, h]

/-- Extension keeps a layer complete: every row adds the same weight to all
the paths found under its key, so the `k` best extensions come from the `k`
best paths. -/
theorem complete_extend (k : Nat) (hk : 0 < k) (sf : PathState → Int → PathState)
    (jf : PathState → Int) (hg : GoodSetter sf jf) (P : List PathState) (J : HTAB)
    (rows : List Row) (b : Int) (hb : b ≤ 3 * 2 ^ 31) (hP : Bounded b P)
    (hw : WeightsInt32 rows) (hs : Sound k jf P J) (hc : Complete k jf P J) :
    Complete k jf (extend_all sf jf P rows) (extend k sf J rows) := by
  rw [extend_eq_build]
  apply complete_of_build k hk
  intro x o
  rw [sel_extend_stream, countP_flatMap, countP_extend_all sf jf hg, ← min_sum_min k
    (fun e : Int × Int × Int =>
      (P.filter (fun p => decide (jf p = x))).countP (up (shiftDown o e.2.2)))]
  congr 2
  apply List.map_congr_left
  intro e he
  have he' : e ∈ validRows rows := (List.mem_filter.mp he).1
  rw [List.countP_map, ← (topKOf_iff_up _ _ _).mp (hc x) (shiftDown o e.2.2)]
  apply List.countP_congr
  intro p hp
  simp only [Function.comp_apply]
  rw [ext_path_eq_exact sf jf hg b hb p (hP p (hs.mem hp).1) _ _ (hw e he'),
    up_ext_exact sf jf hg]

/-! ## The pipeline against brute force -/

theorem all_U_eq_bruteForce (R S T U : List Row) : all_U R S T U = bruteForce R S T U := by
  unfold all_U all_T all_S all_R extend_all bruteForce
  simp only [List.flatMap_assoc, List.flatMap_map, List.map_flatMap, List.map_map]
  rfl

theorem goodSetter_C : GoodSetter setC (fun p => p.B) := ⟨fun _ _ _ => rfl, fun _ _ => rfl⟩

theorem goodSetter_D : GoodSetter setD (fun p => p.C) := ⟨fun _ _ _ => rfl, fun _ _ => rfl⟩

theorem goodSetter_E : GoodSetter setE (fun p => p.D) := ⟨fun _ _ _ => rfl, fun _ _ => rfl⟩

theorem mem_extend_all {sf : PathState → Int → PathState} {jf : PathState → Int}
    {P : List PathState} {rows : List Row} {q : PathState} (h : q ∈ extend_all sf jf P rows) :
    ∃ p ∈ P, ∃ e ∈ validRows rows, e.1 = jf p ∧ q = ext_exact sf p e.2.1 e.2.2 := by
  unfold extend_all at h
  obtain ⟨p, hp, hq⟩ := List.mem_flatMap.mp h
  obtain ⟨e, he, rfl⟩ := List.mem_map.mp hq
  obtain ⟨he1, he2⟩ := List.mem_filter.mp he
  exact ⟨p, hp, e, he1, by simpa using he2, rfl⟩

theorem bounded_all_R (R : List Row) (hw : WeightsInt32 R) : Bounded (2 ^ 31) (all_R R) := by
  intro p hp
  unfold all_R at hp
  obtain ⟨r, hr, rfl⟩ := List.mem_map.mp hp
  have := hw r hr
  simp only [seed_path]
  omega

theorem bounded_extend_all (sf : PathState → Int → PathState) (jf : PathState → Int)
    (hg : GoodSetter sf jf) (b : Int) (P : List PathState) (rows : List Row)
    (hP : Bounded b P) (hw : WeightsInt32 rows) :
    Bounded (b + 2 ^ 31) (extend_all sf jf P rows) := by
  intro q hq
  obtain ⟨p, hp, e, he, _, rfl⟩ := mem_extend_all hq
  have h1 := hP p hp
  have h2 := hw e he
  simp only [ext_exact, hg.2]
  omega

theorem determines_all_R (R : List Row) (h : KeyDetermines R) :
    Determines (fun p => p.A) (fun p => p.B) (all_R R) := by
  intro p hp q hq hpq
  unfold all_R at hp hq
  obtain ⟨r1, hr1, rfl⟩ := List.mem_map.mp hp
  obtain ⟨r2, hr2, rfl⟩ := List.mem_map.mp hq
  exact h r1 hr1 r2 hr2 hpq

theorem determines_extend_all (sf : PathState → Int → PathState) (jf nf : PathState → Int)
    (hg : GoodSetter sf jf) (hnf : ∀ p v s, nf { sf p v with sumW := s } = v)
    (P : List PathState) (rows : List Row) (h : KeyDetermines rows) :
    Determines jf nf (extend_all sf jf P rows) := by
  intro p hp q hq hpq
  obtain ⟨p0, _, e1, he1, hk1, rfl⟩ := mem_extend_all hp
  obtain ⟨q0, _, e2, he2, hk2, rfl⟩ := mem_extend_all hq
  rw [jf_ext_exact sf jf hg, jf_ext_exact sf jf hg] at hpq
  unfold ext_exact
  rw [hnf, hnf]
  exact h e1 he1 e2 he2 (by rw [hk1, hk2, hpq])

theorem sel_seed_stream (R : List Row) (x : Int) :
    sel (seed_stream R) x = (all_R R).filter (fun p => decide (p.A = x)) := by
  unfold sel seed_stream all_R
  rw [List.filter_map, List.filter_map, List.map_map]
  rfl

/-- The seeding loop yields a sound and complete layer. -/
theorem seed_layer_spec (k : Nat) (hk : 0 < k) (R : List Row) :
    Sound k (fun p => p.A) (all_R R) (seed_layer k R) ∧
      Complete k (fun p => p.A) (all_R R) (seed_layer k R) := by
  rw [seed_layer_eq_build]
  constructor
  · apply sound_of_build k hk
    · intro kp hkp
      unfold seed_stream at hkp
      obtain ⟨r, _, rfl⟩ := List.mem_map.mp hkp
      rfl
    · have : (seed_stream R).map Prod.snd = all_R R := by
        unfold seed_stream all_R
        rw [List.map_map]
        apply List.map_congr_left
        intro r _
        rfl
      exact this ▸ List.Subperm.refl _
  · apply complete_of_build k hk
    intro x o
    rw [sel_seed_stream]

/-- The last content layer is sound against the list of all full paths,
whatever the relations hold. -/
theorem layer_U_sound (scan : HTAB → HTAB) (hs : IsScan scan) (k : Nat) (hk : 0 < k)
    (R S T U : List Row) (hR : WeightsInt32 R) (hS : WeightsInt32 S) (hT : WeightsInt32 T)
    (hU : WeightsInt32 U) :
    Sound k (fun p => p.D) (all_U R S T U)
      (extend k setE (rekey scan k (fun p => p.D)
        (extend k setD (rekey scan k (fun p => p.C)
          (extend k setC (rekey scan k (fun p => p.B) (seed_layer k R)) S)) T)) U) := by
  have b1 := bounded_all_R R hR
  have b2 := bounded_extend_all setC (fun p => p.B) goodSetter_C _ (all_R R) S b1 hS
  have b3 := bounded_extend_all setD (fun p => p.C) goodSetter_D _ (all_S R S) T b2 hT
  have s1 := (seed_layer_spec k hk R).1
  have s2 := sound_rekey scan hs k hk _ (fun p => p.B) _ _ s1
  have s3 := sound_extend k hk setC _ goodSetter_C _ _ S _ (by norm_num) b1 hS s2
  have s4 := sound_rekey scan hs k hk _ (fun p => p.C) _ _ s3
  have s5 := sound_extend k hk setD _ goodSetter_D _ _ T _ (by norm_num) b2 hT s4
  have s6 := sound_rekey scan hs k hk _ (fun p => p.D) _ _ s5
  exact sound_extend k hk setE _ goodSetter_E _ _ U _ (by norm_num) b3 hU s6

/-- The last content layer is complete against the list of all full paths
when A determines B in R, B determines C in S and C determines D in T. -/
theorem layer_U_complete (scan : HTAB → HTAB) (hs : IsScan scan) (k : Nat) (hk : 0 < k)
    (R S T U : List Row) (hR : WeightsInt32 R) (hS : WeightsInt32 S) (hT : WeightsInt32 T)
    (hU : WeightsInt32 U) (fR : KeyDetermines R) (fS : KeyDetermines S) (fT : KeyDetermines T) :
    Complete k (fun p => p.D) (all_U R S T U)
      (extend k setE (rekey scan k (fun p => p.D)
        (extend k setD (rekey scan k (fun p => p.C)
          (extend k setC (rekey scan k (fun p => p.B) (seed_layer k R)) S)) T)) U) := by
  have b1 := bounded_all_R R hR
  have b2 := bounded_extend_all setC (fun p => p.B) goodSetter_C _ (all_R R) S b1 hS
  have b3 := bounded_extend_all setD (fun p => p.C) goodSetter_D _ (all_S R S) T b2 hT
  obtain ⟨s1, c1⟩ := seed_layer_spec k hk R
  have s2 := sound_rekey scan hs k hk _ (fun p => p.B) _ _ s1
  have c2 := complete_rekey scan hs k hk _ (fun p => p.B) _ _ s1 c1 (determines_all_R R fR)
  have s3 := sound_extend k hk setC _ goodSetter_C _ _ S _ (by norm_num) b1 hS s2
  have c3 := complete_extend k hk setC _ goodSetter_C _ _ S _ (by norm_num) b1 hS s2 c2
  have s4 := sound_rekey scan hs k hk _ (fun p => p.C) _ _ s3
  have c4 := complete_rekey scan hs k hk _ (fun p => p.C) _ _ s3 c3
    (determines_extend_all setC _ (fun p => p.C) goodSetter_C (fun _ _ _ => rfl) _ S fS)
  have s5 := sound_extend k hk setD _ goodSetter_D _ _ T _ (by norm_num) b2 hT s4
  have c5 := complete_extend k hk setD _ goodSetter_D _ _ T _ (by norm_num) b2 hT s4 c4
  have s6 := sound_rekey scan hs k hk _ (fun p => p.D) _ _ s5
  have c6 := complete_rekey scan hs k hk _ (fun p => p.D) _ _ s5 c5
    (determines_extend_all setD _ (fun p => p.D) goodSetter_D (fun _ _ _ => rfl) _ T fT)
  exact complete_extend k hk setE _ goodSetter_E _ _ U _ (by norm_num) b3 hU s6 c6

/-- Capped threshold counts of the whole contents of a sound and complete
layer. -/
theorem contents_count (k : Nat) (hk : 0 < k) (kf : PathState → Int) (P : List PathState)
    (L : HTAB) (hs : Sound k kf P L) (hc : Complete k kf P L) (o : Option Int) :
    min k ((contents L).countP (up o)) = min k (P.countP (up o)) := by
  have h := rekey_count k hk kf (fun _ => 0) P L hs hc (fun _ _ _ _ _ => rfl) 0 o
  simpa using h

theorem weights_stableSortDesc (xs : List PathState) :
    weights (stableSortDesc xs) = sortDesc (weights xs) := by
  unfold weights stableSortDesc sortDesc
  exact List.map_insertionSort _ _ _ xs (fun _ _ _ _ => Iff.rfl)

theorem sortDesc_take_eq_of_count (k : Nat) (W1 W2 : List Int)
    (h : ∀ v, min k (cgeI v W1) = min k (cgeI v W2)) :
    (sortDesc W1).take k = (sortDesc W2).take k := by
  have hanti : IsAntisymm Int (fun a b => b ≤ a) := ⟨fun a b h1 h2 => le_antisymm h2 h1⟩
  apply List.eq_of_perm_of_sorted (r := fun a b : Int => b ≤ a)
  · apply perm_of_cgeI_eq
    intro v
    rw [cgeI_take_sortDesc, cgeI_take_sortDesc]
    exact h v
  · exact (sortDesc_sorted W1).sublist (List.take_sublist _ _)
  · exact (sortDesc_sorted W2).sublist (List.take_sublist _ _)

/-- Whatever the relations hold, the records returned are distinct full
paths of the join. -/
theorem dp_core_subperm (scan : HTAB → HTAB) (hs : IsScan scan) (k : Nat) (hk : 0 < k)
    (R S T U : List Row) (hR : WeightsInt32 R) (hS : WeightsInt32 S) (hT : WeightsInt32 T)
    (hU : WeightsInt32 U) :
    (dp_core scan k R S T U).Subperm (bruteForce R S T U) := by
  rw [dp_core_eq, global_merge_eq k hk, ← all_U_eq_bruteForce]
  refine (List.take_sublist _ _).subperm.trans ?_
  refine (stableSortDesc_perm _).subperm.trans ?_
  refine (scan_paths_perm scan hs _).subperm.trans ?_
  exact (layer_U_sound scan hs k hk R S T U hR hS hT hU).2.2

/-- When A determines B in R, B determines C in S and C determines D in T, the
weights returned are the `k` greatest weights of brute force. -/
theorem dp_core_weights (scan : HTAB → HTAB) (hs : IsScan scan) (k : Nat) (hk : 0 < k)
    (R S T U : List Row) (hR : WeightsInt32 R) (hS : WeightsInt32 S) (hT : WeightsInt32 T)
    (hU : WeightsInt32 U) (fR : KeyDetermines R) (fS : KeyDetermines S) (fT : KeyDetermines T) :
    weights (dp_core scan k R S T U) = (sortDesc (weights (bruteForce R S T U))).take k := by
  rw [dp_core_eq, global_merge_eq k hk, ← all_U_eq_bruteForce]
  have e1 : ∀ xs : List PathState, weights (xs.take k) = (weights xs).take k := fun xs => by
    unfold weights; rw [List.map_take]
  rw [e1, weights_stableSortDesc]
  apply sortDesc_take_eq_of_count
  intro v
  rw [← cge_eq_cgeI, ← cge_eq_cgeI, cge_perm (scan_paths_perm scan hs _) v]
  exact contents_count k hk _ _ _ (layer_U_sound scan hs k hk R S T U hR hS hT hU)
    (layer_U_complete scan hs k hk R S T U hR hS hT hU fR fS fT) (some v)

theorem mem_bruteForce (R S T U : List Row) (p : PathState) (h : p ∈ bruteForce R S T U) :
    ∃ w1 w2 w3 w4 : Int,
      (⟨some p.A, some p.B, some w1⟩ : Row) ∈ R ∧ (⟨some p.B, some p.C, some w2⟩ : Row) ∈ S ∧
      (⟨some p.C, some p.D, some w3⟩ : Row) ∈ T ∧ (⟨some p.D, some p.E, some w4⟩ : Row) ∈ U ∧
      p.sumW = w1 + w2 + w3 + w4 := by
  unfold bruteForce at h
  obtain ⟨r, hr, h⟩ := List.mem_flatMap.mp h
  obtain ⟨s, hs, h⟩ := List.mem_flatMap.mp h
  obtain ⟨t, ht, h⟩ := List.mem_flatMap.mp h
  obtain ⟨u, hu, rfl⟩ := List.mem_map.mp h
  obtain ⟨hs1, hs2⟩ := List.mem_filter.mp hs
  obtain ⟨ht1, ht2⟩ := List.mem_filter.mp ht
  obtain ⟨hu1, hu2⟩ := List.mem_filter.mp hu
  have es : s.1 = r.2.1 := by simpa using hs2
  have et : t.1 = s.2.1 := by simpa using ht2
  have eu : u.1 = t.2.1 := by simpa using hu2
  refine ⟨r.2.2, s.2.2, t.2.2, u.2.2, ?_, ?_, ?_, ?_, rfl⟩
  · exact (mem_validRows R _ _ _).mp hr
  · rw [← es]; exact (mem_validRows S _ _ _).mp hs1
  · rw [← et]; exact (mem_validRows T _ _ _).mp ht1
  · rw [← eu]; exact (mem_validRows U _ _ _).mp hu1

theorem le_head_sortDesc (W : List Int) (a : Int) (rest : List Int)
    (h : sortDesc W = a :: rest) : ∀ w ∈ W, w ≤ a := by
  intro w hw
  have hs := sortDesc_sorted W
  rw [h] at hs
  have hm : w ∈ a :: rest := by
    rw [← h]; exact (sortDesc_perm W).symm.subset hw
  rcases List.mem_cons.mp hm with e | e
  · rw [e]
  · exact (List.sorted_cons.mp hs).1 w e

/-! ## Rows with nulls, empty relations -/

theorem validRows_drop_nulls (rows : List Row) : validRows (drop_nulls rows) = validRows rows := by
  induction rows with
  | nil => rfl
  | cons r rows ih =>
    have hcons : drop_nulls (r :: rows) =
        if (!has_null r) = true then r :: drop_nulls rows else drop_nulls rows := by
      unfold drop_nulls; rw [List.filter_cons]
    rw [hcons]
    rcases r with ⟨c1, c2, c3⟩
    cases c1 <;> cases c2 <;> cases c3 <;>
      simp [has_null, validRows_cons, ih]

theorem seed_layer_drop_nulls (k : Nat) (R : List Row) :
    seed_layer k (drop_nulls R) = seed_layer k R := by
  rw [seed_layer_eq_build, seed_layer_eq_build, seed_stream, seed_stream, validRows_drop_nulls]

theorem extend_drop_nulls (k : Nat) (sf : PathState → Int → PathState) (J : HTAB)
    (rows : List Row) : extend k sf J (drop_nulls rows) = extend k sf J rows := by
  rw [extend_eq_build, extend_eq_build, extend_stream, extend_stream, validRows_drop_nulls]

theorem dp_core_drop_nulls (scan : HTAB → HTAB) (k : Nat) (R S T U : List Row) :
    dp_core scan k (drop_nulls R) (drop_nulls S) (drop_nulls T) (drop_nulls U) =
      dp_core scan k R S T U := by
  rw [dp_core_eq, dp_core_eq, seed_layer_drop_nulls, extend_drop_nulls, extend_drop_nulls,
    extend_drop_nulls]

theorem build_nil (k : Nat) (L : HTAB) : build k L [] = L := rfl

theorem rekey_nil (scan : HTAB → HTAB) (hs : IsScan scan) (k : Nat) (f : PathState → Int) :
    rekey scan k f [] = [] := by
  rw [rekey, scan_paths_nil scan hs]; rfl

theorem extend_nil_join (k : Nat) (sf : PathState → Int → PathState) (rows : List Row) :
    extend k sf [] rows = [] := by
  rw [extend_eq_build]
  have : extend_stream sf [] rows = [] := by
    unfold extend_stream
    induction validRows rows with
    | nil => rfl
    | cons e rs ih => rw [List.flatMap_cons, ih, pathsAt_nil]; rfl
  rw [this]; rfl

theorem extend_nil_rows (k : Nat) (sf : PathState → Int → PathState) (J : HTAB) :
    extend k sf J [] = [] := rfl

theorem seed_layer_nil (k : Nat) : seed_layer k [] = [] := rfl

theorem global_merge_nil (k : Nat) : global_merge k [] = [] := by
  simp [global_merge, global_run]

/-- The pipeline on relations of which one has no rows. -/
theorem dp_core_of_empty (scan : HTAB → HTAB) (hs : IsScan scan) (k : Nat) (R S T U : List Row)
    (h : R = [] ∨ S = [] ∨ T = [] ∨ U = []) : dp_core scan k R S T U = [] := by
  rw [dp_core_eq]
  rcases h with h | h | h | h
  · rw [h, seed_layer_nil, rekey_nil scan hs, extend_nil_join, rekey_nil scan hs,
      extend_nil_join, rekey_nil scan hs, extend_nil_join, scan_paths_nil scan hs,
      global_merge_nil]
  · rw [h, extend_nil_rows, rekey_nil scan hs, extend_nil_join, rekey_nil scan hs,
      extend_nil_join, scan_paths_nil scan hs, global_merge_nil]
  · rw [h, extend_nil_rows, rekey_nil scan hs, extend_nil_join, scan_paths_nil scan hs,
      global_merge_nil]
  · rw [h, extend_nil_rows, scan_paths_nil scan hs, global_merge_nil]

/-! ## Runs with their effects -/

theorem dp_best_path_run_nonpos (scan : HTAB → HTAB) (R S T U : Option (List Row)) (k : Int)
    (hk : k ≤ 0) : dp_best_path_run scan R S T U k = ([], Except.error "K positive") := by
  unfold dp_best_path_run
  rw [if_pos hk]

theorem dp_best_path_run_ok (scan : HTAB → HTAB) (R S T U : List Row) (k : Int) (hk : 0 < k) :
    dp_best_path_run scan (some R) (some S) (some T) (some U) k =
      ([Event.create_layer Layer.LayerR, Event.SPI_execute Rel.R,
        Event.create_layer Layer.LayerRS, Event.hash_seq_init Layer.LayerR,
        Event.create_layer Layer.LayerS, Event.SPI_execute Rel.S,
        Event.hash_destroy Layer.LayerRS, Event.create_layer Layer.LayerST,
        Event.hash_seq_init Layer.LayerS,
        Event.hash_destroy Layer.LayerS, Event.create_layer Layer.LayerT,
        Event.SPI_execute Rel.T,
        Event.hash_destroy Layer.LayerST, Event.create_layer Layer.LayerTU,
        Event.hash_seq_init Layer.LayerT,
        Event.hash_destroy Layer.LayerT, Event.create_layer Layer.LayerU,
        Event.SPI_execute Rel.U,
        Event.hash_destroy Layer.LayerTU, Event.hash_seq_init Layer.LayerU] ++
        (dp_core scan k.toNat R S T U).map Event.tuplestore_putvalues ++
        [Event.hash_destroy Layer.LayerR, Event.hash_destroy Layer.LayerU],
       Except.ok (dp_core scan k.toNat R S T U)) := by
  unfold dp_best_path_run
  rw [if_neg (by omega)]
  rfl

theorem dp_best_path_run_snd (scan : HTAB → HTAB) (R S T U : List Row) (k : Int) :
    (dp_best_path_run scan (some R) (some S) (some T) (some U) k).2 =
      dp_best_path scan R S T U k := by
  by_cases hk : k ≤ 0
  · rw [dp_best_path_run_nonpos scan _ _ _ _ k hk]
    unfold dp_best_path
    rw [if_pos hk]
  · rw [dp_best_path_run_ok scan R S T U k (by omega), dp_best_path_ok scan R S T U k (by omega)]

theorem sortDesc_congr {l1 l2 : List Int} (h : l1.Perm l2) : sortDesc l1 = sortDesc l2 := by
  have hanti : IsAntisymm Int (fun a b => b ≤ a) := ⟨fun a b h1 h2 => le_antisymm h2 h1⟩
  exact List.eq_of_perm_of_sorted (r := fun a b : Int => b ≤ a)
    ((sortDesc_perm l1).trans (h.trans (sortDesc_perm l2).symm))
    (sortDesc_sorted l1) (sortDesc_sorted l2)

theorem take_min_length {α : Type} (k : Nat) (l : List α) (n : Nat) (h : l.length = n) :
    l.take (min k n) = l.take k := by
  rw [← h, List.take_eq_take]
  simp

theorem mem_extend_stream {sf : PathState → Int → PathState} {J : HTAB} {rows : List Row}
    {x : Int} {q : PathState} (h : (x, q) ∈ extend_stream sf J rows) :
    ∃ v w, (⟨some x, some v, some w⟩ : Row) ∈ rows ∧ ∃ p ∈ pathsAt J x, q = ext_path sf p v w := by
  unfold extend_stream at h
  obtain ⟨e, he, h⟩ := List.mem_flatMap.mp h
  obtain ⟨p, hp, heq⟩ := List.mem_map.mp h
  have h1 : e.1 = x := congrArg Prod.fst heq
  have h2 : ext_path sf p e.2.1 e.2.2 = q := congrArg Prod.snd heq
  subst h1
  exact ⟨e.2.1, e.2.2, (mem_validRows rows _ _ _).mp he, p, hp, h2.symm⟩

theorem validRows_append (r1 r2 : List Row) :
    validRows (r1 ++ r2) = validRows r1 ++ validRows r2 := by
  unfold validRows
  rw [List.filterMap_append]

theorem extend_skip_absent (k : Nat) (sf : PathState → Int → PathState) (J : HTAB)
    (rows1 rows2 : List Row) (key v w : Int) (h : hash_find J key = none) :
    extend k sf J (rows1 ++ ⟨some key, some v, some w⟩ :: rows2) =
      extend k sf J (rows1 ++ rows2) := by
  rw [extend_eq_build, extend_eq_build]
  congr 1
  unfold extend_stream
  rw [validRows_append, validRows_append, validRows_cons]
  have : pathsAt J key = [] := by
    unfold pathsAt entryAt
    rw [h]; rfl
  simp [List.flatMap_append, List.flatMap_cons, this]

/-! ## When the capacity is not binding -/

/-- A sound and complete layer over at most `k` paths holds all of them. -/
theorem contents_perm_of_complete (k : Nat) (hk : 0 < k) (kf : PathState → Int)
    (P : List PathState) (L : HTAB) (hs : Sound k kf P L) (hc : Complete k kf P L)
    (hlen : P.length ≤ k) : (contents L).Perm P := by
  apply hs.2.2.perm_of_length_le
  have h := contents_count k hk kf P L hs hc none
  rw [countP_up_none, countP_up_none] at h
  have := hs.2.2.length_le
  omega

/-- Regrouping a layer that holds all the paths of its stage gives a complete
layer. -/
theorem complete_rekey_of_perm (scan : HTAB → HTAB) (hs : IsScan scan) (k : Nat) (hk : 0 < k)
    (jf : PathState → Int) (P : List PathState) (L : HTAB) (hperm : (contents L).Perm P) :
    Complete k jf P (rekey scan k jf L) := by
  rw [rekey_eq_build]
  apply complete_of_build k hk
  intro x o
  rw [sel_rekey_stream]
  congr 1
  exact ((((scan_paths_perm scan hs L).trans hperm).filter _).countP_eq _)

/-- When no stage has more than `k` paths, the last content layer holds
exactly the full paths. -/
theorem layer_U_perm (scan : HTAB → HTAB) (hs : IsScan scan) (k : Nat) (hk : 0 < k)
    (R S T U : List Row) (hR : WeightsInt32 R) (hS : WeightsInt32 S) (hT : WeightsInt32 T)
    (hU : WeightsInt32 U) (n1 : (all_R R).length ≤ k) (n2 : (all_S R S).length ≤ k)
    (n3 : (all_T R S T).length ≤ k) (n4 : (all_U R S T U).length ≤ k) :
    (contents (extend k setE (rekey scan k (fun p => p.D)
        (extend k setD (rekey scan k (fun p => p.C)
          (extend k setC (rekey scan k (fun p => p.B) (seed_layer k R)) S)) T)) U)).Perm
      (all_U R S T U) := by
  have b1 := bounded_all_R R hR
  have b2 := bounded_extend_all setC (fun p => p.B) goodSetter_C _ (all_R R) S b1 hS
  have b3 := bounded_extend_all setD (fun p => p.C) goodSetter_D _ (all_S R S) T b2 hT
  obtain ⟨s1, c1⟩ := seed_layer_spec k hk R
  have p1 := contents_perm_of_complete k hk _ _ _ s1 c1 n1
  have s2 := sound_rekey scan hs k hk _ (fun p => p.B) _ _ s1
  have c2 := complete_rekey_of_perm scan hs k hk (fun p => p.B) _ _ p1
  have s3 := sound_extend k hk setC _ goodSetter_C _ _ S _ (by norm_num) b1 hS s2
  have c3 := complete_extend k hk setC _ goodSetter_C _ _ S _ (by norm_num) b1 hS s2 c2
  have p3 := contents_perm_of_complete k hk _ _ _ s3 c3 n2
  have s4 := sound_rekey scan hs k hk _ (fun p => p.C) _ _ s3
  have c4 := complete_rekey_of_perm scan hs k hk (fun p => p.C) _ _ p3
  have s5 := sound_extend k hk setD _ goodSetter_D _ _ T _ (by norm_num) b2 hT s4
  have c5 := complete_extend k hk setD _ goodSetter_D _ _ T _ (by norm_num) b2 hT s4 c4
  have p5 := contents_perm_of_complete k hk _ _ _ s5 c5 n3
  have s6 := sound_rekey scan hs k hk _ (fun p => p.D) _ _ s5
  have c6 := complete_rekey_of_perm scan hs k hk (fun p => p.D) _ _ p5
  have s7 := sound_extend k hk setE _ goodSetter_E _ _ U _ (by norm_num) b3 hU s6
  have c7 := complete_extend k hk setE _ goodSetter_E _ _ U _ (by norm_num) b3 hU s6 c6
  exact contents_perm_of_complete k hk _ _ _ s7 c7 n4

/-- When no stage has more than `k` paths, the result is a permutation of the
brute-force paths. -/
theorem dp_core_perm (scan : HTAB → HTAB) (hs : IsScan scan) (k : Nat) (hk : 0 < k)
    (R S T U : List Row) (hR : WeightsInt32 R) (hS : WeightsInt32 S) (hT : WeightsInt32 T)
    (hU : WeightsInt32 U) (n1 : (all_R R).length ≤ k) (n2 : (all_S R S).length ≤ k)
    (n3 : (all_T R S T).length ≤ k) (n4 : (all_U R S T U).length ≤ k) :
    (dp_core scan k R S T U).Perm (bruteForce R S T U) := by
  have hp := (scan_paths_perm scan hs _).trans
    (layer_U_perm scan hs k hk R S T U hR hS hT hU n1 n2 n3 n4)
  rw [dp_core_eq, global_merge_eq k hk, ← all_U_eq_bruteForce, List.take_of_length_le]
  · exact (stableSortDesc_perm _).trans hp
  · rw [(stableSortDesc_perm _).length_eq, hp.length_eq]
    exact n4

/-! ## The variant with flat content layers -/

theorem foldl_append_singleton {α β : Type} (g : α → β) (l : List α) (acc : List β) :
    l.foldl (fun acc a => acc ++ [g a]) acc = acc ++ l.map g := by
  induction l generalizing acc with
  | nil => simp
  | cons a l ih => rw [List.foldl_cons, ih]; simp

theorem seed_flat_eq (R : List Row) : seed_flat R = all_R R := by
  have h : ∀ acc : List PathState,
      R.foldl (fun acc row =>
        match row.c1, row.c2, row.c3 with
        | some a, some b, some w1 => acc ++ [{ zeroPath with A := a, B := b, sumW := w1 }]
        | _, _, _ => acc) acc = acc ++ all_R R := by
    induction R with
    | nil => intro acc; simp [all_R, validRows]
    | cons r R ih =>
      intro acc
      rw [List.foldl_cons, ih]
      unfold all_R
      rw [validRows_cons]
      rcases r with ⟨c1, c2, c3⟩
      cases c1 <;> cases c2 <;> cases c3 <;> simp [seed_path]
  exact (h []).trans (List.nil_append _)

theorem rekey_flat_eq_build (k : Nat) (field : PathState → Int) (F : List PathState) :
    rekey_flat k field F = build k [] (F.map (fun p => (field p, p))) := by
  unfold rekey_flat build
  rw [List.foldl_map]

theorem extend_flat_eq (sf : PathState → Int → PathState) (J : HTAB) (rows : List Row) :
    extend_flat sf J rows = (extend_stream sf J rows).map Prod.snd := by
  have h : ∀ acc : List PathState,
      rows.foldl (fun acc row =>
        match row.c1, row.c2, row.c3 with
        | some key, some v, some w =>
          match hash_find J key with
          | none => acc
          | some found =>
            (entry_paths found).foldl (fun acc p =>
              acc ++ [{ sf p v with sumW := wrapInt64 ((sf p v).sumW + w) }]) acc
        | _, _, _ => acc) acc = acc ++ (extend_stream sf J rows).map Prod.snd := by
    induction rows with
    | nil => intro acc; simp [extend_stream, validRows]
    | cons r rows ih =>
      intro acc
      rw [List.foldl_cons, ih]
      unfold extend_stream
      rw [validRows_cons]
      rcases r with ⟨c1, c2, c3⟩
      cases c1 <;> cases c2 <;> cases c3 <;> try rfl
      rename_i key v w
      simp only [List.flatMap_cons, List.map_append, List.map_map]
      rw [← List.append_assoc]
      congr 1
      unfold pathsAt entryAt
      cases hash_find J key with
      | none => simp [entry_paths_fresh]
      | some found =>
        simp only [Option.getD_some]
        rw [foldl_append_singleton]
        rfl
  exact (h []).trans (List.nil_append _)

theorem sel_map_key (f : PathState → Int) (F : List PathState) (x : Int) :
    sel (F.map (fun p => (f p, p))) x = F.filter (fun p => decide (f p = x)) := by
  unfold sel
  rw [List.filter_map, List.map_map]
  simp [Function.comp_def]

/-- Regrouping a flat collection gives a sound and complete join layer. -/
theorem rekey_flat_spec (k : Nat) (hk : 0 < k) (nf : PathState → Int) (F P : List PathState)
    (h : FlatOK k nf F P) :
    Sound k nf P (rekey_flat k nf F) ∧ Complete k nf P (rekey_flat k nf F) := by
  rw [rekey_flat_eq_build]
  constructor
  · apply sound_of_build k hk
    · intro kp hkp
      obtain ⟨p, _, rfl⟩ := List.mem_map.mp hkp
      rfl
    · rw [List.map_map]
      simpa [Function.comp_def] using h.1
  · apply complete_of_build k hk
    intro x o
    rw [sel_map_key]
    exact h.2.1 x o

theorem extend_stream_snd_exact (sf : PathState → Int → PathState) (jf : PathState → Int)
    (hg : GoodSetter sf jf) (P : List PathState) (J : HTAB) (rows : List Row) (b : Int)
    (hb : b ≤ 3 * 2 ^ 31) (hP : Bounded b P) (hw : WeightsInt32 rows) (k : Nat)
    (hs : Sound k jf P J) :
    (extend_stream sf J rows).map Prod.snd =
      (validRows rows).flatMap (fun e => (pathsAt J e.1).map
        (fun p => ext_exact sf p e.2.1 e.2.2)) := by
  unfold extend_stream
  rw [List.map_flatMap]
  apply List.flatMap_congr
  intro e he
  rw [List.map_map]
  apply List.map_congr_left
  intro p hp
  exact ext_path_eq_exact sf jf hg b hb p (hP p (hs.mem hp).1) _ _ (hw e he)

/-- Capped counts of a list of extensions, row by row, for a filter that
only looks at the row. -/
theorem countP_rows_flatMap (sf : PathState → Int → PathState) (jf : PathState → Int)
    (hg : GoodSetter sf jf) (c : PathState → Bool) (d : Int × Int × Int → Bool)
    (hcd : ∀ p e, c (ext_exact sf p e.2.1 e.2.2) = d e) (o : Option Int)
    (rowsv : List (Int × Int × Int)) (src : Int → List PathState) :
    ((rowsv.flatMap (fun e => (src e.1).map (fun p => ext_exact sf p e.2.1 e.2.2))).filter
        c).countP (up o) =
      (rowsv.map (fun e => if d e = true then (src e.1).countP (up (shiftDown o e.2.2))
        else 0)).sum := by
  rw [countP_filter_and, countP_flatMap]
  congr 1
  apply List.map_congr_left
  intro e _
  rw [List.countP_map]
  by_cases hd : d e = true
  · rw [if_pos hd]
    apply List.countP_congr
    intro p _
    simp only [Function.comp_apply, hcd, hd, Bool.true_and, up_ext_exact sf jf hg]
  · rw [if_neg hd, List.countP_eq_zero]
    intro p _
    simp [hcd, hd]

/-- Extension into a flat collection: the capped counts of the collection and
of the unpruned next stage agree under every filter that only looks at the
row. -/
theorem extend_flat_count (k : Nat) (sf : PathState → Int → PathState)
    (jf : PathState → Int) (hg : GoodSetter sf jf) (P : List PathState) (J : HTAB)
    (rows : List Row) (b : Int) (hb : b ≤ 3 * 2 ^ 31) (hP : Bounded b P)
    (hw : WeightsInt32 rows) (hs : Sound k jf P J) (hc : Complete k jf P J)
    (c : PathState → Bool) (d : Int × Int × Int → Bool)
    (hcd : ∀ p e, c (ext_exact sf p e.2.1 e.2.2) = d e) (o : Option Int) :
    min k (((extend_flat sf J rows).filter c).countP (up o)) =
      min k (((extend_all sf jf P rows).filter c).countP (up o)) := by
  rw [extend_flat_eq, extend_stream_snd_exact sf jf hg P J rows b hb hP hw k hs,
    ← ((extend_all_perm sf jf P rows).filter c).countP_eq,
    countP_rows_flatMap sf jf hg c d hcd o _ (pathsAt J),
    countP_rows_flatMap sf jf hg c d hcd o _
      (fun x => P.filter (fun p => decide (jf p = x))),
    ← min_sum_min k (fun e : Int × Int × Int => if d e = true then
      (P.filter (fun p => decide (jf p = e.1))).countP (up (shiftDown o e.2.2)) else 0)]
  congr 2
  apply List.map_congr_left
  intro e _
  by_cases hd : d e = true
  · rw [if_pos hd, if_pos hd]
    exact (topKOf_iff_up _ _ _).mp (hc e.1) _
  · rw [if_neg hd, if_neg hd]; simp

theorem extend_flat_subperm (k : Nat) (sf : PathState → Int → PathState)
    (jf : PathState → Int) (hg : GoodSetter sf jf) (P : List PathState) (J : HTAB)
    (rows : List Row) (b : Int) (hb : b ≤ 3 * 2 ^ 31) (hP : Bounded b P)
    (hw : WeightsInt32 rows) (hs : Sound k jf P J) :
    (extend_flat sf J rows).Subperm (extend_all sf jf P rows) := by
  rw [extend_flat_eq, extend_stream_snd_exact sf jf hg P J rows b hb hP hw k hs]
  refine List.Subperm.trans ?_ (extend_all_perm sf jf P rows).subperm
  apply subperm_flatMap
  intro e _
  exact subperm_map _ (pathsAt_subperm_filter hs e.1)

/-- Extension into a flat collection keeps it faithful to the unpruned next
stage, for the regrouping by the new field. -/
theorem extend_flat_ok (k : Nat) (sf : PathState → Int → PathState)
    (jf nf : PathState → Int) (hg : GoodSetter sf jf)
    (hnf : ∀ p v s, nf { sf p v with sumW := s } = v) (P : List PathState) (J : HTAB)
    (rows : List Row) (b : Int) (hb : b ≤ 3 * 2 ^ 31) (hP : Bounded b P)
    (hw : WeightsInt32 rows) (hs : Sound k jf P J) (hc : Complete k jf P J) :
    FlatOK k nf (extend_flat sf J rows) (extend_all sf jf P rows) := by
  refine ⟨extend_flat_subperm k sf jf hg P J rows b hb hP hw hs, fun x o => ?_, fun o => ?_⟩
  · exact extend_flat_count k sf jf hg P J rows b hb hP hw hs hc
      (fun p => decide (nf p = x)) (fun e => decide (e.2.1 = x))
      (fun p e => by
        have := hnf p e.2.1 ((sf p e.2.1).sumW + e.2.2)
        show decide (nf (ext_exact sf p e.2.1 e.2.2) = x) = decide (e.2.1 = x)
        unfold ext_exact
        rw [this]) o
  · have := extend_flat_count k sf jf hg P J rows b hb hP hw hs hc
      (fun _ => true) (fun _ => true) (fun _ _ => rfl) o
    simpa using this

/-- The variant with flat content layers returns the `k` greatest weights of
brute force, whatever the relations hold. -/
theorem dp_flat_variant_weights (k : Nat) (hk : 0 < k) (R S T U : List Row)
    (hR : WeightsInt32 R) (hS : WeightsInt32 S) (hT : WeightsInt32 T) (hU : WeightsInt32 U) :
    weights (dp_flat_variant k R S T U) = (sortDesc (weights (bruteForce R S T U))).take k := by
  have b1 := bounded_all_R R hR
  have b2 := bounded_extend_all setC (fun p => p.B) goodSetter_C _ (all_R R) S b1 hS
  have b3 := bounded_extend_all setD (fun p => p.C) goodSetter_D _ (all_S R S) T b2 hT
  have f1 : FlatOK k (fun p => p.B) (seed_flat R) (all_R R) := by
    rw [seed_flat_eq]
    exact ⟨List.Subperm.refl _, fun _ _ => rfl, fun _ => rfl⟩
  obtain ⟨s2, c2⟩ := rekey_flat_spec k hk _ _ _ f1
  have f3 : FlatOK k (fun p => p.C) _ (all_S R S) :=
    extend_flat_ok k setC (fun p => p.B) (fun p => p.C) goodSetter_C (fun _ _ _ => rfl)
      _ _ S _ (by norm_num) b1 hS s2 c2
  obtain ⟨s4, c4⟩ := rekey_flat_spec k hk _ _ _ f3
  have f5 : FlatOK k (fun p => p.D) _ (all_T R S T) :=
    extend_flat_ok k setD (fun p => p.C) (fun p => p.D) goodSetter_D (fun _ _ _ => rfl)
      _ _ T _ (by norm_num) b2 hT s4 c4
  obtain ⟨s6, c6⟩ := rekey_flat_spec k hk _ _ _ f5
  have f7 : FlatOK k (fun p => p.E) _ (all_U R S T U) :=
    extend_flat_ok k setE (fun p => p.D) (fun p => p.E) goodSetter_E (fun _ _ _ => rfl)
      _ _ U _ (by norm_num) b3 hU s6 c6
  have hdef : dp_flat_variant k R S T U = global_merge k (extend_flat setE (rekey_flat k
      (fun p => p.D) (extend_flat setD (rekey_flat k (fun p => p.C) (extend_flat setC
        (rekey_flat k (fun p => p.B) (seed_flat R)) S)) T)) U) := rfl
  rw [hdef, global_merge_eq k hk, ← all_U_eq_bruteForce]
  have e1 : ∀ xs : List PathState, weights (xs.take k) = (weights xs).take k := fun xs => by
    unfold weights; rw [List.map_take]
  rw [e1, weights_stableSortDesc]
  apply sortDesc_take_eq_of_count
  intro v
  rw [← cge_eq_cgeI, ← cge_eq_cgeI]
  exact f7.2.2 (some v)

/-! ## The bounded top-K structure: claims -/

/-- C5. For every `K > 0` and every sequence of paths inserted with
`insert_path_topk` into a fresh entry, the entry afterwards holds exactly
`min K count` paths, and the multiset of their weights is the multiset of the
`min K count` greatest weights of the sequence. -/
theorem insert_path_topk_keeps_greatest (k : Nat) (hk : 0 < k) (key : Int)
    (xs : List PathState) :
    (insert_all k (fresh_entry key) xs).n_paths = min k xs.length ∧
    (entry_paths (insert_all k (fresh_entry key) xs)).length = min k xs.length ∧
    Multiset.ofList (weights (entry_paths (insert_all k (fresh_entry key) xs))) =
      Multiset.ofList ((sortDesc (weights xs)).take (min k xs.length)) := by
  obtain ⟨h1, _, _, h4, _⟩ := insert_all_topk k hk xs (fresh_entry key) []
    (fresh_entry_inv k key) (by rw [entry_paths_fresh]; exact TopKOf.nil k)
  rw [List.nil_append] at h4
  have hlen := entry_paths_length h1
  refine ⟨by rw [← hlen]; exact h4.1, h4.1, ?_⟩
  rw [Multiset.coe_eq_coe]
  have e : (sortDesc (weights xs)).take (min k xs.length) = (sortDesc (weights xs)).take k := by
    have hl : (sortDesc (weights xs)).length = xs.length := by
      rw [(sortDesc_perm _).length_eq]; simp [weights]
    rw [← hl, List.take_eq_take]
    simp
  rw [e]
  exact h4.weights_perm

/-- C5, at `K = 2` and the weights 5, 5, 7. -/
theorem insert_path_topk_keeps_greatest_witness :
    0 < 2 ∧
    (insert_all 2 (fresh_entry 0) [⟨1, 0, 0, 0, 0, 5⟩, ⟨2, 0, 0, 0, 0, 5⟩, ⟨3, 0, 0, 0, 0, 7⟩]).n_paths
      = min 2 3 ∧
    (entry_paths (insert_all 2 (fresh_entry 0)
      [⟨1, 0, 0, 0, 0, 5⟩, ⟨2, 0, 0, 0, 0, 5⟩, ⟨3, 0, 0, 0, 0, 7⟩])).length = min 2 3 ∧
    Multiset.ofList (weights (entry_paths (insert_all 2 (fresh_entry 0)
      [⟨1, 0, 0, 0, 0, 5⟩, ⟨2, 0, 0, 0, 0, 5⟩, ⟨3, 0, 0, 0, 0, 7⟩]))) =
      Multiset.ofList ((sortDesc (weights
        [⟨1, 0, 0, 0, 0, 5⟩, ⟨2, 0, 0, 0, 0, 5⟩, ⟨3, 0, 0, 0, 0, 7⟩])).take (min 2 3)) :=
  ⟨by decide, insert_path_topk_keeps_greatest 2 (by decide) 0
    [⟨1, 0, 0, 0, 0, 5⟩, ⟨2, 0, 0, 0, 0, 5⟩, ⟨3, 0, 0, 0, 0, 7⟩]⟩

/-- C6, counterexample. With `K = 2`, the paths `a` (weight 5), `b` (weight 5)
and `c` (weight 7) inserted in this order leave `b` and `c` in the entry: the
later of the two tied paths is retained and the earlier one is not. -/
theorem insert_path_topk_first_come_counterexample :
    entry_paths (insert_all 2 (fresh_entry 0)
      [⟨1, 0, 0, 0, 0, 5⟩, ⟨2, 0, 0, 0, 0, 5⟩, ⟨3, 0, 0, 0, 0, 7⟩]) =
      [⟨2, 0, 0, 0, 0, 5⟩, ⟨3, 0, 0, 0, 0, 7⟩] ∧
    (⟨2, 0, 0, 0, 0, 5⟩ : PathState) ∈ entry_paths (insert_all 2 (fresh_entry 0)
      [⟨1, 0, 0, 0, 0, 5⟩, ⟨2, 0, 0, 0, 0, 5⟩, ⟨3, 0, 0, 0, 0, 7⟩]) ∧
    (⟨1, 0, 0, 0, 0, 5⟩ : PathState) ∉ entry_paths (insert_all 2 (fresh_entry 0)
      [⟨1, 0, 0, 0, 0, 5⟩, ⟨2, 0, 0, 0, 0, 5⟩, ⟨3, 0, 0, 0, 0, 7⟩]) := by
  decide

/-- C6, as the code has it. For every `K > 0` and every sequence of insertions
into a fresh entry: a further insertion never removes a retained path unless
the new path is strictly heavier than it (a path as heavy as the lightest
retained one is rejected), and with `K = 1` the entry holds the earliest
inserted path of greatest weight. -/
theorem insert_path_topk_tie_break (k : Nat) (hk : 0 < k) (key : Int)
    (xs : List PathState) (p : PathState) :
    (∀ q, (entry_paths (insert_path_topk (insert_all k (fresh_entry key) xs) p k)).count q <
        (entry_paths (insert_all k (fresh_entry key) xs)).count q → q.sumW < p.sumW) ∧
    (k = 1 → ∀ pre m post, xs = pre ++ m :: post → (∀ q ∈ pre, q.sumW < m.sumW) →
      (∀ q ∈ post, q.sumW ≤ m.sumW) → entry_paths (insert_all k (fresh_entry key) xs) = [m]) := by
  constructor
  · intro q hq
    obtain ⟨a1, _, _, _, _⟩ := insert_all_fresh k hk key xs
    obtain ⟨_, _, h3⟩ := insert_path_topk_step k hk _ p a1
    rcases h3 with ⟨_, _, hperm⟩ | ⟨_, m0, hm0, _, hrej | ⟨hgt, _, hperm⟩⟩
    · rw [hperm.count_eq, List.count_append] at hq
      omega
    · rw [hrej.2] at hq
      omega
    · rw [hperm.count_eq, List.count_cons, List.count_erase] at hq
      by_cases hqm : m0 = q
      · rw [← hqm]; exact hgt
      · have : (m0 == q) = false := by simpa using hqm
        simp only [this] at hq
        simp at hq
  · intro h1 pre m post hxs hpre hpost
    subst h1
    rw [hxs]
    exact insert_all_one key pre post m hpre hpost

/-- C6 as the code has it, at `K = 1` and the weights 5, 5, 3 followed by a
path of weight 7. -/
theorem insert_path_topk_tie_break_witness :
    0 < 1 ∧
    ((∀ q, (entry_paths (insert_path_topk (insert_all 1 (fresh_entry 0)
        [⟨1, 0, 0, 0, 0, 5⟩, ⟨2, 0, 0, 0, 0, 5⟩, ⟨3, 0, 0, 0, 0, 3⟩]) ⟨4, 0, 0, 0, 0, 7⟩ 1)).count q <
        (entry_paths (insert_all 1 (fresh_entry 0)
        [⟨1, 0, 0, 0, 0, 5⟩, ⟨2, 0, 0, 0, 0, 5⟩, ⟨3, 0, 0, 0, 0, 3⟩])).count q →
        q.sumW < (⟨4, 0, 0, 0, 0, 7⟩ : PathState).sumW) ∧
    (1 = 1 → ∀ pre m post,
      [⟨1, 0, 0, 0, 0, 5⟩, ⟨2, 0, 0, 0, 0, 5⟩, ⟨3, 0, 0, 0, 0, 3⟩] = pre ++ m :: post →
      (∀ q ∈ pre, q.sumW < m.sumW) → (∀ q ∈ post, q.sumW ≤ m.sumW) →
      entry_paths (insert_all 1 (fresh_entry 0)
        [⟨1, 0, 0, 0, 0, 5⟩, ⟨2, 0, 0, 0, 0, 5⟩, ⟨3, 0, 0, 0, 0, 3⟩]) = [m])) :=
  ⟨by decide, insert_path_topk_tie_break 1 (by decide) 0
    [⟨1, 0, 0, 0, 0, 5⟩, ⟨2, 0, 0, 0, 0, 5⟩, ⟨3, 0, 0, 0, 0, 3⟩] ⟨4, 0, 0, 0, 0, 7⟩⟩

/-- C7. Replacement rule at capacity. For every entry reached by insertions
from empty that holds `K` paths, and `m` a retained path of smallest weight:
inserting a path that is not heavier than `m` leaves the whole entry (array
and `n_paths`) unchanged; inserting a strictly heavier path removes exactly one
path of that smallest weight and adds the new one, `n_paths` staying `K`. -/
theorem insert_path_topk_at_capacity (k : Nat) (hk : 0 < k) (key : Int)
    (xs : List PathState) (e : NodeEntry) (p m : PathState)
    (he : e = insert_all k (fresh_entry key) xs) (hfull : e.n_paths = k)
    (hm : m ∈ entry_paths e) (hmin : ∀ q ∈ entry_paths e, m.sumW ≤ q.sumW) :
    (p.sumW ≤ m.sumW → insert_path_topk e p k = e) ∧
    (m.sumW < p.sumW →
      (insert_path_topk e p k).n_paths = k ∧
      ∃ m1, m1 ∈ entry_paths e ∧ m1.sumW = m.sumW ∧
        (entry_paths (insert_path_topk e p k)).Perm (p :: (entry_paths e).erase m1)) := by
  have hinv : EntryInv k e := by rw [he]; exact (insert_all_fresh k hk key xs).1
  obtain ⟨_, _, h3⟩ := insert_path_topk_step k hk e p hinv
  rcases h3 with ⟨hlt, _, _⟩ | ⟨_, m0, hm0, hmin0, hcase⟩
  · omega
  · have heq : m0.sumW = m.sumW := le_antisymm (hmin0 m hm) (hmin m0 hm0)
    constructor
    · intro hle
      rcases hcase with hrej | ⟨hgt, _, _⟩
      · exact hrej.2
      · omega
    · intro hlt
      rcases hcase with hrej | ⟨_, hn, hperm⟩
      · omega
      · exact ⟨hn, m0, hm0, heq, hperm⟩

/-- C7, at `K = 2`, the entry reached by the weights 5, 9, 6 and a new path of
weight 7. -/
theorem insert_path_topk_at_capacity_witness :
    0 < 2 ∧
    insert_all 2 (fresh_entry 0) [⟨1, 0, 0, 0, 0, 5⟩, ⟨2, 0, 0, 0, 0, 9⟩, ⟨3, 0, 0, 0, 0, 6⟩] =
      insert_all 2 (fresh_entry 0) [⟨1, 0, 0, 0, 0, 5⟩, ⟨2, 0, 0, 0, 0, 9⟩, ⟨3, 0, 0, 0, 0, 6⟩] ∧
    (insert_all 2 (fresh_entry 0)
      [⟨1, 0, 0, 0, 0, 5⟩, ⟨2, 0, 0, 0, 0, 9⟩, ⟨3, 0, 0, 0, 0, 6⟩]).n_paths = 2 ∧
    (⟨3, 0, 0, 0, 0, 6⟩ : PathState) ∈ entry_paths (insert_all 2 (fresh_entry 0)
      [⟨1, 0, 0, 0, 0, 5⟩, ⟨2, 0, 0, 0, 0, 9⟩, ⟨3, 0, 0, 0, 0, 6⟩]) ∧
    (∀ q ∈ entry_paths (insert_all 2 (fresh_entry 0)
      [⟨1, 0, 0, 0, 0, 5⟩, ⟨2, 0, 0, 0, 0, 9⟩, ⟨3, 0, 0, 0, 0, 6⟩]),
      (⟨3, 0, 0, 0, 0, 6⟩ : PathState).sumW ≤ q.sumW) ∧
    ((⟨7, 0, 0, 0, 0, 7⟩ : PathState).sumW ≤ (⟨3, 0, 0, 0, 0, 6⟩ : PathState).sumW →
      insert_path_topk (insert_all 2 (fresh_entry 0)
        [⟨1, 0, 0, 0, 0, 5⟩, ⟨2, 0, 0, 0, 0, 9⟩, ⟨3, 0, 0, 0, 0, 6⟩]) ⟨7, 0, 0, 0, 0, 7⟩ 2 =
      insert_all 2 (fresh_entry 0)
        [⟨1, 0, 0, 0, 0, 5⟩, ⟨2, 0, 0, 0, 0, 9⟩, ⟨3, 0, 0, 0, 0, 6⟩]) ∧
    ((⟨3, 0, 0, 0, 0, 6⟩ : PathState).sumW < (⟨7, 0, 0, 0, 0, 7⟩ : PathState).sumW →
      (insert_path_topk (insert_all 2 (fresh_entry 0)
        [⟨1, 0, 0, 0, 0, 5⟩, ⟨2, 0, 0, 0, 0, 9⟩, ⟨3, 0, 0, 0, 0, 6⟩]) ⟨7, 0, 0, 0, 0, 7⟩ 2).n_paths = 2 ∧
      ∃ m1, m1 ∈ entry_paths (insert_all 2 (fresh_entry 0)
          [⟨1, 0, 0, 0, 0, 5⟩, ⟨2, 0, 0, 0, 0, 9⟩, ⟨3, 0, 0, 0, 0, 6⟩]) ∧
        m1.sumW = (⟨3, 0, 0, 0, 0, 6⟩ : PathState).sumW ∧
        (entry_paths (insert_path_topk (insert_all 2 (fresh_entry 0)
          [⟨1, 0, 0, 0, 0, 5⟩, ⟨2, 0, 0, 0, 0, 9⟩, ⟨3, 0, 0, 0, 0, 6⟩]) ⟨7, 0, 0, 0, 0, 7⟩ 2)).Perm
          (⟨7, 0, 0, 0, 0, 7⟩ :: (entry_paths (insert_all 2 (fresh_entry 0)
            [⟨1, 0, 0, 0, 0, 5⟩, ⟨2, 0, 0, 0, 0, 9⟩, ⟨3, 0, 0, 0, 0, 6⟩])).erase m1)) :=
  ⟨by decide, rfl, by decide, by decide, by decide,
    insert_path_topk_at_capacity 2 (by decide) 0
      [⟨1, 0, 0, 0, 0, 5⟩, ⟨2, 0, 0, 0, 0, 9⟩, ⟨3, 0, 0, 0, 0, 6⟩] _
      ⟨7, 0, 0, 0, 0, 7⟩ ⟨3, 0, 0, 0, 0, 6⟩ rfl (by decide) (by decide) (by decide)⟩

/-! ## The global merge and the emitted sequence: claims -/

/-- C8. For every `K > 0` and every content of R, S, T, U, `dp_best_path`
returns a sequence of length at most `K`. -/
theorem dp_best_path_length_le (scan : HTAB → HTAB) (R S T U : List Row) (K : Int)
    (hK : 0 < K) :
    ∃ res, dp_best_path scan R S T U K = Except.ok res ∧ (res.length : Int) ≤ K := by
  refine ⟨_, dp_best_path_ok scan R S T U K hK, ?_⟩
  rw [dp_core_eq, global_merge_eq _ (by omega), List.length_take]
  omega

/-- C8, on the second scenario of the specification with `K = 1`. -/
theorem dp_best_path_length_le_witness :
    (0 : Int) < 1 ∧
    ∃ res, dp_best_path id [⟨some 1, some 10, some 5⟩, ⟨some 2, some 10, some 9⟩]
      [⟨some 10, some 20, some 3⟩] [⟨some 20, some 30, some 2⟩] [⟨some 30, some 40, some 1⟩] 1
        = Except.ok res ∧ (res.length : Int) ≤ 1 :=
  ⟨by decide, dp_best_path_length_le id _ _ _ _ 1 (by decide)⟩

/-- C9, counterexample. With R = [(1,10,5)], S = [(10,20,3)], T = [(20,30,2)],
U = [(30,40,1), (30,41,1)] and `K = 2`, whatever the scan order of the hash
tables, the two emitted records both have weight 11: the sequence is not
strictly descending. -/
theorem dp_best_path_strict_counterexample :
    (∀ scan, IsScan scan →
      dp_best_path scan [⟨some 1, some 10, some 5⟩] [⟨some 10, some 20, some 3⟩]
        [⟨some 20, some 30, some 2⟩] [⟨some 30, some 40, some 1⟩, ⟨some 30, some 41, some 1⟩] 2 =
      Except.ok [⟨1, 10, 20, 30, 40, 11⟩, ⟨1, 10, 20, 30, 41, 11⟩]) ∧
    ¬ ((⟨1, 10, 20, 30, 40, 11⟩ : PathState).sumW > (⟨1, 10, 20, 30, 41, 11⟩ : PathState).sumW) := by
  refine ⟨fun scan hs => ?_, by decide⟩
  rw [dp_best_path_ok _ _ _ _ _ _ (by decide), dp_core_eq]
  have h1 : seed_layer (2 : Int).toNat [⟨some 1, some 10, some 5⟩] =
      [⟨1, 1, 2, some [⟨1, 10, 0, 0, 0, 5⟩, zeroPath]⟩] := by decide
  rw [h1]
  have h2 : rekey scan (2 : Int).toNat (fun p => p.B)
      [⟨1, 1, 2, some [⟨1, 10, 0, 0, 0, 5⟩, zeroPath]⟩] =
      [⟨10, 1, 2, some [⟨1, 10, 0, 0, 0, 5⟩, zeroPath]⟩] := by
    rw [rekey, scan_paths_singleton scan hs]; decide
  rw [h2]
  have h3 : extend (2 : Int).toNat setC [⟨10, 1, 2, some [⟨1, 10, 0, 0, 0, 5⟩, zeroPath]⟩]
      [⟨some 10, some 20, some 3⟩] =
      [⟨10, 1, 2, some [⟨1, 10, 20, 0, 0, 8⟩, zeroPath]⟩] := by decide
  rw [h3]
  have h4 : rekey scan (2 : Int).toNat (fun p => p.C)
      [⟨10, 1, 2, some [⟨1, 10, 20, 0, 0, 8⟩, zeroPath]⟩] =
      [⟨20, 1, 2, some [⟨1, 10, 20, 0, 0, 8⟩, zeroPath]⟩] := by
    rw [rekey, scan_paths_singleton scan hs]; decide
  rw [h4]
  have h5 : extend (2 : Int).toNat setD [⟨20, 1, 2, some [⟨1, 10, 20, 0, 0, 8⟩, zeroPath]⟩]
      [⟨some 20, some 30, some 2⟩] =
      [⟨20, 1, 2, some [⟨1, 10, 20, 30, 0, 10⟩, zeroPath]⟩] := by decide
  rw [h5]
  have h6 : rekey scan (2 : Int).toNat (fun p => p.D)
      [⟨20, 1, 2, some [⟨1, 10, 20, 30, 0, 10⟩, zeroPath]⟩] =
      [⟨30, 1, 2, some [⟨1, 10, 20, 30, 0, 10⟩, zeroPath]⟩] := by
    rw [rekey, scan_paths_singleton scan hs]; decide
  rw [h6]
  have h7 : extend (2 : Int).toNat setE [⟨30, 1, 2, some [⟨1, 10, 20, 30, 0, 10⟩, zeroPath]⟩]
      [⟨some 30, some 40, some 1⟩, ⟨some 30, some 41, some 1⟩] =
      [⟨30, 2, 2, some [⟨1, 10, 20, 30, 40, 11⟩, ⟨1, 10, 20, 30, 41, 11⟩]⟩] := by decide
  rw [h7, scan_paths_singleton scan hs]
  have h8 : global_merge (2 : Int).toNat
      (entry_paths ⟨30, 2, 2, some [⟨1, 10, 20, 30, 40, 11⟩, ⟨1, 10, 20, 30, 41, 11⟩]⟩) =
      [⟨1, 10, 20, 30, 40, 11⟩, ⟨1, 10, 20, 30, 41, 11⟩] := by decide
  rw [h8]

/-- C9, as the code has it. For every `K > 0` and every content of R, S, T, U,
the sequence returned by `dp_best_path` is descending by weight, not strictly:
no record is lighter than a record that follows it. -/
theorem dp_best_path_descending (scan : HTAB → HTAB) (R S T U : List Row) (K : Int)
    (hK : 0 < K) :
    ∃ res, dp_best_path scan R S T U K = Except.ok res ∧
      res.Pairwise (fun a b => b.sumW ≤ a.sumW) := by
  refine ⟨_, dp_best_path_ok scan R S T U K hK, ?_⟩
  rw [dp_core_eq, global_merge_eq _ (by omega)]
  exact (stableSortDesc_sorted _).sublist (List.take_sublist _ _)

/-- C9 as the code has it, on the input of the counterexample. -/
theorem dp_best_path_descending_witness :
    (0 : Int) < 2 ∧
    ∃ res, dp_best_path id [⟨some 1, some 10, some 5⟩] [⟨some 10, some 20, some 3⟩]
        [⟨some 20, some 30, some 2⟩] [⟨some 30, some 40, some 1⟩, ⟨some 30, some 41, some 1⟩] 2
        = Except.ok res ∧ res.Pairwise (fun a b => b.sumW ≤ a.sumW) :=
  ⟨by decide, dp_best_path_descending id _ _ _ _ 2 (by decide)⟩

/-- C10. The global merge is a stable bounded top-K: for every `K > 0` and
every scanned sequence, the emitted sequence is the first `K` paths of the
scanned sequence sorted by descending weight with a stable sort; in
particular, among the paths of any one weight, the emitted ones are the
earliest scanned ones, in scan order. -/
theorem global_merge_stable (k : Nat) (hk : 0 < k) (scanned : List PathState) :
    global_merge k scanned = (stableSortDesc scanned).take k ∧
    ∀ w : Int, ((global_merge k scanned).filter (fun q => decide (q.sumW = w))).IsPrefix
      (scanned.filter (fun q => decide (q.sumW = w))) := by
  refine ⟨global_merge_eq k hk scanned, fun w => ?_⟩
  rw [global_merge_eq k hk scanned, ← filter_stableSortDesc w scanned]
  exact (List.take_prefix _ _).filter _

/-- C10, at `K = 3` on five scanned paths with a three-way tie. -/
theorem global_merge_stable_witness :
    0 < 3 ∧
    (global_merge 3 [⟨1, 0, 0, 0, 0, 5⟩, ⟨2, 0, 0, 0, 0, 5⟩, ⟨3, 0, 0, 0, 0, 7⟩,
        ⟨4, 0, 0, 0, 0, 5⟩, ⟨5, 0, 0, 0, 0, 6⟩] =
      (stableSortDesc [⟨1, 0, 0, 0, 0, 5⟩, ⟨2, 0, 0, 0, 0, 5⟩, ⟨3, 0, 0, 0, 0, 7⟩,
        ⟨4, 0, 0, 0, 0, 5⟩, ⟨5, 0, 0, 0, 0, 6⟩]).take 3 ∧
    ∀ w : Int, ((global_merge 3 [⟨1, 0, 0, 0, 0, 5⟩, ⟨2, 0, 0, 0, 0, 5⟩, ⟨3, 0, 0, 0, 0, 7⟩,
        ⟨4, 0, 0, 0, 0, 5⟩, ⟨5, 0, 0, 0, 0, 6⟩]).filter (fun q => decide (q.sumW = w))).IsPrefix
      (([⟨1, 0, 0, 0, 0, 5⟩, ⟨2, 0, 0, 0, 0, 5⟩, ⟨3, 0, 0, 0, 0, 7⟩,
        ⟨4, 0, 0, 0, 0, 5⟩, ⟨5, 0, 0, 0, 0, 6⟩] : List PathState).filter
          (fun q => decide (q.sumW = w)))) :=
  ⟨by decide, global_merge_stable 3 (by decide) _⟩

/-! ## The pipeline against brute force: claims -/

/-- C1, counterexample. With R = [(1,10,5), (1,11,4)], S = [(11,20,3)],
T = [(20,30,2)], U = [(30,40,1)] and `K = 1`, whatever the scan order of the
hash tables, `dp_best_path` returns nothing, while brute force finds the path
(1,11,20,30,40) of weight 10: `layer_R` keeps, under the key A = 1, only the
path through B = 10, which no row of S continues. -/
theorem dp_best_path_pruning_counterexample :
    (∀ scan, IsScan scan →
      dp_best_path scan [⟨some 1, some 10, some 5⟩, ⟨some 1, some 11, some 4⟩]
        [⟨some 11, some 20, some 3⟩] [⟨some 20, some 30, some 2⟩] [⟨some 30, some 40, some 1⟩] 1 =
      Except.ok []) ∧
    (sortDesc (weights (bruteForce [⟨some 1, some 10, some 5⟩, ⟨some 1, some 11, some 4⟩]
        [⟨some 11, some 20, some 3⟩] [⟨some 20, some 30, some 2⟩]
        [⟨some 30, some 40, some 1⟩]))).take 1 = [10] := by
  refine ⟨fun scan hs => ?_, by decide⟩
  rw [dp_best_path_ok _ _ _ _ _ _ (by decide), dp_core_eq]
  have h1 : seed_layer (1 : Int).toNat [⟨some 1, some 10, some 5⟩, ⟨some 1, some 11, some 4⟩] =
      [⟨1, 1, 1, some [⟨1, 10, 0, 0, 0, 5⟩]⟩] := by decide
  rw [h1]
  have h2 : rekey scan (1 : Int).toNat (fun p => p.B) [⟨1, 1, 1, some [⟨1, 10, 0, 0, 0, 5⟩]⟩] =
      [⟨10, 1, 1, some [⟨1, 10, 0, 0, 0, 5⟩]⟩] := by
    rw [rekey, scan_paths_singleton scan hs]; decide
  rw [h2]
  have h3 : extend (1 : Int).toNat setC [⟨10, 1, 1, some [⟨1, 10, 0, 0, 0, 5⟩]⟩]
      [⟨some 11, some 20, some 3⟩] = [] := by decide
  rw [h3]
  have h4 : ∀ f : PathState → Int, rekey scan (1 : Int).toNat f [] = [] := by
    intro f; rw [rekey, scan_paths_nil scan hs]; rfl
  have h5 : extend (1 : Int).toNat setD [] [⟨some 20, some 30, some 2⟩] = [] := by decide
  have h6 : extend (1 : Int).toNat setE [] [⟨some 30, some 40, some 1⟩] = [] := by decide
  rw [h4, h5, h4, h6, scan_paths_nil scan hs]
  rfl

/-- C1, as the code has it. For every `K > 0` and every content of R, S, T, U
(with 32-bit weights), the records returned by `dp_best_path` form a
sub-multiset of the brute-force full paths, each with its exact weight; and
the returned weights are the top-K brute-force weights whenever, among the
rows without a null, A determines B in R, B determines C in S and C determines
D in T. -/
theorem dp_best_path_pruning (scan : HTAB → HTAB) (hs : IsScan scan) (R S T U : List Row)
    (K : Int) (hK : 0 < K) (hR : WeightsInt32 R) (hS : WeightsInt32 S) (hT : WeightsInt32 T)
    (hU : WeightsInt32 U) :
    ∃ res, dp_best_path scan R S T U K = Except.ok res ∧
      res.Subperm (bruteForce R S T U) ∧
      (KeyDetermines R → KeyDetermines S → KeyDetermines T →
        weights res = (sortDesc (weights (bruteForce R S T U))).take K.toNat) :=
  ⟨_, dp_best_path_ok scan R S T U K hK,
    dp_core_subperm scan hs _ (by omega) R S T U hR hS hT hU,
    fun fR fS fT => dp_core_weights scan hs _ (by omega) R S T U hR hS hT hU fR fS fT⟩

/-- C1 as the code has it, on the input of the counterexample. -/
theorem dp_best_path_pruning_witness :
    IsScan id ∧ (0 : Int) < 1 ∧
    WeightsInt32 [⟨some 1, some 10, some 5⟩, ⟨some 1, some 11, some 4⟩] ∧
    WeightsInt32 [⟨some 11, some 20, some 3⟩] ∧ WeightsInt32 [⟨some 20, some 30, some 2⟩] ∧
    WeightsInt32 [⟨some 30, some 40, some 1⟩] ∧
    ∃ res, dp_best_path id [⟨some 1, some 10, some 5⟩, ⟨some 1, some 11, some 4⟩]
        [⟨some 11, some 20, some 3⟩] [⟨some 20, some 30, some 2⟩] [⟨some 30, some 40, some 1⟩] 1 =
        Except.ok res ∧
      res.Subperm (bruteForce [⟨some 1, some 10, some 5⟩, ⟨some 1, some 11, some 4⟩]
        [⟨some 11, some 20, some 3⟩] [⟨some 20, some 30, some 2⟩] [⟨some 30, some 40, some 1⟩]) ∧
      (KeyDetermines [⟨some 1, some 10, some 5⟩, ⟨some 1, some 11, some 4⟩] →
        KeyDetermines [⟨some 11, some 20, some 3⟩] → KeyDetermines [⟨some 20, some 30, some 2⟩] →
        weights res = (sortDesc (weights (bruteForce
          [⟨some 1, some 10, some 5⟩, ⟨some 1, some 11, some 4⟩]
          [⟨some 11, some 20, some 3⟩] [⟨some 20, some 30, some 2⟩]
          [⟨some 30, some 40, some 1⟩]))).take (1 : Int).toNat) :=
  ⟨fun l => List.Perm.refl l, by decide, by unfold WeightsInt32; decide,
    by unfold WeightsInt32; decide, by unfold WeightsInt32; decide,
    by unfold WeightsInt32; decide,
    dp_best_path_pruning id (fun l => List.Perm.refl l) _ _ _ _ 1 (by decide)
      (by unfold WeightsInt32; decide) (by unfold WeightsInt32; decide)
      (by unfold WeightsInt32; decide) (by unfold WeightsInt32; decide)⟩

/-- C2, counterexample. With R = [(1,10,5), (1,11,4)], S = [(10,20,0),
(11,20,3)], T = [(20,30,2)], U = [(30,40,1)] and `K = 1`, whatever the scan
order of the hash tables, `dp_best_path` returns the path through B = 10 of
weight 8, while the path (1,11,20,30,40) of brute force has weight 10. -/
theorem dp_best_path_max_counterexample :
    (∀ scan, IsScan scan →
      dp_best_path scan [⟨some 1, some 10, some 5⟩, ⟨some 1, some 11, some 4⟩]
        [⟨some 10, some 20, some 0⟩, ⟨some 11, some 20, some 3⟩] [⟨some 20, some 30, some 2⟩]
        [⟨some 30, some 40, some 1⟩] 1 =
      Except.ok [⟨1, 10, 20, 30, 40, 8⟩]) ∧
    (⟨1, 11, 20, 30, 40, 10⟩ : PathState) ∈
      bruteForce [⟨some 1, some 10, some 5⟩, ⟨some 1, some 11, some 4⟩]
        [⟨some 10, some 20, some 0⟩, ⟨some 11, some 20, some 3⟩] [⟨some 20, some 30, some 2⟩]
        [⟨some 30, some 40, some 1⟩] := by
  refine ⟨fun scan hs => ?_, by decide⟩
  rw [dp_best_path_ok _ _ _ _ _ _ (by decide), dp_core_eq]
  have h1 : seed_layer (1 : Int).toNat [⟨some 1, some 10, some 5⟩, ⟨some 1, some 11, some 4⟩] =
      [⟨1, 1, 1, some [⟨1, 10, 0, 0, 0, 5⟩]⟩] := by decide
  rw [h1]
  have h2 : rekey scan (1 : Int).toNat (fun p => p.B) [⟨1, 1, 1, some [⟨1, 10, 0, 0, 0, 5⟩]⟩] =
      [⟨10, 1, 1, some [⟨1, 10, 0, 0, 0, 5⟩]⟩] := by
    rw [rekey, scan_paths_singleton scan hs]; decide
  rw [h2]
  have h3 : extend (1 : Int).toNat setC [⟨10, 1, 1, some [⟨1, 10, 0, 0, 0, 5⟩]⟩]
      [⟨some 10, some 20, some 0⟩, ⟨some 11, some 20, some 3⟩] =
      [⟨10, 1, 1, some [⟨1, 10, 20, 0, 0, 5⟩]⟩] := by decide
  rw [h3]
  have h4 : rekey scan (1 : Int).toNat (fun p => p.C) [⟨10, 1, 1, some [⟨1, 10, 20, 0, 0, 5⟩]⟩] =
      [⟨20, 1, 1, some [⟨1, 10, 20, 0, 0, 5⟩]⟩] := by
    rw [rekey, scan_paths_singleton scan hs]; decide
  rw [h4]
  have h5 : extend (1 : Int).toNat setD [⟨20, 1, 1, some [⟨1, 10, 20, 0, 0, 5⟩]⟩]
      [⟨some 20, some 30, some 2⟩] = [⟨20, 1, 1, some [⟨1, 10, 20, 30, 0, 7⟩]⟩] := by decide
  rw [h5]
  have h6 : rekey scan (1 : Int).toNat (fun p => p.D) [⟨20, 1, 1, some [⟨1, 10, 20, 30, 0, 7⟩]⟩] =
      [⟨30, 1, 1, some [⟨1, 10, 20, 30, 0, 7⟩]⟩] := by
    rw [rekey, scan_paths_singleton scan hs]; decide
  rw [h6]
  have h7 : extend (1 : Int).toNat setE [⟨30, 1, 1, some [⟨1, 10, 20, 30, 0, 7⟩]⟩]
      [⟨some 30, some 40, some 1⟩] = [⟨30, 1, 1, some [⟨1, 10, 20, 30, 40, 8⟩]⟩] := by decide
  rw [h7, scan_paths_singleton scan hs]
  have h8 : global_merge (1 : Int).toNat
      (entry_paths ⟨30, 1, 1, some [⟨1, 10, 20, 30, 40, 8⟩]⟩) = [⟨1, 10, 20, 30, 40, 8⟩] := by
    decide
  rw [h8]

/-- C2, as the code has it. For `K = 1` and every content of R, S, T, U (with
32-bit weights) in which, among the rows without a null, A determines B in R,
B determines C in S and C determines D in T, and for which at least one full
join path exists, `dp_best_path` returns exactly one path; it is a full join
path and its weight is the maximum of `W1 + W2 + W3 + W4` over brute force. -/
theorem dp_best_path_max (scan : HTAB → HTAB) (hs : IsScan scan) (R S T U : List Row)
    (hR : WeightsInt32 R) (hS : WeightsInt32 S) (hT : WeightsInt32 T) (hU : WeightsInt32 U)
    (fR : KeyDetermines R) (fS : KeyDetermines S) (fT : KeyDetermines T)
    (hex : bruteForce R S T U ≠ []) :
    ∃ p, dp_best_path scan R S T U 1 = Except.ok [p] ∧ p ∈ bruteForce R S T U ∧
      ∀ q ∈ bruteForce R S T U, q.sumW ≤ p.sumW := by
  have hsub := dp_core_subperm scan hs 1 (by decide) R S T U hR hS hT hU
  have hw := dp_core_weights scan hs 1 (by decide) R S T U hR hS hT hU fR fS fT
  have hne : sortDesc (weights (bruteForce R S T U)) ≠ [] := by
    intro h
    have := (sortDesc_perm (weights (bruteForce R S T U))).length_eq
    rw [h] at this
    simp only [weights, List.length_nil, List.length_map] at this
    exact hex (List.length_eq_zero.mp this.symm)
  obtain ⟨a, rest, hsort⟩ := List.exists_cons_of_ne_nil hne
  rw [hsort] at hw
  simp only [List.take_succ_cons, List.take_zero] at hw
  have hlen : (dp_core scan 1 R S T U).length = 1 := by
    have := congrArg List.length hw
    simpa [weights] using this
  obtain ⟨p, hp⟩ := List.length_eq_one.mp hlen
  refine ⟨p, ?_, ?_, ?_⟩
  · rw [dp_best_path_ok _ _ _ _ _ _ (by decide)]
    exact congrArg Except.ok hp
  · exact hsub.subset (by rw [hp]; exact List.mem_singleton_self p)
  · intro q hq
    rw [hp] at hw
    have hpa : p.sumW = a := by simpa [weights] using hw
    rw [hpa]
    exact le_head_sortDesc _ a rest hsort q.sumW (List.mem_map_of_mem (fun p => p.sumW) hq)

/-- C2 as the code has it, on the second scenario of the specification. -/
theorem dp_best_path_max_witness :
    IsScan id ∧
    WeightsInt32 [⟨some 1, some 10, some 5⟩, ⟨some 2, some 10, some 9⟩] ∧
    WeightsInt32 [⟨some 10, some 20, some 3⟩] ∧ WeightsInt32 [⟨some 20, some 30, some 2⟩] ∧
    WeightsInt32 [⟨some 30, some 40, some 1⟩] ∧
    KeyDetermines [⟨some 1, some 10, some 5⟩, ⟨some 2, some 10, some 9⟩] ∧
    KeyDetermines [⟨some 10, some 20, some 3⟩] ∧ KeyDetermines [⟨some 20, some 30, some 2⟩] ∧
    bruteForce [⟨some 1, some 10, some 5⟩, ⟨some 2, some 10, some 9⟩]
      [⟨some 10, some 20, some 3⟩] [⟨some 20, some 30, some 2⟩] [⟨some 30, some 40, some 1⟩] ≠ [] ∧
    ∃ p, dp_best_path id [⟨some 1, some 10, some 5⟩, ⟨some 2, some 10, some 9⟩]
        [⟨some 10, some 20, some 3⟩] [⟨some 20, some 30, some 2⟩] [⟨some 30, some 40, some 1⟩] 1 =
        Except.ok [p] ∧
      p ∈ bruteForce [⟨some 1, some 10, some 5⟩, ⟨some 2, some 10, some 9⟩]
        [⟨some 10, some 20, some 3⟩] [⟨some 20, some 30, some 2⟩] [⟨some 30, some 40, some 1⟩] ∧
      ∀ q ∈ bruteForce [⟨some 1, some 10, some 5⟩, ⟨some 2, some 10, some 9⟩]
        [⟨some 10, some 20, some 3⟩] [⟨some 20, some 30, some 2⟩] [⟨some 30, some 40, some 1⟩],
        q.sumW ≤ p.sumW :=
  ⟨fun l => List.Perm.refl l, by unfold WeightsInt32; decide, by unfold WeightsInt32; decide,
    by unfold WeightsInt32; decide, by unfold WeightsInt32; decide,
    by unfold KeyDetermines; decide, by unfold KeyDetermines; decide,
    by unfold KeyDetermines; decide, by decide,
    dp_best_path_max id (fun l => List.Perm.refl l) _ _ _ _
      (by unfold WeightsInt32; decide) (by unfold WeightsInt32; decide)
      (by unfold WeightsInt32; decide) (by unfold WeightsInt32; decide)
      (by unfold KeyDetermines; decide) (by unfold KeyDetermines; decide)
      (by unfold KeyDetermines; decide) (by decide)⟩

/-- C3. Every record returned by `dp_best_path` is a real path of the join:
there are rows `(A, B, W1)` in R, `(B, C, W2)` in S, `(C, D, W3)` in T and
`(D, E, W4)` in U, all without a null, with `sumW = W1 + W2 + W3 + W4` as an
exact integer (for 32-bit weights the 64-bit accumulator does not wrap). -/
theorem dp_best_path_real_paths (scan : HTAB → HTAB) (hs : IsScan scan) (R S T U : List Row)
    (K : Int) (hK : 0 < K) (hR : WeightsInt32 R) (hS : WeightsInt32 S) (hT : WeightsInt32 T)
    (hU : WeightsInt32 U) :
    ∃ res, dp_best_path scan R S T U K = Except.ok res ∧
      ∀ p ∈ res, ∃ w1 w2 w3 w4 : Int,
        (⟨some p.A, some p.B, some w1⟩ : Row) ∈ R ∧ (⟨some p.B, some p.C, some w2⟩ : Row) ∈ S ∧
        (⟨some p.C, some p.D, some w3⟩ : Row) ∈ T ∧ (⟨some p.D, some p.E, some w4⟩ : Row) ∈ U ∧
        p.sumW = w1 + w2 + w3 + w4 :=
  ⟨_, dp_best_path_ok scan R S T U K hK, fun p hp =>
    mem_bruteForce R S T U p
      ((dp_core_subperm scan hs _ (by omega) R S T U hR hS hT hU).subset hp)⟩

/-- C3, on relations with negative weights at the ends of the `int32` range
and a row with a null. -/
theorem dp_best_path_real_paths_witness :
    IsScan id ∧ (0 : Int) < 2 ∧
    WeightsInt32 [⟨some 1, some 10, some (-2147483648)⟩, ⟨some 2, some 10, some 2147483647⟩] ∧
    WeightsInt32 [⟨some 10, some 20, some (-2147483648)⟩, ⟨some 10, none, some 7⟩] ∧
    WeightsInt32 [⟨some 20, some 30, some (-2147483648)⟩] ∧
    WeightsInt32 [⟨some 30, some 40, some (-2147483648)⟩] ∧
    ∃ res, dp_best_path id
        [⟨some 1, some 10, some (-2147483648)⟩, ⟨some 2, some 10, some 2147483647⟩]
        [⟨some 10, some 20, some (-2147483648)⟩, ⟨some 10, none, some 7⟩]
        [⟨some 20, some 30, some (-2147483648)⟩] [⟨some 30, some 40, some (-2147483648)⟩] 2 =
        Except.ok res ∧
      ∀ p ∈ res, ∃ w1 w2 w3 w4 : Int,
        (⟨some p.A, some p.B, some w1⟩ : Row) ∈
          [⟨some 1, some 10, some (-2147483648)⟩, ⟨some 2, some 10, some 2147483647⟩] ∧
        (⟨some p.B, some p.C, some w2⟩ : Row) ∈
          [⟨some 10, some 20, some (-2147483648)⟩, ⟨some 10, none, some 7⟩] ∧
        (⟨some p.C, some p.D, some w3⟩ : Row) ∈ [⟨some 20, some 30, some (-2147483648)⟩] ∧
        (⟨some p.D, some p.E, some w4⟩ : Row) ∈ [⟨some 30, some 40, some (-2147483648)⟩] ∧
        p.sumW = w1 + w2 + w3 + w4 :=
  ⟨fun l => List.Perm.refl l, by decide, by unfold WeightsInt32; decide,
    by unfold WeightsInt32; decide, by unfold WeightsInt32; decide,
    by unfold WeightsInt32; decide,
    dp_best_path_real_paths id (fun l => List.Perm.refl l) _ _ _ _ 2 (by decide)
      (by unfold WeightsInt32; decide) (by unfold WeightsInt32; decide)
      (by unfold WeightsInt32; decide) (by unfold WeightsInt32; decide)⟩

/-- C4. Per-key pruning is lossless when all paths sharing a storage key get
the same extensions: for every `K > 0` and all relations (with 32-bit weights)
in which, among the rows without a null, every two R rows with the same A have
the same B, every two S rows with the same B have the same C and every two T
rows with the same C have the same D, the list of weights returned by
`dp_best_path` is the first `K` entries of the brute-force weights sorted in
descending order. -/
theorem dp_best_path_lossless (scan : HTAB → HTAB) (hs : IsScan scan) (R S T U : List Row)
    (K : Int) (hK : 0 < K) (hR : WeightsInt32 R) (hS : WeightsInt32 S) (hT : WeightsInt32 T)
    (hU : WeightsInt32 U) (fR : KeyDetermines R) (fS : KeyDetermines S)
    (fT : KeyDetermines T) :
    ∃ res, dp_best_path scan R S T U K = Except.ok res ∧
      weights res = (sortDesc (weights (bruteForce R S T U))).take K.toNat :=
  ⟨_, dp_best_path_ok scan R S T U K hK,
    dp_core_weights scan hs _ (by omega) R S T U hR hS hT hU fR fS fT⟩

/-- C4, on a many-to-many instance: two R rows and two S rows meet at B = 10,
two U rows leave D = 30, `K = 3`. -/
theorem dp_best_path_lossless_witness :
    IsScan id ∧ (0 : Int) < 3 ∧
    WeightsInt32 [⟨some 1, some 10, some 5⟩, ⟨some 2, some 10, some 9⟩] ∧
    WeightsInt32 [⟨some 10, some 20, some 3⟩, ⟨some 10, some 20, some (-4)⟩] ∧
    WeightsInt32 [⟨some 20, some 30, some 2⟩] ∧
    WeightsInt32 [⟨some 30, some 40, some 1⟩, ⟨some 30, some 41, some 6⟩] ∧
    KeyDetermines [⟨some 1, some 10, some 5⟩, ⟨some 2, some 10, some 9⟩] ∧
    KeyDetermines [⟨some 10, some 20, some 3⟩, ⟨some 10, some 20, some (-4)⟩] ∧
    KeyDetermines [⟨some 20, some 30, some 2⟩] ∧
    ∃ res, dp_best_path id [⟨some 1, some 10, some 5⟩, ⟨some 2, some 10, some 9⟩]
        [⟨some 10, some 20, some 3⟩, ⟨some 10, some 20, some (-4)⟩] [⟨some 20, some 30, some 2⟩]
        [⟨some 30, some 40, some 1⟩, ⟨some 30, some 41, some 6⟩] 3 = Except.ok res ∧
      weights res = (sortDesc (weights (bruteForce
        [⟨some 1, some 10, some 5⟩, ⟨some 2, some 10, some 9⟩]
        [⟨some 10, some 20, some 3⟩, ⟨some 10, some 20, some (-4)⟩] [⟨some 20, some 30, some 2⟩]
        [⟨some 30, some 40, some 1⟩, ⟨some 30, some 41, some 6⟩]))).take (3 : Int).toNat :=
  ⟨fun l => List.Perm.refl l, by decide, by unfold WeightsInt32; decide,
    by unfold WeightsInt32; decide, by unfold WeightsInt32; decide,
    by unfold WeightsInt32; decide, by unfold KeyDetermines; decide,
    by unfold KeyDetermines; decide, by unfold KeyDetermines; decide,
    dp_best_path_lossless id (fun l => List.Perm.refl l) _ _ _ _ 3 (by decide)
      (by unfold WeightsInt32; decide) (by unfold WeightsInt32; decide)
      (by unfold WeightsInt32; decide) (by unfold WeightsInt32; decide)
      (by unfold KeyDetermines; decide) (by unfold KeyDetermines; decide)
      (by unfold KeyDetermines; decide)⟩

/-! ## Nulls, arguments, empty relations, layers, steps: claims -/

/-- C11. Rows with a null are skipped silently: for every `K > 0` and all
relations, `dp_best_path` returns, without error, the same result as on the
relations from which every row with a null key, null next field or null
weight has been deleted. -/
theorem dp_best_path_skips_nulls (scan : HTAB → HTAB) (R S T U : List Row) (K : Int)
    (hK : 0 < K) :
    ∃ res, dp_best_path scan R S T U K = Except.ok res ∧
      dp_best_path scan (drop_nulls R) (drop_nulls S) (drop_nulls T) (drop_nulls U) K =
        Except.ok res := by
  refine ⟨_, dp_best_path_ok scan R S T U K hK, ?_⟩
  rw [dp_best_path_ok _ _ _ _ _ K hK, dp_core_drop_nulls]

/-- C11, on the fifth scenario of the specification: a row of S with a null C. -/
theorem dp_best_path_skips_nulls_witness :
    (0 : Int) < 2 ∧
    ∃ res, dp_best_path id [⟨some 1, some 10, some 5⟩, ⟨none, some 10, some 9⟩]
        [⟨some 10, none, some 3⟩, ⟨some 10, some 20, some 3⟩] [⟨some 20, some 30, none⟩,
          ⟨some 20, some 30, some 2⟩] [⟨some 30, some 40, some 1⟩] 2 = Except.ok res ∧
      dp_best_path id (drop_nulls [⟨some 1, some 10, some 5⟩, ⟨none, some 10, some 9⟩])
        (drop_nulls [⟨some 10, none, some 3⟩, ⟨some 10, some 20, some 3⟩])
        (drop_nulls [⟨some 20, some 30, none⟩, ⟨some 20, some 30, some 2⟩])
        (drop_nulls [⟨some 30, some 40, some 1⟩]) 2 = Except.ok res :=
  ⟨by decide, dp_best_path_skips_nulls id _ _ _ _ 2 (by decide)⟩

/-- C12. `dp_best_path` fails with the invalid-argument error exactly when
`K ≤ 0`: for `K ≤ 0` the run ends with that error and without any effect (no
relation read, no row emitted), whether or not the relations could be read;
for `K > 0` and readable relations it returns a result sequence. -/
theorem dp_best_path_invalid_argument (scan : HTAB → HTAB) (R S T U : List Row) (K : Int) :
    (K ≤ 0 → ∀ r s t u : Option (List Row),
      dp_best_path_run scan r s t u K = ([], Except.error "K positive")) ∧
    (0 < K → ∃ res,
      (dp_best_path_run scan (some R) (some S) (some T) (some U) K).2 = Except.ok res) ∧
    (dp_best_path_run scan (some R) (some S) (some T) (some U) K).2 =
      dp_best_path scan R S T U K ∧
    ((∃ msg, dp_best_path scan R S T U K = Except.error msg) ↔ K ≤ 0) := by
  refine ⟨fun hK r s t u => dp_best_path_run_nonpos scan r s t u K hK, fun hK => ?_,
    dp_best_path_run_snd scan R S T U K, ?_⟩
  · exact ⟨_, by rw [dp_best_path_run_ok scan R S T U K hK]⟩
  · constructor
    · rintro ⟨msg, h⟩
      by_contra hcon
      rw [dp_best_path_ok scan R S T U K (by omega)] at h
      cases h
    · intro hK
      refine ⟨"K positive", ?_⟩
      unfold dp_best_path
      rw [if_pos hK]

/-- C13. For every `K > 0`, if at least one of the relations has no rows,
`dp_best_path` returns the empty sequence, without error. -/
theorem dp_best_path_empty_relation (scan : HTAB → HTAB) (hs : IsScan scan)
    (R S T U : List Row) (K : Int) (hK : 0 < K) (h : R = [] ∨ S = [] ∨ T = [] ∨ U = []) :
    dp_best_path scan R S T U K = Except.ok [] := by
  rw [dp_best_path_ok scan R S T U K hK, dp_core_of_empty scan hs _ R S T U h]

/-- C13, with an empty T. -/
theorem dp_best_path_empty_relation_witness :
    IsScan id ∧ (0 : Int) < 3 ∧
    (([⟨some 1, some 10, some 5⟩] : List Row) = [] ∨ ([⟨some 10, some 20, some 3⟩] : List Row) = [] ∨
      ([] : List Row) = [] ∨ ([⟨some 30, some 40, some 1⟩] : List Row) = []) ∧
    dp_best_path id [⟨some 1, some 10, some 5⟩] [⟨some 10, some 20, some 3⟩] []
      [⟨some 30, some 40, some 1⟩] 3 = Except.ok [] :=
  ⟨fun l => List.Perm.refl l, by decide, Or.inr (Or.inr (Or.inl rfl)),
    dp_best_path_empty_relation id (fun l => List.Perm.refl l) _ _ _ _ 3 (by decide)
      (Or.inr (Or.inr (Or.inl rfl)))⟩

/-- C16, the run of the first scenario of the specification with `K = 1`.
When `LayerS` is created, `LayerR`, `LayerRS` and `LayerS` are alive: three
layers; `LayerR`, whose only reader is the regrouping into `LayerRS`, is still
alive when the last result row has been emitted, together with `LayerU`. -/
theorem dp_best_path_three_layers_alive :
    max_live (dp_best_path_run id (some [⟨some 1, some 10, some 5⟩])
      (some [⟨some 10, some 20, some 3⟩]) (some [⟨some 20, some 30, some 2⟩])
      (some [⟨some 30, some 40, some 1⟩]) 1).1 = 3 ∧
    live_layers ((dp_best_path_run id (some [⟨some 1, some 10, some 5⟩])
      (some [⟨some 10, some 20, some 3⟩]) (some [⟨some 20, some 30, some 2⟩])
      (some [⟨some 30, some 40, some 1⟩]) 1).1.take 5) =
      [Layer.LayerR, Layer.LayerRS, Layer.LayerS] ∧
    live_layers ((dp_best_path_run id (some [⟨some 1, some 10, some 5⟩])
      (some [⟨some 10, some 20, some 3⟩]) (some [⟨some 20, some 30, some 2⟩])
      (some [⟨some 30, some 40, some 1⟩]) 1).1.take 21) = [Layer.LayerR, Layer.LayerU] ∧
    (dp_best_path_run id (some [⟨some 1, some 10, some 5⟩])
      (some [⟨some 10, some 20, some 3⟩]) (some [⟨some 20, some 30, some 2⟩])
      (some [⟨some 30, some 40, some 1⟩]) 1).1.drop 20 =
      [Event.tuplestore_putvalues ⟨1, 10, 20, 30, 40, 11⟩,
        Event.hash_destroy Layer.LayerR, Event.hash_destroy Layer.LayerU] := by
  decide

/-- C19. Heap invariant: for every `K > 0` and every non-empty sequence of
calls of `insert_path_topk` on a fresh entry, the array has `K` slots,
`0 < n_paths ≤ K = k_limit`, every slot `i` with `0 < i < n_paths` is at least
as heavy as slot `(i - 1) / 2`, and slot 0 carries the smallest retained
weight. -/
theorem insert_path_topk_heap_invariant (k : Nat) (hk : 0 < k) (key : Int)
    (xs : List PathState) (hne : xs ≠ []) :
    ∃ arr, (insert_all k (fresh_entry key) xs).paths = some arr ∧ arr.length = k ∧
      0 < (insert_all k (fresh_entry key) xs).n_paths ∧
      (insert_all k (fresh_entry key) xs).n_paths ≤ k ∧
      (insert_all k (fresh_entry key) xs).k_limit = k ∧
      (∀ i, 0 < i → i < (insert_all k (fresh_entry key) xs).n_paths →
        (rd arr ((i - 1) / 2)).sumW ≤ (rd arr i).sumW) ∧
      (∀ q ∈ entry_paths (insert_all k (fresh_entry key) xs), (rd arr 0).sumW ≤ q.sumW) := by
  obtain ⟨arr, h1, h2, h3, h4, h5, h6⟩ := (insert_all_fresh k hk key xs).2.1 hne
  refine ⟨arr, h1, h2, h3, h4, h5, h6, fun q hq => ?_⟩
  simp only [entry_paths, h1, Option.getD_some] at hq
  obtain ⟨j, hj, rfl⟩ := mem_take_rd arr _ (by omega) q hq
  exact h6.root_le j hj

/-- C19, at `K = 3` after the weights 5, 9, 6, 2, 7. -/
theorem insert_path_topk_heap_invariant_witness :
    0 < 3 ∧
    ([⟨1, 0, 0, 0, 0, 5⟩, ⟨2, 0, 0, 0, 0, 9⟩, ⟨3, 0, 0, 0, 0, 6⟩, ⟨4, 0, 0, 0, 0, 2⟩,
      ⟨5, 0, 0, 0, 0, 7⟩] : List PathState) ≠ [] ∧
    ∃ arr, (insert_all 3 (fresh_entry 0) [⟨1, 0, 0, 0, 0, 5⟩, ⟨2, 0, 0, 0, 0, 9⟩,
        ⟨3, 0, 0, 0, 0, 6⟩, ⟨4, 0, 0, 0, 0, 2⟩, ⟨5, 0, 0, 0, 0, 7⟩]).paths = some arr ∧
      arr.length = 3 ∧
      0 < (insert_all 3 (fresh_entry 0) [⟨1, 0, 0, 0, 0, 5⟩, ⟨2, 0, 0, 0, 0, 9⟩,
        ⟨3, 0, 0, 0, 0, 6⟩, ⟨4, 0, 0, 0, 0, 2⟩, ⟨5, 0, 0, 0, 0, 7⟩]).n_paths ∧
      (insert_all 3 (fresh_entry 0) [⟨1, 0, 0, 0, 0, 5⟩, ⟨2, 0, 0, 0, 0, 9⟩,
        ⟨3, 0, 0, 0, 0, 6⟩, ⟨4, 0, 0, 0, 0, 2⟩, ⟨5, 0, 0, 0, 0, 7⟩]).n_paths ≤ 3 ∧
      (insert_all 3 (fresh_entry 0) [⟨1, 0, 0, 0, 0, 5⟩, ⟨2, 0, 0, 0, 0, 9⟩,
        ⟨3, 0, 0, 0, 0, 6⟩, ⟨4, 0, 0, 0, 0, 2⟩, ⟨5, 0, 0, 0, 0, 7⟩]).k_limit = 3 ∧
      (∀ i, 0 < i → i < (insert_all 3 (fresh_entry 0) [⟨1, 0, 0, 0, 0, 5⟩, ⟨2, 0, 0, 0, 0, 9⟩,
        ⟨3, 0, 0, 0, 0, 6⟩, ⟨4, 0, 0, 0, 0, 2⟩, ⟨5, 0, 0, 0, 0, 7⟩]).n_paths →
        (rd arr ((i - 1) / 2)).sumW ≤ (rd arr i).sumW) ∧
      (∀ q ∈ entry_paths (insert_all 3 (fresh_entry 0) [⟨1, 0, 0, 0, 0, 5⟩, ⟨2, 0, 0, 0, 0, 9⟩,
        ⟨3, 0, 0, 0, 0, 6⟩, ⟨4, 0, 0, 0, 0, 2⟩, ⟨5, 0, 0, 0, 0, 7⟩]), (rd arr 0).sumW ≤ q.sumW) :=
  ⟨by decide, by decide, insert_path_topk_heap_invariant 3 (by decide) 0 _ (by decide)⟩

/-- C20. For every `K > 0` and every content of R, S, T, U, the sequence
returned by `dp_best_path` is ordered by non-increasing weight, and after
every step of the merge loop (after any number `n` of scanned paths) the
filled part of `global_topk` is in that order. -/
theorem global_topk_ordered (scan : HTAB → HTAB) (R S T U : List Row) (K : Int) (hK : 0 < K) :
    (∃ res, dp_best_path scan R S T U K = Except.ok res ∧
      List.Chain' (fun a b : PathState => a.sumW ≥ b.sumW) res) ∧
    ∀ (scanned : List PathState) (n : Nat),
      List.Chain' (fun a b : PathState => a.sumW ≥ b.sumW)
        ((global_run K.toNat (scanned.take n)).global_topk.take
          (global_run K.toNat (scanned.take n)).global_count) := by
  have hsorted : ∀ xs : List PathState,
      List.Chain' (fun a b : PathState => a.sumW ≥ b.sumW) ((stableSortDesc xs).take K.toNat) :=
    fun xs => List.Pairwise.chain'
      ((stableSortDesc_sorted xs).sublist (List.take_sublist _ _))
  constructor
  · refine ⟨_, dp_best_path_ok scan R S T U K hK, ?_⟩
    rw [dp_core_eq, global_merge_eq _ (by omega)]
    exact hsorted _
  · intro scanned n
    rw [(global_run_inv K.toNat (by omega) (scanned.take n)).2.2]
    exact hsorted _

/-- C20, on a run with a tie and on a merge of five paths stopped after
three. -/
theorem global_topk_ordered_witness :
    (0 : Int) < 2 ∧
    (∃ res, dp_best_path id [⟨some 1, some 10, some 5⟩] [⟨some 10, some 20, some 3⟩]
        [⟨some 20, some 30, some 2⟩] [⟨some 30, some 40, some 1⟩, ⟨some 30, some 41, some 1⟩] 2
        = Except.ok res ∧ List.Chain' (fun a b : PathState => a.sumW ≥ b.sumW) res) ∧
    ∀ (scanned : List PathState) (n : Nat),
      List.Chain' (fun a b : PathState => a.sumW ≥ b.sumW)
        ((global_run (2 : Int).toNat (scanned.take n)).global_topk.take
          (global_run (2 : Int).toNat (scanned.take n)).global_count) :=
  ⟨by decide, global_topk_ordered id _ _ _ _ 2 (by decide)⟩

/-- C17. Regrouping step, for every content layer and `K > 0`: every path
stored in the produced join layer occurs in the content layer (all fields and
the weight unchanged) and has its join field equal to the key it is stored
under; an entry of the join layer is what a lookup of its key finds; and for
every key `x` the weights stored under `x` are the `min K n` greatest weights
among the `n` paths of the content layer whose join field is `x`.  The content
layer is an argument that the step only reads. -/
theorem rekey_step (scan : HTAB → HTAB) (hs : IsScan scan) (k : Nat) (hk : 0 < k)
    (field : PathState → Int) (content : HTAB) :
    (∀ e ∈ rekey scan k field content, ∀ p ∈ entry_paths e,
      p ∈ contents content ∧ field p = e.key) ∧
    (∀ e ∈ rekey scan k field content,
      entry_paths e = pathsAt (rekey scan k field content) e.key) ∧
    (∀ x, (pathsAt (rekey scan k field content) x).length =
        min k ((contents content).filter (fun p => decide (field p = x))).length ∧
      Multiset.ofList (weights (pathsAt (rekey scan k field content) x)) =
        Multiset.ofList ((sortDesc (weights
          ((contents content).filter (fun p => decide (field p = x))))).take
            (min k ((contents content).filter (fun p => decide (field p = x))).length))) := by
  obtain ⟨b1, b2, b3, _⟩ := build_spec k hk (rekey_stream scan field content)
  rw [← rekey_eq_build] at b1 b2 b3
  have hsel : ∀ x, (sel (rekey_stream scan field content) x).Perm
      ((contents content).filter (fun p => decide (field p = x))) := fun x => by
    rw [sel_rekey_stream]
    exact (scan_paths_perm scan hs content).filter _
  refine ⟨fun e he p hp => ?_, fun e he => (pathsAt_of_mem b1.2 he).symm, fun x => ⟨?_, ?_⟩⟩
  · rw [← pathsAt_of_mem b1.2 he] at hp
    have hmem := (hsel e.key).subset ((b3 e.key).subset hp)
    obtain ⟨h1, h2⟩ := List.mem_filter.mp hmem
    exact ⟨h1, by simpa using h2⟩
  · rw [(b2 x).1, (hsel x).length_eq]
  · rw [Multiset.coe_eq_coe]
    have hw : (weights (sel (rekey_stream scan field content) x)).Perm
        (weights ((contents content).filter (fun p => decide (field p = x)))) :=
      (hsel x).map _
    rw [take_min_length k _ _ (by
      rw [(sortDesc_perm _).length_eq]; simp [weights]), ← sortDesc_congr hw]
    exact (b2 x).weights_perm

/-- C17, regrouping by B a content layer with two entries whose three paths
all have B = 10, with `K = 2`. -/
theorem rekey_step_witness :
    IsScan id ∧ 0 < 2 ∧
    (∀ e ∈ rekey id 2 (fun p => p.B) (seed_layer 2 [⟨some 1, some 10, some 5⟩,
        ⟨some 2, some 10, some 9⟩, ⟨some 2, some 10, some 7⟩]), ∀ p ∈ entry_paths e,
      p ∈ contents (seed_layer 2 [⟨some 1, some 10, some 5⟩, ⟨some 2, some 10, some 9⟩,
        ⟨some 2, some 10, some 7⟩]) ∧ (fun p : PathState => p.B) p = e.key) ∧
    (∀ e ∈ rekey id 2 (fun p => p.B) (seed_layer 2 [⟨some 1, some 10, some 5⟩,
        ⟨some 2, some 10, some 9⟩, ⟨some 2, some 10, some 7⟩]),
      entry_paths e = pathsAt (rekey id 2 (fun p => p.B) (seed_layer 2
        [⟨some 1, some 10, some 5⟩, ⟨some 2, some 10, some 9⟩, ⟨some 2, some 10, some 7⟩])) e.key) ∧
    (∀ x, (pathsAt (rekey id 2 (fun p => p.B) (seed_layer 2 [⟨some 1, some 10, some 5⟩,
        ⟨some 2, some 10, some 9⟩, ⟨some 2, some 10, some 7⟩])) x).length =
        min 2 ((contents (seed_layer 2 [⟨some 1, some 10, some 5⟩, ⟨some 2, some 10, some 9⟩,
          ⟨some 2, some 10, some 7⟩])).filter
            (fun p => decide ((fun p : PathState => p.B) p = x))).length ∧
      Multiset.ofList (weights (pathsAt (rekey id 2 (fun p => p.B) (seed_layer 2
        [⟨some 1, some 10, some 5⟩, ⟨some 2, some 10, some 9⟩, ⟨some 2, some 10, some 7⟩])) x)) =
        Multiset.ofList ((sortDesc (weights
          ((contents (seed_layer 2 [⟨some 1, some 10, some 5⟩, ⟨some 2, some 10, some 9⟩,
            ⟨some 2, some 10, some 7⟩])).filter
              (fun p => decide ((fun p : PathState => p.B) p = x))))).take
            (min 2 ((contents (seed_layer 2 [⟨some 1, some 10, some 5⟩,
              ⟨some 2, some 10, some 9⟩, ⟨some 2, some 10, some 7⟩])).filter
                (fun p => decide ((fun p : PathState => p.B) p = x))).length))) :=
  ⟨fun l => List.Perm.refl l, by decide,
    rekey_step id (fun l => List.Perm.refl l) 2 (by decide) (fun p => p.B) _⟩

/-- C18. Extension step, for every join layer, edge rows and `K > 0`, with
`setField` one of the three setters of the program: a row whose key is not in
the join layer adds nothing; every path of the new content layer is stored
under the lookup key of a row `(key, v, w)` without a null and is a copy of a
path found in the join layer under that key, in which only the new field has
been set to `v` and the weight has become the 64-bit sum of the old weight and
`w` (the exact sum when it fits in 64 bits).  The join layer is an argument
that the step only reads. -/
theorem extend_step (k : Nat) (hk : 0 < k) (setField : PathState → Int → PathState)
    (hsf : setField = setC ∨ setField = setD ∨ setField = setE) (join : HTAB)
    (rows : List Row) :
    (∀ rows1 rows2 key v w, rows = rows1 ++ ⟨some key, some v, some w⟩ :: rows2 →
      hash_find join key = none →
      extend k setField join rows = extend k setField join (rows1 ++ rows2)) ∧
    (∀ e ∈ extend k setField join rows, ∀ q ∈ entry_paths e,
      ∃ v w, (⟨some e.key, some v, some w⟩ : Row) ∈ rows ∧
        ∃ p ∈ pathsAt join e.key,
          q = { setField p v with sumW := wrapInt64 (p.sumW + w) } ∧
          q.A = p.A ∧ q.B = p.B ∧
          (setField = setC → q.C = v ∧ q.D = p.D ∧ q.E = p.E) ∧
          (setField = setD → q.C = p.C ∧ q.D = v ∧ q.E = p.E) ∧
          (setField = setE → q.C = p.C ∧ q.D = p.D ∧ q.E = v) ∧
          (-2 ^ 63 ≤ p.sumW + w → p.sumW + w < 2 ^ 63 → q.sumW = p.sumW + w)) := by
  constructor
  · intro rows1 rows2 key v w hrows hfind
    rw [hrows]
    exact extend_skip_absent k setField join rows1 rows2 key v w hfind
  · intro e he q hq
    obtain ⟨b1, _, b3, _⟩ := build_spec k hk (extend_stream setField join rows)
    rw [← extend_eq_build] at b1 b3
    rw [← pathsAt_of_mem b1.2 he] at hq
    obtain ⟨v, w, hrow, p, hp, hqp⟩ := mem_extend_stream (mem_sel ((b3 e.key).subset hq))
    refine ⟨v, w, hrow, p, hp, ?_⟩
    rcases hsf with h | h | h <;> subst h <;> subst hqp <;>
      refine ⟨rfl, rfl, rfl, ?_, ?_, ?_, ?_⟩ <;>
      first
        | (intro _; exact ⟨rfl, rfl, rfl⟩)
        | (intro h; exact absurd (congrFun (congrFun h zeroPath) 1) (by decide))
        | (intro h1 h2; exact wrapInt64_eq _ h1 h2)

/-- C18, extending by S (setter of C) a join layer with the key 10 only, with
`K = 2`; the row with key 11 finds nothing. -/
theorem extend_step_witness :
    0 < 2 ∧ (setC = setC ∨ setC = setD ∨ setC = setE) ∧
    (∀ rows1 rows2 key v w,
      ([⟨some 10, some 20, some 3⟩, ⟨some 11, some 21, some 4⟩] : List Row) =
        rows1 ++ ⟨some key, some v, some w⟩ :: rows2 →
      hash_find (rekey id 2 (fun p => p.B) (seed_layer 2 [⟨some 1, some 10, some 5⟩])) key = none →
      extend 2 setC (rekey id 2 (fun p => p.B) (seed_layer 2 [⟨some 1, some 10, some 5⟩]))
          [⟨some 10, some 20, some 3⟩, ⟨some 11, some 21, some 4⟩] =
        extend 2 setC (rekey id 2 (fun p => p.B) (seed_layer 2 [⟨some 1, some 10, some 5⟩]))
          (rows1 ++ rows2)) ∧
    (∀ e ∈ extend 2 setC (rekey id 2 (fun p => p.B) (seed_layer 2 [⟨some 1, some 10, some 5⟩]))
        [⟨some 10, some 20, some 3⟩, ⟨some 11, some 21, some 4⟩], ∀ q ∈ entry_paths e,
      ∃ v w, (⟨some e.key, some v, some w⟩ : Row) ∈
          ([⟨some 10, some 20, some 3⟩, ⟨some 11, some 21, some 4⟩] : List Row) ∧
        ∃ p ∈ pathsAt (rekey id 2 (fun p => p.B) (seed_layer 2 [⟨some 1, some 10, some 5⟩])) e.key,
          q = { setC p v with sumW := wrapInt64 (p.sumW + w) } ∧
          q.A = p.A ∧ q.B = p.B ∧
          (setC = setC → q.C = v ∧ q.D = p.D ∧ q.E = p.E) ∧
          (setC = setD → q.C = p.C ∧ q.D = v ∧ q.E = p.E) ∧
          (setC = setE → q.C = p.C ∧ q.D = p.D ∧ q.E = v) ∧
          (-2 ^ 63 ≤ p.sumW + w → p.sumW + w < 2 ^ 63 → q.sumW = p.sumW + w)) :=
  ⟨by decide, Or.inl rfl, extend_step 2 (by decide) setC (Or.inl rfl) _ _⟩

/-- C15. When `K` is not binding, every path is returned: for every `K > 0`
and all relations (with 32-bit weights) such that `K` is at least the number
of rows of R, of paths of R-S, of paths of R-S-T and of full paths (over the
rows without a null), `dp_best_path` returns exactly the multiset of all full
join paths, each with `sumW = W1 + W2 + W3 + W4`, ordered by non-increasing
weight. -/
theorem dp_best_path_all_paths (scan : HTAB → HTAB) (hs : IsScan scan) (R S T U : List Row)
    (K : Int) (hK : 0 < K) (hR : WeightsInt32 R) (hS : WeightsInt32 S) (hT : WeightsInt32 T)
    (hU : WeightsInt32 U) (n1 : ((validRows R).length : Int) ≤ K)
    (n2 : ((all_S R S).length : Int) ≤ K) (n3 : ((all_T R S T).length : Int) ≤ K)
    (n4 : ((bruteForce R S T U).length : Int) ≤ K) :
    ∃ res, dp_best_path scan R S T U K = Except.ok res ∧
      res.Perm (bruteForce R S T U) ∧ res.Pairwise (fun a b => a.sumW ≥ b.sumW) := by
  refine ⟨_, dp_best_path_ok scan R S T U K hK, ?_, ?_⟩
  · apply dp_core_perm scan hs _ (by omega) R S T U hR hS hT hU
    · simp only [all_R, List.length_map]; omega
    · omega
    · omega
    · rw [all_U_eq_bruteForce]; omega
  · rw [dp_core_eq, global_merge_eq _ (by omega)]
    exact (stableSortDesc_sorted _).sublist (List.take_sublist _ _)

/-- C15, on the third scenario of the specification: two paths, `K = 2`. -/
theorem dp_best_path_all_paths_witness :
    IsScan id ∧ (0 : Int) < 2 ∧
    WeightsInt32 [⟨some 1, some 10, some 5⟩, ⟨some 2, some 10, some 9⟩] ∧
    WeightsInt32 [⟨some 10, some 20, some 3⟩] ∧ WeightsInt32 [⟨some 20, some 30, some 2⟩] ∧
    WeightsInt32 [⟨some 30, some 40, some 1⟩] ∧
    ((validRows [⟨some 1, some 10, some 5⟩, ⟨some 2, some 10, some 9⟩]).length : Int) ≤ 2 ∧
    ((all_S [⟨some 1, some 10, some 5⟩, ⟨some 2, some 10, some 9⟩]
      [⟨some 10, some 20, some 3⟩]).length : Int) ≤ 2 ∧
    ((all_T [⟨some 1, some 10, some 5⟩, ⟨some 2, some 10, some 9⟩]
      [⟨some 10, some 20, some 3⟩] [⟨some 20, some 30, some 2⟩]).length : Int) ≤ 2 ∧
    ((bruteForce [⟨some 1, some 10, some 5⟩, ⟨some 2, some 10, some 9⟩]
      [⟨some 10, some 20, some 3⟩] [⟨some 20, some 30, some 2⟩]
      [⟨some 30, some 40, some 1⟩]).length : Int) ≤ 2 ∧
    ∃ res, dp_best_path id [⟨some 1, some 10, some 5⟩, ⟨some 2, some 10, some 9⟩]
        [⟨some 10, some 20, some 3⟩] [⟨some 20, some 30, some 2⟩] [⟨some 30, some 40, some 1⟩] 2 =
        Except.ok res ∧
      res.Perm (bruteForce [⟨some 1, some 10, some 5⟩, ⟨some 2, some 10, some 9⟩]
        [⟨some 10, some 20, some 3⟩] [⟨some 20, some 30, some 2⟩] [⟨some 30, some 40, some 1⟩]) ∧
      res.Pairwise (fun a b => a.sumW ≥ b.sumW) :=
  ⟨fun l => List.Perm.refl l, by decide, by unfold WeightsInt32; decide,
    by unfold WeightsInt32; decide, by unfold WeightsInt32; decide,
    by unfold WeightsInt32; decide, by decide, by decide, by decide, by decide,
    dp_best_path_all_paths id (fun l => List.Perm.refl l) _ _ _ _ 2 (by decide)
      (by unfold WeightsInt32; decide) (by unfold WeightsInt32; decide)
      (by unfold WeightsInt32; decide) (by unfold WeightsInt32; decide)
      (by decide) (by decide) (by decide) (by decide)⟩

/-- C14, counterexample. With R = [(1,10,5)], S = [(10,20,9), (10,21,1)],
T = [(21,30,2)], U = [(30,40,1)] and `K = 1`, whatever the scan order of the
hash tables, `dp_best_path` returns nothing: `layer_S` keeps under the key
B = 10 only the extension to C = 20, which no row of T continues.  The variant
with flat content layers keeps both extensions and returns the path
(1,10,21,30,40) of weight 9. -/
theorem dp_best_path_flat_variant_counterexample :
    (∀ scan, IsScan scan →
      dp_best_path scan [⟨some 1, some 10, some 5⟩]
        [⟨some 10, some 20, some 9⟩, ⟨some 10, some 21, some 1⟩] [⟨some 21, some 30, some 2⟩]
        [⟨some 30, some 40, some 1⟩] 1 = Except.ok []) ∧
    dp_flat_variant 1 [⟨some 1, some 10, some 5⟩]
        [⟨some 10, some 20, some 9⟩, ⟨some 10, some 21, some 1⟩] [⟨some 21, some 30, some 2⟩]
        [⟨some 30, some 40, some 1⟩] = [⟨1, 10, 21, 30, 40, 9⟩] := by
  refine ⟨fun scan hs => ?_, by decide⟩
  rw [dp_best_path_ok _ _ _ _ _ _ (by decide), dp_core_eq]
  have h1 : seed_layer (1 : Int).toNat [⟨some 1, some 10, some 5⟩] =
      [⟨1, 1, 1, some [⟨1, 10, 0, 0, 0, 5⟩]⟩] := by decide
  rw [h1]
  have h2 : rekey scan (1 : Int).toNat (fun p => p.B) [⟨1, 1, 1, some [⟨1, 10, 0, 0, 0, 5⟩]⟩] =
      [⟨10, 1, 1, some [⟨1, 10, 0, 0, 0, 5⟩]⟩] := by
    rw [rekey, scan_paths_singleton scan hs]; decide
  rw [h2]
  have h3 : extend (1 : Int).toNat setC [⟨10, 1, 1, some [⟨1, 10, 0, 0, 0, 5⟩]⟩]
      [⟨some 10, some 20, some 9⟩, ⟨some 10, some 21, some 1⟩] =
      [⟨10, 1, 1, some [⟨1, 10, 20, 0, 0, 14⟩]⟩] := by decide
  rw [h3]
  have h4 : rekey scan (1 : Int).toNat (fun p => p.C) [⟨10, 1, 1, some [⟨1, 10, 20, 0, 0, 14⟩]⟩] =
      [⟨20, 1, 1, some [⟨1, 10, 20, 0, 0, 14⟩]⟩] := by
    rw [rekey, scan_paths_singleton scan hs]; decide
  rw [h4]
  have h5 : extend (1 : Int).toNat setD [⟨20, 1, 1, some [⟨1, 10, 20, 0, 0, 14⟩]⟩]
      [⟨some 21, some 30, some 2⟩] = [] := by decide
  rw [h5, rekey_nil scan hs, extend_nil_join, scan_paths_nil scan hs, global_merge_nil]

/-- C14, as the code has it. For every `K > 0` and all relations (with 32-bit
weights), the variant with flat content layers returns the top-K brute-force
weights, and `dp_best_path` returns the same list of weights as that variant
whenever, among the rows without a null, A determines B in R, B determines C
in S and C determines D in T. -/
theorem dp_best_path_flat_variant (scan : HTAB → HTAB) (hs : IsScan scan) (R S T U : List Row)
    (K : Int) (hK : 0 < K) (hR : WeightsInt32 R) (hS : WeightsInt32 S) (hT : WeightsInt32 T)
    (hU : WeightsInt32 U) :
    ∃ res, dp_best_path scan R S T U K = Except.ok res ∧
      weights (dp_flat_variant K.toNat R S T U) =
        (sortDesc (weights (bruteForce R S T U))).take K.toNat ∧
      (KeyDetermines R → KeyDetermines S → KeyDetermines T →
        weights res = weights (dp_flat_variant K.toNat R S T U)) := by
  have hflat := dp_flat_variant_weights K.toNat (by omega) R S T U hR hS hT hU
  refine ⟨_, dp_best_path_ok scan R S T U K hK, hflat, fun fR fS fT => ?_⟩
  rw [hflat]
  exact dp_core_weights scan hs _ (by omega) R S T U hR hS hT hU fR fS fT

/-- C14 as the code has it, on a many-to-many instance with `K = 2`. -/
theorem dp_best_path_flat_variant_witness :
    IsScan id ∧ (0 : Int) < 2 ∧
    WeightsInt32 [⟨some 1, some 10, some 5⟩, ⟨some 2, some 10, some 9⟩] ∧
    WeightsInt32 [⟨some 10, some 20, some 3⟩, ⟨some 10, some 20, some (-4)⟩] ∧
    WeightsInt32 [⟨some 20, some 30, some 2⟩] ∧
    WeightsInt32 [⟨some 30, some 40, some 1⟩, ⟨some 30, some 41, some 6⟩] ∧
    ∃ res, dp_best_path id [⟨some 1, some 10, some 5⟩, ⟨some 2, some 10, some 9⟩]
        [⟨some 10, some 20, some 3⟩, ⟨some 10, some 20, some (-4)⟩] [⟨some 20, some 30, some 2⟩]
        [⟨some 30, some 40, some 1⟩, ⟨some 30, some 41, some 6⟩] 2 = Except.ok res ∧
      weights (dp_flat_variant (2 : Int).toNat
        [⟨some 1, some 10, some 5⟩, ⟨some 2, some 10, some 9⟩]
        [⟨some 10, some 20, some 3⟩, ⟨some 10, some 20, some (-4)⟩] [⟨some 20, some 30, some 2⟩]
        [⟨some 30, some 40, some 1⟩, ⟨some 30, some 41, some 6⟩]) =
        (sortDesc (weights (bruteForce [⟨some 1, some 10, some 5⟩, ⟨some 2, some 10, some 9⟩]
          [⟨some 10, some 20, some 3⟩, ⟨some 10, some 20, some (-4)⟩]
          [⟨some 20, some 30, some 2⟩]
          [⟨some 30, some 40, some 1⟩, ⟨some 30, some 41, some 6⟩]))).take (2 : Int).toNat ∧
      (KeyDetermines [⟨some 1, some 10, some 5⟩, ⟨some 2, some 10, some 9⟩] →
        KeyDetermines [⟨some 10, some 20, some 3⟩, ⟨some 10, some 20, some (-4)⟩] →
        KeyDetermines [⟨some 20, some 30, some 2⟩] →
        weights res = weights (dp_flat_variant (2 : Int).toNat
          [⟨some 1, some 10, some 5⟩, ⟨some 2, some 10, some 9⟩]
          [⟨some 10, some 20, some 3⟩, ⟨some 10, some 20, some (-4)⟩]
          [⟨some 20, some 30, some 2⟩]
          [⟨some 30, some 40, some 1⟩, ⟨some 30, some 41, some 6⟩])) :=
  ⟨fun l => List.Perm.refl l, by decide, by unfold WeightsInt32; decide,
    by unfold WeightsInt32; decide, by unfold WeightsInt32; decide,
    by unfold WeightsInt32; decide,
    dp_best_path_flat_variant id (fun l => List.Perm.refl l) _ _ _ _ 2 (by decide)
      (by unfold WeightsInt32; decide) (by unfold WeightsInt32; decide)
      (by unfold WeightsInt32; decide) (by unfold WeightsInt32; decide)⟩

end DpBestPath
